import Mathlib

/-!
# Circuit breaker (challenge20/circuit_breaker.go)

A shallow embedding of the breaker's sequential behaviour.

Modelling conventions
* `time.Time` and `time.Duration` are integers (nanoseconds); `Add` is `+`, `Before` is `<`,
  and the zero `time.Time` is `0`.  Every `time.Now()` the code reads is an explicit argument.
* `int64` counters are integers kept in range by `wrapInt64`; the `uint32` trial counter is a
  natural number kept in range by `wrapUint32`.
* `error` and function values that may be `nil` are `Option`s; calling a `nil` function value
  panics, which is the `none` result of `recordFailure` and `Call`.
* The mutex is not modelled: one `Call` runs at a time, and the wrapped operation only observes
  the breaker (through `GetState` / `GetMetrics`), it does not call back into it.
* `trace` is a ghost field: it records, in order, every invocation of the wrapped operation and
  every invocation of the `OnStateChange` callback.
-/

namespace CircuitBreaker

/-- State represents the current state of the circuit breaker. -/
inductive State where
  | StateClosed
  | StateOpen
  | StateHalfOpen
  deriving DecidableEq, Repr

/-- Instants, in nanoseconds; the zero value of `time.Time` is `0`. -/
abbrev Time := Int

/-- Durations, in nanoseconds (`int64` in the source). -/
abbrev Duration := Int

/-- The constant `time.Second`. -/
def Second : Duration := 1000000000

/-- The constant `time.Minute`. -/
def Minute : Duration := 60 * Second

/-- Two's-complement wrap-around of an `int64` result. -/
def wrapInt64 (x : Int) : Int := (x + 9223372036854775808) % 18446744073709551616 - 9223372036854775808

/-- Wrap-around of a `uint32` result. -/
def wrapUint32 (x : Nat) : Nat := x % 4294967296

/-- Metrics represents the circuit breaker metrics. -/
structure Metrics where
  Requests : Int
  Successes : Int
  Failures : Int
  ConsecutiveFailures : Int
  LastFailureTime : Time
  deriving DecidableEq, Repr

/-- The zero value `Metrics{}`. -/
def Metrics.zero : Metrics :=
  { Requests := 0, Successes := 0, Failures := 0, ConsecutiveFailures := 0, LastFailureTime := 0 }

/-- Non-nil `error` values: the two sentinels of the package and any other error. -/
inductive GoError where
  | ErrCircuitBreakerOpen
  | ErrTooManyRequests
  | other (code : Nat)
  deriving DecidableEq, Repr

/-- Values of type `any`: `nil` or some boxed payload. -/
inductive GoAny where
  | nil
  | box (payload : Nat)
  deriving DecidableEq, Repr

/-- Calls the breaker makes to code it does not own. -/
inductive Event where
  | operation (observed : State)
  | onStateChange (name : String) (fromState toState : State)
  deriving DecidableEq, Repr

/-- Config represents the configuration for the circuit breaker. -/
structure Config where
  MaxRequests : Nat
  Interval : Duration
  Timeout : Duration
  ReadyToTrip : Option (Metrics → Bool)
  OnStateChange : Option (String → State → State → Unit)

/-- The concrete implementation of the breaker (without its mutex), plus the ghost `trace`. -/
structure circuitBreakerImpl where
  name : String
  config : Config
  state : State
  metrics : Metrics
  lastStateChange : Time
  halfOpenRequests : Nat
  trace : List Event

/-- The default `ReadyToTrip` installed by `NewCircuitBreaker`. -/
def defaultReadyToTrip (m : Metrics) : Bool := decide (m.ConsecutiveFailures ≥ 5)

/-- NewCircuitBreaker creates a new circuit breaker with the given configuration;
`now` is the value of `time.Now()`. -/
def NewCircuitBreaker (config : Config) (now : Time) : circuitBreakerImpl :=
  let config := if config.MaxRequests = 0 then { config with MaxRequests := 1 } else config
  let config := if config.Interval = 0 then { config with Interval := Minute } else config
  let config := if config.Timeout = 0 then { config with Timeout := 30 * Second } else config
  let config :=
    if config.ReadyToTrip.isNone then { config with ReadyToTrip := some defaultReadyToTrip }
    else config
  { name := "circuit-breaker"
    config := config
    state := State.StateClosed
    metrics := Metrics.zero
    lastStateChange := now
    halfOpenRequests := 0
    trace := [] }

/-- GetState returns the current state of the circuit breaker. -/
def GetState (cb : circuitBreakerImpl) : State := cb.state

/-- GetMetrics returns the current metrics of the circuit breaker. -/
def GetMetrics (cb : circuitBreakerImpl) : Metrics := cb.metrics

/-- The state change made by `setState`; `now` is the value of `time.Now()` it reads. -/
def setState (cb : circuitBreakerImpl) (newState : State) (now : Time) : circuitBreakerImpl :=
  if cb.state = newState then cb
  else
    let cb1 := { cb with lastStateChange := now }
    let cb2 :=
      match newState with
      | State.StateClosed => { cb1 with halfOpenRequests := 0, metrics := Metrics.zero }
      | State.StateOpen => { cb1 with halfOpenRequests := 0 }
      | State.StateHalfOpen => cb1
    let fromState := cb2.state
    let cb3 := { cb2 with state := newState }
    if cb3.config.OnStateChange.isSome then
      { cb3 with trace := cb3.trace ++ [Event.onStateChange cb3.name fromState newState] }
    else cb3

/-- The readiness test of `isReady`; `now` is the value of `time.Now()` it reads. -/
def isReady (cb : circuitBreakerImpl) (now : Time) : Bool :=
  decide (cb.state = State.StateOpen) && decide (cb.lastStateChange + cb.config.Timeout < now)

/-- The admission check `canExecute`: the breaker afterwards and the returned error.
`nowCheck` is read by `isReady`, `nowSet` by `setState`. -/
def canExecute (cb : circuitBreakerImpl) (nowCheck nowSet : Time) :
    circuitBreakerImpl × Option GoError :=
  if GetState cb = State.StateOpen then
    if cb.state ≠ State.StateOpen then (cb, none)
    else if !isReady cb nowCheck then (cb, some GoError.ErrCircuitBreakerOpen)
    else (setState cb State.StateHalfOpen nowSet, none)
  else (cb, none)

/-- The outcome recording of `recordSuccess`; `nowSet` is read by `setState`. -/
def recordSuccess (cb : circuitBreakerImpl) (nowSet : Time) : circuitBreakerImpl :=
  let cb1 :=
    { cb with
      metrics :=
        { cb.metrics with
          Requests := wrapInt64 (cb.metrics.Requests + 1)
          Successes := wrapInt64 (cb.metrics.Successes + 1)
          ConsecutiveFailures := 0 } }
  if cb1.state = State.StateHalfOpen then
    let cb2 := { cb1 with halfOpenRequests := wrapUint32 (cb1.halfOpenRequests + 1) }
    if cb2.halfOpenRequests = cb2.config.MaxRequests then setState cb2 State.StateClosed nowSet
    else cb2
  else cb1

/-- The trip test of `shouldTrip`; `none` when `ReadyToTrip` is nil (the call panics). -/
def shouldTrip (cb : circuitBreakerImpl) : Option Bool :=
  match cb.config.ReadyToTrip with
  | none => none
  | some f => some (f cb.metrics)

/-- The outcome recording of `recordFailure`; `nowFail` is the `time.Now()` stored in
`LastFailureTime`, `nowSet` is read by `setState`.  `none` when `shouldTrip` panics. -/
def recordFailure (cb : circuitBreakerImpl) (nowFail nowSet : Time) : Option circuitBreakerImpl :=
  let cb1 :=
    { cb with
      metrics :=
        { cb.metrics with
          Requests := wrapInt64 (cb.metrics.Requests + 1)
          Failures := wrapInt64 (cb.metrics.Failures + 1)
          ConsecutiveFailures := wrapInt64 (cb.metrics.ConsecutiveFailures + 1)
          LastFailureTime := nowFail } }
  if cb1.state = State.StateClosed then
    match shouldTrip cb1 with
    | none => none
    | some true => some (setState cb1 State.StateOpen nowSet)
    | some false =>
      if cb1.state = State.StateHalfOpen then some (setState cb1 State.StateOpen nowSet)
      else some cb1
  else if cb1.state = State.StateHalfOpen then some (setState cb1 State.StateOpen nowSet)
  else some cb1

/-- What the surroundings supply to one `Call`: the context error, the wrapped operation
(which may look at the breaker through `GetState` and `GetMetrics`), and the clock readings. -/
structure CallEnv where
  ctxErr : Option GoError
  operation : State → Metrics → GoAny × Option GoError
  nowCheck : Time
  nowHalfOpen : Time
  nowFailure : Time
  nowRecord : Time

/-- What one `Call` yields: the returned pair and the breaker afterwards. -/
structure CallResult where
  result : GoAny
  err : Option GoError
  cb : circuitBreakerImpl

/-- Call executes the given operation through the circuit breaker, for an operation that
returns (`env.operation` gives what it returns); `none` when `recordFailure` panics.  What a
call leaves behind when its operation panics is `afterPanic`. -/
def Call (cb : circuitBreakerImpl) (env : CallEnv) : Option CallResult :=
  match env.ctxErr with
  | some err => some { result := GoAny.nil, err := some err, cb := cb }
  | none =>
    match canExecute cb env.nowCheck env.nowHalfOpen with
    | (cb1, some err) => some { result := GoAny.nil, err := some err, cb := cb1 }
    | (cb1, none) =>
      let out := env.operation (GetState cb1) (GetMetrics cb1)
      let cb2 := { cb1 with trace := cb1.trace ++ [Event.operation cb1.state] }
      match out.2 with
      | none => some { result := out.1, err := out.2, cb := recordSuccess cb2 env.nowRecord }
      | some _ =>
        match recordFailure cb2 env.nowFailure env.nowRecord with
        | none => none
        | some cb3 => some { result := out.1, err := out.2, cb := cb3 }

/-- A sequence of calls, one after the other; `none` as soon as one panics. -/
def runCalls (cb : circuitBreakerImpl) : List CallEnv → Option circuitBreakerImpl
  | [] => some cb
  | env :: rest =>
    match Call cb env with
    | none => none
    | some r => runCalls r.cb rest

/-- Breakers that exist in a sequential run: built by `NewCircuitBreaker`, changed by `Call`. -/
inductive Reachable : circuitBreakerImpl → Prop where
  | init (config : Config) (now : Time) : Reachable (NewCircuitBreaker config now)
  | step (cb : circuitBreakerImpl) (env : CallEnv) (r : CallResult) :
      Reachable cb → Call cb env = some r → Reachable r.cb

/-- Number of invocations of the wrapped operation recorded in a trace. -/
def opCount (tr : List Event) : Nat :=
  tr.countP (fun e => match e with
    | Event.operation _ => true
    | Event.onStateChange _ _ _ => false)

/-- The metrics after one more failure has been counted at time `nowFail`
(the four assignments at the top of `recordFailure`). -/
def failureMetrics (m : Metrics) (nowFail : Time) : Metrics :=
  { Requests := wrapInt64 (m.Requests + 1)
    Successes := m.Successes
    Failures := wrapInt64 (m.Failures + 1)
    ConsecutiveFailures := wrapInt64 (m.ConsecutiveFailures + 1)
    LastFailureTime := nowFail }

/-- The metrics after one more success has been counted
(the three assignments at the top of `recordSuccess`). -/
def successMetrics (m : Metrics) : Metrics :=
  { Requests := wrapInt64 (m.Requests + 1)
    Successes := wrapInt64 (m.Successes + 1)
    Failures := m.Failures
    ConsecutiveFailures := 0
    LastFailureTime := m.LastFailureTime }

/-- The `OnStateChange` invocations recorded in a trace, in order, with their arguments. -/
def callbacks (tr : List Event) : List (String × State × State) :=
  tr.filterMap (fun e => match e with
    | Event.onStateChange name fromState toState => some (name, fromState, toState)
    | Event.operation _ => none)

/-- The changes in a sequence of observed states: the consecutive pairs that differ, in order. -/
def stateChanges : List State → List (State × State)
  | [] => []
  | [_] => []
  | a :: b :: rest =>
    if a = b then stateChanges (b :: rest) else (a, b) :: stateChanges (b :: rest)

/-- The states of the breaker at the points of one call at which its state may have changed:
after the admission check and after the outcome is recorded.  A call stopped by its context
reaches neither point. -/
def statesOfCall (cb : circuitBreakerImpl) (env : CallEnv) : List State :=
  match env.ctxErr with
  | some _ => []
  | none =>
    match Call cb env with
    | none => [(canExecute cb env.nowCheck env.nowHalfOpen).1.state]
    | some r => [(canExecute cb env.nowCheck env.nowHalfOpen).1.state, r.cb.state]

/-- The state changes of a run of calls, each as the argument triple `OnStateChange` should
receive for it, in the order the changes occur. -/
def expectedCallbacks (cb : circuitBreakerImpl) : List CallEnv → List (String × State × State)
  | [] => []
  | env :: rest =>
    match Call cb env with
    | none => []
    | some r =>
      (stateChanges (cb.state :: statesOfCall cb env)).map (fun p => (cb.name, p.1, p.2))
        ++ expectedCallbacks r.cb rest

/-- Numbers of calls recorded in an observation window. -/
structure Window where
  requests : Nat
  successes : Nat
  failures : Nat
  deriving DecidableEq, Repr

/-- The empty window. -/
def Window.zero : Window := { requests := 0, successes := 0, failures := 0 }

/-- A window with one more recorded call, a success when `success` is true. -/
def Window.record (w : Window) (success : Bool) : Window :=
  if success then { w with requests := w.requests + 1, successes := w.successes + 1 }
  else { w with requests := w.requests + 1, failures := w.failures + 1 }

/-- Windows that start whenever the breaker enters a state: every change of state. -/
def enteredAnyState (a b : State) : Bool := decide (a ≠ b)

/-- Windows that start only when the breaker enters Closed. -/
def enteredClosed (a b : State) : Bool := decide (a ≠ b ∧ b = State.StateClosed)

/-- The window counts after one call that returned `r`, when `newWindow a b` tells whether a
change of state from `a` to `b` starts a new window.  A call stopped by its context or by the
admission check records nothing.  Otherwise the admission check may change the state, the call
is recorded, and recording may change the state again. -/
def windowStep (newWindow : State → State → Bool) (cb : circuitBreakerImpl) (env : CallEnv)
    (r : CallResult) (w : Window) : Window :=
  match env.ctxErr with
  | some _ => w
  | none =>
    match canExecute cb env.nowCheck env.nowHalfOpen with
    | (_, some _) => w
    | (cb1, none) =>
      let w1 := if newWindow cb.state cb1.state then Window.zero else w
      let w2 := w1.record (decide (r.err = none))
      if newWindow cb1.state r.cb.state then Window.zero else w2

/-- The window counts after a run of calls. -/
def windowAfter (newWindow : State → State → Bool) (cb : circuitBreakerImpl) (w : Window) :
    List CallEnv → Window
  | [] => w
  | env :: rest =>
    match Call cb env with
    | none => w
    | some r => windowAfter newWindow r.cb (windowStep newWindow cb env r w) rest

/-- Facts about a breaker that every sequential run maintains: the metrics identity (with the
wrapping `+` of `int64`), the normalised configuration, and an idle trial counter outside
HalfOpen. -/
def WellFormed (cb : circuitBreakerImpl) : Prop :=
  cb.metrics.Requests = wrapInt64 (cb.metrics.Successes + cb.metrics.Failures) ∧
  1 ≤ cb.config.MaxRequests ∧
  cb.config.ReadyToTrip.isSome = true ∧
  (cb.state ≠ State.StateHalfOpen → cb.halfOpenRequests = 0)

/-- The zero value `Config{}`. -/
def zeroConfig : Config :=
  { MaxRequests := 0, Interval := 0, Timeout := 0, ReadyToTrip := none, OnStateChange := none }

/-- A breaker with the default configuration that tripped at time `5`. -/
def trippedBreaker : circuitBreakerImpl :=
  { NewCircuitBreaker zeroConfig 0 with
    state := State.StateOpen
    lastStateChange := 5
    metrics :=
      { Requests := 5, Successes := 0, Failures := 5, ConsecutiveFailures := 5,
        LastFailureTime := 5 } }

/-- A breaker with the default configuration probing recovery since time `40`. -/
def probingBreaker : circuitBreakerImpl :=
  { trippedBreaker with state := State.StateHalfOpen, lastStateChange := 40 * Second }

/-- A call at time `t` with a live context whose operation fails with error `7`. -/
def failingCall (t : Time) : CallEnv :=
  { ctxErr := none
    operation := fun _ _ => (GoAny.nil, some (GoError.other 7))
    nowCheck := t, nowHalfOpen := t, nowFailure := t, nowRecord := t }

/-- A call at time `t` with a live context whose operation returns `42`. -/
def succeedingCall (t : Time) : CallEnv :=
  { ctxErr := none
    operation := fun _ _ => (GoAny.box 42, none)
    nowCheck := t, nowHalfOpen := t, nowFailure := t, nowRecord := t }

/-- What the first failing call at time `1` yields on a new default breaker made at time `0`. -/
def onceFailed : CallResult :=
  { result := GoAny.nil
    err := some (GoError.other 7)
    cb :=
      { NewCircuitBreaker zeroConfig 0 with
        metrics :=
          { Requests := 1, Successes := 0, Failures := 1, ConsecutiveFailures := 1,
            LastFailureTime := 1 }
        trace := [Event.operation State.StateClosed] } }

/-- A configuration with three half-open trials that trips on the first failure. -/
def probeConfig : Config :=
  { zeroConfig with
    MaxRequests := 3
    ReadyToTrip := some (fun m => decide (m.ConsecutiveFailures ≥ 1)) }

/-- What the first failing call at time `1` yields on a new `probeConfig` breaker made at
time `0`: the breaker has tripped. -/
def trippedOnce : CallResult :=
  { result := GoAny.nil
    err := some (GoError.other 7)
    cb :=
      { NewCircuitBreaker probeConfig 0 with
        state := State.StateOpen
        lastStateChange := 1
        metrics :=
          { Requests := 1, Successes := 0, Failures := 1, ConsecutiveFailures := 1,
            LastFailureTime := 1 }
        trace := [Event.operation State.StateClosed] } }

/-- A configuration with a callback that trips on the first failure. -/
def notifyingConfig : Config :=
  { zeroConfig with
    ReadyToTrip := some (fun m => decide (m.ConsecutiveFailures ≥ 1))
    OnStateChange := some (fun _ _ _ => ()) }

/-- The breaker after a failing call at time `1` and a successful call at 40 s on a new
`notifyingConfig` breaker made at time `0`: it tripped, probed and closed again. -/
def notifiedBreaker : circuitBreakerImpl :=
  { NewCircuitBreaker notifyingConfig 0 with
    lastStateChange := 40 * Second
    trace :=
      [Event.operation State.StateClosed,
       Event.onStateChange "circuit-breaker" State.StateClosed State.StateOpen,
       Event.onStateChange "circuit-breaker" State.StateOpen State.StateHalfOpen,
       Event.operation State.StateHalfOpen,
       Event.onStateChange "circuit-breaker" State.StateHalfOpen State.StateClosed] }

/-- A call at time `t` whose context is already done with error `1`. -/
def cancelledCall (t : Time) : CallEnv :=
  { succeedingCall t with ctxErr := some (GoError.other 1) }

end CircuitBreaker

/-!
# Slices, sorting and searching (challenge16/perf.go, challenge23/match.go)

Modelling conventions
* A Go slice is a list; a read or write with an index out of range panics, which is `none`.
  Indices are integers, as in the source.
* Go `int` values that are only compared and moved are integers.
* A Go `string` is a Lean string; `[]rune(s)` is `s.toList` and its bytes are `s.toUTF8`.
* Loops and recursions that have no structural bound take a fuel; running out of fuel is `none`.
-/

namespace GoSlice

/-- The read `s[i]` of a Go slice: `none` when the index is out of range (the read panics). -/
def index {α : Type} (s : List α) (i : Int) : Option α :=
  if 0 ≤ i then s[i.toNat]? else none

/-- The write `s[i] = v` of a Go slice: `none` when the index is out of range. -/
def assign {α : Type} (s : List α) (i : Int) (v : α) : Option (List α) :=
  if 0 ≤ i ∧ i < s.length then some (s.set i.toNat v) else none

/-- The swap `s[a], s[b] = s[b], s[a]`: both reads, then both writes. -/
def swap {α : Type} (s : List α) (a b : Int) : Option (List α) :=
  match index s a, index s b with
  | some x, some y =>
    match assign s a y with
    | none => none
    | some s1 => assign s1 b x
  | _, _ => none

/-- The slice `make([]int, n)`. -/
def make (n : Nat) : List Int := List.replicate n 0

/-- The contents of `dst` after `copy(dst, src)`. -/
def copy (dst src : List Int) : List Int := src.take dst.length ++ dst.drop src.length

end GoSlice

namespace Perf

/-- One step of the inner loop of `SlowSort`, at index `j`. -/
def bubbleStep (result : List Int) (j : Nat) : Option (List Int) :=
  match GoSlice.index result j, GoSlice.index result ((j : Int) + 1) with
  | some x, some y => if x > y then GoSlice.swap result j ((j : Int) + 1) else some result
  | _, _ => none

/-- The inner loop of `SlowSort`: `for j := range len(result) - 1`. -/
def bubblePass (result : List Int) : Option (List Int) :=
  (List.range ((result.length : Int) - 1).toNat).foldlM bubbleStep result

/-- SlowSort sorts a slice of integers using bubble sort; `none` if an access panics. -/
def SlowSort (data : List Int) : Option (List Int) :=
  let result := GoSlice.copy (GoSlice.make data.length) data
  (List.range result.length).foldlM (fun res _ => bubblePass res) result

/-- The variables of the loop in `partition`. -/
structure PartitionState where
  nums : List Int
  leftBoundary : Int
  rightBoundary : Int
  cursor : Int
  deriving DecidableEq, Repr

/-- One iteration of the loop in `partition` (the `switch`). -/
def partitionStep (leftPivotValue rightPivotValue : Int) (s : PartitionState) :
    Option PartitionState :=
  match GoSlice.index s.nums s.cursor with
  | none => none
  | some c =>
    if c < leftPivotValue then
      match GoSlice.swap s.nums s.cursor s.leftBoundary with
      | none => none
      | some nums =>
        some { s with nums := nums, leftBoundary := s.leftBoundary + 1, cursor := s.cursor + 1 }
    else if c > rightPivotValue then
      match GoSlice.swap s.nums s.cursor s.rightBoundary with
      | none => none
      | some nums => some { s with nums := nums, rightBoundary := s.rightBoundary - 1 }
    else some { s with cursor := s.cursor + 1 }

/-- The loop `for cursor <= rightBoundary` of `partition`, run for at most `fuel` iterations;
`none` when an iteration panics or the fuel runs out before the loop ends. -/
def partitionLoop (leftPivotValue rightPivotValue : Int) :
    Nat → PartitionState → Option PartitionState
  | 0, s => if s.cursor ≤ s.rightBoundary then none else some s
  | fuel + 1, s =>
    if s.cursor ≤ s.rightBoundary then
      match partitionStep leftPivotValue rightPivotValue s with
      | none => none
      | some s1 => partitionLoop leftPivotValue rightPivotValue fuel s1
    else some s

/-- The function `partition`: the slice afterwards and the two pivot indices.  The loop is given
`hi - lo` iterations. -/
def partition (nums : List Int) (lo hi : Int) : Option (List Int × Int × Int) :=
  match GoSlice.index nums lo, GoSlice.index nums hi with
  | some x, some y =>
    match (if x > y then GoSlice.swap nums lo hi else some nums) with
    | none => none
    | some nums1 =>
      match GoSlice.index nums1 lo, GoSlice.index nums1 hi with
      | some leftPivotValue, some rightPivotValue =>
        match partitionLoop leftPivotValue rightPivotValue (hi - lo).toNat
            { nums := nums1, leftBoundary := lo + 1, rightBoundary := hi - 1,
              cursor := lo + 1 } with
        | none => none
        | some s =>
          match GoSlice.swap s.nums lo (s.leftBoundary - 1) with
          | none => none
          | some nums2 =>
            match GoSlice.swap nums2 hi (s.rightBoundary + 1) with
            | none => none
            | some nums3 => some (nums3, s.leftBoundary - 1, s.rightBoundary + 1)
      | _, _ => none
  | _, _ => none

/-- The function `SortDualPivot`, with recursion depth at most `fuel`; `none` when an access
panics or the fuel runs out. -/
def SortDualPivot : Nat → List Int → Int → Int → Option (List Int)
  | 0, nums, lo, hi => if lo ≥ hi then some nums else none
  | fuel + 1, nums, lo, hi =>
    if lo ≥ hi then some nums
    else
      match partition nums lo hi with
      | none => none
      | some (nums1, leftPivotIndex, rightPivotIndex) =>
        match SortDualPivot fuel nums1 lo (leftPivotIndex - 1) with
        | none => none
        | some nums2 =>
          match SortDualPivot fuel nums2 (leftPivotIndex + 1) (rightPivotIndex - 1) with
          | none => none
          | some nums3 => SortDualPivot fuel nums3 (rightPivotIndex + 1) hi

/-- OptimizedSort: copy the input and sort the copy with `SortDualPivot`, whose recursion is
given depth `len(data)`. -/
def OptimizedSort (data : List Int) : Option (List Int) :=
  let res := GoSlice.copy (GoSlice.make data.length) data
  SortDualPivot data.length res 0 ((res.length : Int) - 1)

/-- One bubbling pass over `a :: l`, by recursion on `l`: the larger element is carried along. -/
def bubbleAux (a : Int) : List Int → List Int
  | [] => [a]
  | b :: rest => if a > b then b :: bubbleAux a rest else a :: bubbleAux b rest

/-- One bubbling pass over a list. -/
def bubble : List Int → List Int
  | [] => []
  | a :: rest => bubbleAux a rest

/-- The state of the loop in `partition` when the slice is
`pre ++ [p1] ++ A ++ B ++ U ++ C ++ [p2] ++ post`: `A` lies left of `leftBoundary`, `B` between
`leftBoundary` and `cursor`, `U` from `cursor` to `rightBoundary`, `C` right of it. -/
def partitionView (pre post : List Int) (p1 p2 : Int) (A B U C : List Int) : PartitionState :=
  { nums := pre ++ p1 :: (A ++ (B ++ (U ++ (C ++ p2 :: post))))
    leftBoundary := (pre.length : Int) + 1 + A.length
    rightBoundary := (pre.length : Int) + A.length + B.length + U.length
    cursor := (pre.length : Int) + 1 + A.length + B.length }

/-- The variables of the loop in `kmpLoop`; `lps` is the shared slice the loop writes to. -/
structure KmpState where
  i : Int
  j : Int
  lps : List Int
  found : List Int
  deriving DecidableEq, Repr

/-- One iteration of the loop in `kmpLoop` (the `switch`), `none` when an index is out of
range. -/
def kmpStep (haystack needle : List Char) (buildLPS : Bool) (s : KmpState) : Option KmpState :=
  match GoSlice.index needle s.i, GoSlice.index haystack s.j with
  | some a, some b =>
    if a = b then
      let i := s.i + 1
      let j := s.j + 1
      if buildLPS ∧ i < s.lps.length then
        match GoSlice.assign s.lps i i with
        | none => none
        | some lps => some { s with i := i, j := j, lps := lps }
      else if i = needle.length then
        match GoSlice.index s.lps (i - 1) with
        | none => none
        | some v => some { s with i := v, j := j, found := s.found ++ [j - i] }
      else some { s with i := i, j := j }
    else if s.i > 0 then
      match GoSlice.index s.lps (s.i - 1) with
      | none => none
      | some v => some { s with i := v }
    else if buildLPS then
      match GoSlice.assign s.lps s.i 0 with
      | none => none
      | some lps => some { s with lps := lps, j := s.j + 1 }
    else some { s with j := s.j + 1 }
  | _, _ => none

/-- The loop `for j < len(haystack)` of `kmpLoop`, run for at most `fuel` iterations; `none`
when an iteration panics or the fuel runs out before the loop ends. -/
def kmpIterate (haystack needle : List Char) (buildLPS : Bool) : Nat → KmpState → Option KmpState
  | 0, s => if s.j < haystack.length then none else some s
  | fuel + 1, s =>
    if s.j < haystack.length then
      match kmpStep haystack needle buildLPS s with
      | none => none
      | some s1 => kmpIterate haystack needle buildLPS fuel s1
    else some s

/-- The function `kmpLoop`: the matches it returns and the `lps` slice as it leaves it.  The loop
is given `2 * len(haystack) + 1` iterations. -/
def kmpLoop (haystack needle : List Char) (start : Int) (lps : List Int) (buildLPS : Bool) :
    Option (List Int × List Int) :=
  match kmpIterate haystack needle buildLPS (2 * haystack.length + 1)
      { i := 0, j := start, lps := lps, found := [] } with
  | none => none
  | some s => some (s.found, s.lps)

end Perf

namespace PatternMatch

/-- The bytes of a Go string. -/
def bytes (s : String) : List UInt8 := s.toUTF8.data.toList

/-- NaivePatternMatch performs a brute force search for pattern in text (byte positions). -/
def NaivePatternMatch (text pattern : String) : List Int :=
  let n := (bytes text).length
  let m := (bytes pattern).length
  if n < m ∨ m = 0 then []
  else
    (List.range (n - m + 1)).foldl
      (fun res i =>
        if ((bytes text).drop i).take m = bytes pattern then res ++ [(i : Int)] else res)
      []

/-- KMPSearch: the Knuth-Morris-Pratt search on the runes of `text` and `pattern`; `none` when
a loop panics.  The function it calls for both loops, `perf.KMPLoop`, is not among the sources
(`perf.go` has only the unexported `kmpLoop`, which package `match` cannot call), so it is the
parameter `KMPLoop`: from the haystack, the needle, the start index, the `lps` slice and the
flag it gives the slice it returns and the `lps` slice as it leaves it, `none` when it panics. -/
def KMPSearch
    (KMPLoop : List Char → List Char → Int → List Int → Bool → Option (List Int × List Int))
    (text pattern : String) : Option (List Int) :=
  let haystack := text.toList
  let needle := pattern.toList
  let n := needle.length
  if haystack.length < n ∨ n = 0 then some []
  else
    let lps := List.replicate n (0 : Int)
    match KMPLoop needle needle 1 lps true with
    | none => none
    | some (_, lps1) =>
      match KMPLoop haystack needle 0 lps1 false with
      | none => none
      | some (found, _) => some found

end PatternMatch

/-!
# Calculations and searches (challenge16/perf.go, challenge23/match.go)

Modelling conventions
* The sums and products of `int` and `int64` values wrap to 64 bits (`wrapInt64`); Go's `%` is
  the truncating `Int.tmod`.
* A `map[int]string` is the list of its entries in ascending key order, the strings as bytes.
* `strings.ToLower` is modelled on ASCII text.
-/

namespace GoSlice

/-- The slice expression `s[lo:hi]` on a string or slice; `none` (a panic) unless
`0 <= lo <= hi <= len(s)`. -/
def slice {α : Type} (s : List α) (lo hi : Int) : Option (List α) :=
  if 0 ≤ lo ∧ lo ≤ hi ∧ hi ≤ s.length then some ((s.drop lo.toNat).take (hi - lo).toNat)
  else none

end GoSlice

namespace GoMap

/-- The assignment `m[k] = v` on a `map[int]V`, the map kept as the list of its entries in
ascending key order, so that two maps are identical exactly when their lists are equal. -/
def insert {V : Type} : List (Int × V) → Int → V → List (Int × V)
  | [], k, v => [(k, v)]
  | (k1, v1) :: rest, k, v =>
    if k < k1 then (k, v) :: (k1, v1) :: rest
    else if k = k1 then (k, v) :: rest
    else (k1, v1) :: insert rest k v

end GoMap

namespace Perf

/-- The call `strings.ToLower` on the letters `A` to `Z`; every other character is left as it is,
which is what Go does on ASCII text. -/
def ToLower (s : String) : String := String.mk (s.toList.map Char.toLower)

/-- HighAllocationSearch searches for all occurrences of a substring and creates a map with
their positions.  Strings are indexed by byte; `none` when a slice expression panics. -/
def HighAllocationSearch (text substr : String) : Option (List (Int × List UInt8)) :=
  let lowerText := PatternMatch.bytes (ToLower text)
  let lowerSubstr := PatternMatch.bytes (ToLower substr)
  (List.range lowerText.length).foldl
    (fun acc i =>
      match acc with
      | none => none
      | some result =>
        if (i : Int) + lowerSubstr.length ≤ lowerText.length then
          match GoSlice.slice lowerText i ((i : Int) + lowerSubstr.length) with
          | none => none
          | some potentialMatch =>
            if potentialMatch = lowerSubstr then
              match GoSlice.slice (PatternMatch.bytes text) i
                  ((i : Int) + (PatternMatch.bytes substr).length) with
              | none => none
              | some original => some (GoMap.insert result i original)
            else some result
        else some result)
    (some [])

/-- OptimizedSearch: the two `kmpLoop` passes on the runes of the lower-cased strings, then
`result[starts[i]] = text[starts[i] : starts[i]+n]` for every start found; `none` when a loop or
a slice expression panics. -/
def OptimizedSearch (text substr : String) : Option (List (Int × List UInt8)) :=
  let haystack := (ToLower text).toList
  let needle := (ToLower substr).toList
  let n := needle.length
  let lps := List.replicate n (0 : Int)
  match kmpLoop needle needle 1 lps true with
  | none => none
  | some (_, lps1) =>
    match kmpLoop haystack needle 0 lps1 false with
    | none => none
    | some (starts, _) =>
      starts.foldl
        (fun acc start =>
          match acc with
          | none => none
          | some result =>
            match GoSlice.slice (PatternMatch.bytes text) start (start + n) with
            | none => none
            | some original => some (GoMap.insert result start original))
        (some [])

end Perf

namespace Perf

/-- The helper `fibonacci` of `perf.go`: `n` when `n <= 1`, else the sum of the two recursive
calls as an int64.  `fuel` bounds the depth of the recursion; `none` when it runs out. -/
def fibonacci : Nat → Int → Option Int
  | 0, _ => none
  | fuel + 1, n =>
    if n ≤ 1 then some n
    else
      match fibonacci fuel (n - 1), fibonacci fuel (n - 2) with
      | some a, some b => some (CircuitBreaker.wrapInt64 (a + b))
      | _, _ => none

/-- The loop `for i := 1; i <= n; i++ { sum += fibonacci(i) }` of `ExpensiveCalculation`, run
for at most `fuel` tests of the condition; counter and sum are int64. -/
def expensiveLoop (n : Int) : Nat → Int → Int → Option Int
  | 0, _, _ => none
  | fuel + 1, i, sum =>
    if i ≤ n then
      match fibonacci (i.toNat + 1) i with
      | none => none
      | some f =>
        expensiveLoop n fuel (CircuitBreaker.wrapInt64 (i + 1)) (CircuitBreaker.wrapInt64 (sum + f))
    else some sum

/-- ExpensiveCalculation computes the sum of all fibonacci numbers up to n.  The loop is given
`n + 1` tests of its condition; `none` when that is not enough. -/
def ExpensiveCalculation (n : Int) : Option Int :=
  if n ≤ 0 then some 0
  else expensiveLoop n (n.toNat + 1) 1 0

/-- The loop `for i := 2; i <= n; i++` of `OptimizedCalculation` on the array `fibs = [f0, f1]`:
`fibs[i%2] = fibs[0] + fibs[1]; res += fibs[i%2]`.  Go's `%` truncates, so `i%2` is `-1` for a
negative odd `i`, which is an index out of range (`none`). -/
def optimizedLoop (n : Int) : Nat → Int → Int → Int → Int → Option Int
  | 0, _, _, _, _ => none
  | fuel + 1, i, f0, f1, res =>
    if i ≤ n then
      let v := CircuitBreaker.wrapInt64 (f0 + f1)
      if i.tmod 2 = 0 then
        optimizedLoop n fuel (CircuitBreaker.wrapInt64 (i + 1)) v f1 (CircuitBreaker.wrapInt64 (res + v))
      else if i.tmod 2 = 1 then
        optimizedLoop n fuel (CircuitBreaker.wrapInt64 (i + 1)) f0 v (CircuitBreaker.wrapInt64 (res + v))
      else none
    else some res

/-- OptimizedCalculation: panics (`none`) on a negative `n`, returns `n` below 2, and otherwise
runs the loop from `res = 1`, `fibs = [0, 1]`.  The loop starts at 2 and is given `n` tests of
its condition. -/
def OptimizedCalculation (n : Int) : Option Int :=
  if n < 0 then none
  else if n < 2 then some n
  else optimizedLoop n n.toNat 2 0 1 1

end Perf

namespace PatternMatch

/-- The brute force search of `NaivePatternMatch` on the bytes of its two arguments. -/
def naiveOnBytes (text pattern : List UInt8) : List Int :=
  let n := text.length
  let m := pattern.length
  if n < m ∨ m = 0 then []
  else
    (List.range (n - m + 1)).foldl
      (fun res i => if (text.drop i).take m = pattern then res ++ [(i : Int)] else res)
      []

/-- The loop of `powMod`, run for at most `fuel` iterations.  On an int64, `exp&1 == 1` is
`exp % 2 = 1` and `exp >>= 1` is the floor division by 2; the products wrap to 64 bits and Go's
`%` truncates towards zero. -/
def powModLoop (mod : Int) : Nat → Int → Int → Int → Option Int
  | 0, result, _, exp => if exp > 0 then none else some result
  | fuel + 1, result, base, exp =>
    if exp > 0 then
      powModLoop mod fuel
        (if exp % 2 = 1 then (CircuitBreaker.wrapInt64 (result * base)).tmod mod else result)
        ((CircuitBreaker.wrapInt64 (base * base)).tmod mod)
        (exp / 2)
    else some result

/-- The function `powMod`: computes (base^exp) % mod using binary exponentiation.  `base %= mod`
panics when `mod` is 0; the loop is given `exp` iterations. -/
def powMod (base exp mod : Int) : Option Int :=
  if mod = 0 then none
  else powModLoop mod exp.toNat 1 (base.tmod mod) exp

/-- One round of the first loop of `RabinKarpSearch`: `hash = (base*hash + int64(c)) % prime`
with `base = 256` and `prime = 101`. -/
def hashStep (hash : Int) (c : UInt8) : Int :=
  (CircuitBreaker.wrapInt64 (256 * hash + (c.toNat : Int))).tmod 101

/-- The variables the second loop of `RabinKarpSearch` updates. -/
structure RabinKarpState where
  txtHash : Int
  res : List Int
  deriving DecidableEq, Repr

/-- One round of the second loop of `RabinKarpSearch` at index `i`: report `i` when the hashes
agree and `text[i:i+m] == pattern`, then roll the hash when `i < n-m`.  The int64 expression is
wrapped once before the `%`, which gives the same value as wrapping each intermediate result. -/
def rabinKarpStep (text pattern : List UInt8) (h patHash : Int) (s : RabinKarpState) (i : Nat) :
    Option RabinKarpState :=
  let n : Int := text.length
  let m : Int := pattern.length
  let res1 :=
    if patHash = s.txtHash ∧ (text.drop i).take pattern.length = pattern then s.res ++ [(i : Int)]
    else s.res
  if (i : Int) < n - m then
    match GoSlice.index text i, GoSlice.index text ((i : Int) + m) with
    | some cOld, some cNew =>
      let txtHash :=
        (CircuitBreaker.wrapInt64
          (256 * (s.txtHash - (cOld.toNat : Int) * h) + (cNew.toNat : Int))).tmod 101
      some { txtHash := if txtHash < 0 then CircuitBreaker.wrapInt64 (txtHash + 101) else txtHash
             res := res1 }
    | _, _ => none
  else some { txtHash := s.txtHash, res := res1 }

/-- The Rabin-Karp search on the bytes of text and pattern; `none` when a call panics.  The
first loop reads `pattern[i]` and `text[i]` for `i < m`, the first `m` bytes of each (`m <= n`
there). -/
def rabinKarpOnBytes (text pattern : List UInt8) : Option (List Int) :=
  let n := text.length
  let m := pattern.length
  if n < m ∨ m = 0 then some []
  else
    match powMod 256 ((m : Int) - 1) 101 with
    | none => none
    | some h =>
      let patHash := (pattern.take m).foldl hashStep 0
      let txtHash := (text.take m).foldl hashStep 0
      match (List.range (n - m + 1)).foldl
          (fun acc i =>
            match acc with
            | none => none
            | some s => rabinKarpStep text pattern h patHash s i)
          (some { txtHash := txtHash, res := [] }) with
      | none => none
      | some s => some s.res

/-- RabinKarpSearch implements the Rabin-Karp algorithm to find pattern in text (byte
positions). -/
def RabinKarpSearch (text pattern : String) : Option (List Int) :=
  rabinKarpOnBytes (bytes text) (bytes pattern)

end PatternMatch

namespace PatternMatch

/-- The number a byte string spells in base 256, most significant byte first; the hash of
`RabinKarpSearch` is this number modulo 101. -/
def baseValue (w : List UInt8) : Int := w.foldl (fun a c => 256 * a + (c.toNat : Int)) 0

/-- The bytes `text[i:i+m]`. -/
def window (text : List UInt8) (m i : Nat) : List UInt8 := (text.drop i).take m

end PatternMatch

/-!
# Slice utilities and generic collections (challenge19/slices.go, challenge27)

Modelling conventions
* `map[K]struct{}` used as a set of keys is the list of the keys inserted so far.
* The element type of a generic has decidable equality, and `var zero T` is `default`.
* The nodes of the stack are the cells of a list; the nodes of the queue live in an explicit
  heap (a list addressed by position), with `nil` pointers as `none`.
* Sizes count allocated nodes and are plain integers.
-/

namespace Slices

/-- The constant `math.MinInt32`. -/
def MinInt32 : Int := -2147483648

/-- FindMax returns the maximum value in a slice of integers; 0 for the empty slice. -/
def FindMax (numbers : List Int) : Int :=
  if numbers.length = 0 then 0
  else numbers.foldl (fun maxVal x => max maxVal x) MinInt32

end Slices

namespace Generics

/-- Errors of the package. -/
inductive GoError where
  | ErrEmptyCollection
  deriving DecidableEq, Repr

/-- Stack is a generic LIFO structure: `head` is the chain of nodes from the top. -/
structure Stack (T : Type) where
  head : List T
  size : Int

/-- NewStack creates a new empty stack. -/
def NewStack {T : Type} : Stack T := { head := [], size := 0 }

/-- Push adds an element to the top of the stack. -/
def Stack.Push {T : Type} (s : Stack T) (value : T) : Stack T :=
  { head := value :: s.head, size := s.size + 1 }

/-- Peek returns the top element without removing it, or the zero value and an error. -/
def Stack.Peek {T : Type} [Inhabited T] (s : Stack T) : T × Option GoError :=
  match s.head with
  | [] => (default, some GoError.ErrEmptyCollection)
  | v :: _ => (v, none)

/-- Pop removes and returns the top element: the returned pair and the stack afterwards. -/
def Stack.Pop {T : Type} [Inhabited T] (s : Stack T) : (T × Option GoError) × Stack T :=
  let r := s.Peek
  if r.2 = none then
    (r, { head := s.head.tail, size := s.size - 1 })
  else (r, s)

/-- Size returns the number of elements in the stack. -/
def Stack.Size {T : Type} (s : Stack T) : Int := s.size

/-- IsEmpty returns true if the stack contains no elements. -/
def Stack.IsEmpty {T : Type} (s : Stack T) : Bool := decide (s.size = 0)

/-- Push the values of a list, first to last. -/
def Stack.pushAll {T : Type} (s : Stack T) (values : List T) : Stack T :=
  values.foldl Stack.Push s

/-- Pop `n` times: the returned pairs in order, and the stack afterwards. -/
def Stack.popMany {T : Type} [Inhabited T] :
    Nat → Stack T → List (T × Option GoError) × Stack T
  | 0, s => ([], s)
  | n + 1, s =>
    let r := s.Pop
    let rest := Stack.popMany n r.2
    (r.1 :: rest.1, rest.2)

/-- Set is a generic collection of unique elements. -/
structure Set (T : Type) where
  values : List T

/-- Size returns the number of elements in the set. -/
def Set.Size {T : Type} (s : Set T) : Int := s.values.length

end Generics

namespace Generics

end Generics

namespace Generics

/-- The size field of the stack counts its nodes; true of `NewStack` and kept by `Push` and
`Pop`. -/
def Stack.Consistent {T : Type} (s : Stack T) : Prop := s.size = (s.head.length : Int)

end Generics

namespace Generics

/-- A node of the doubly linked list; `next` and `prev` are addresses in the heap. -/
structure DLLNode (T : Type) where
  Value : T
  next : Option Nat
  prev : Option Nat

/-- Queue is a generic FIFO structure.  `heap` holds every node allocated for this queue, a node
at the address that is its position; `head` and `tail` are addresses. -/
structure Queue (T : Type) where
  heap : List (DLLNode T)
  head : Option Nat
  tail : Option Nat
  size : Int

/-- NewQueue creates a new empty queue. -/
def NewQueue {T : Type} : Queue T := { heap := [], head := none, tail := none, size := 0 }

/-- Enqueue adds an element to the end of the queue; `none` if `q.tail` dangles. -/
def Queue.Enqueue {T : Type} (q : Queue T) (value : T) : Option (Queue T) :=
  let node := q.heap.length
  let heap1 := q.heap ++ [{ Value := value, next := none, prev := q.tail }]
  match q.tail with
  | none => some { heap := heap1, head := some node, tail := some node, size := q.size + 1 }
  | some t =>
    match heap1[t]? with
    | none => none
    | some tailNode =>
      some { heap := heap1.set t { tailNode with next := some node }
             head := q.head
             tail := some node
             size := q.size + 1 }

/-- Front returns the front element without removing it, or the zero value and an error;
`none` if `q.head` dangles. -/
def Queue.Front {T : Type} [Inhabited T] (q : Queue T) : Option (T × Option GoError) :=
  match q.head with
  | none => some (default, some GoError.ErrEmptyCollection)
  | some h =>
    match q.heap[h]? with
    | none => none
    | some headNode => some (headNode.Value, none)

/-- Dequeue removes and returns the front element: the returned pair and the queue afterwards;
`none` if a pointer dangles. -/
def Queue.Dequeue {T : Type} [Inhabited T] (q : Queue T) :
    Option ((T × Option GoError) × Queue T) :=
  match q.Front with
  | none => none
  | some r =>
    if r.2 = none then
      match q.head with
      | none => none
      | some node =>
        match q.heap[node]? with
        | none => none
        | some headNode =>
          match headNode.next with
          | none => some (r, { q with head := none, tail := none, size := q.size - 1 })
          | some nxt =>
            match q.heap[nxt]? with
            | none => none
            | some nextNode =>
              let heap1 := q.heap.set nxt { nextNode with prev := none }
              match heap1[node]? with
              | none => none
              | some headNode1 =>
                some (r, { heap := heap1.set node { headNode1 with next := none }
                           head := some nxt
                           tail := q.tail
                           size := q.size - 1 })
    else some (r, q)

/-- Size returns the number of elements in the queue. -/
def Queue.Size {T : Type} (q : Queue T) : Int := q.size

/-- IsEmpty returns true if the queue contains no elements. -/
def Queue.IsEmpty {T : Type} (q : Queue T) : Bool := decide (q.size = 0)

/-- Enqueue the values of a list, first to last. -/
def Queue.enqueueAll {T : Type} (q : Queue T) : List T → Option (Queue T)
  | [] => some q
  | v :: rest =>
    match q.Enqueue v with
    | none => none
    | some q1 => Queue.enqueueAll q1 rest

/-- Dequeue `n` times: the returned pairs in order, and the queue afterwards. -/
def Queue.dequeueMany {T : Type} [Inhabited T] :
    Nat → Queue T → Option (List (T × Option GoError) × Queue T)
  | 0, q => some ([], q)
  | n + 1, q =>
    match q.Dequeue with
    | none => none
    | some (r, q1) =>
      match Queue.dequeueMany n q1 with
      | none => none
      | some (rs, q2) => some (r :: rs, q2)

end Generics

namespace Generics

/-- The queue `q` holds the values `xs`, front first, in the nodes at the addresses
`k, k + 1, ...` up to the end of its heap, linked by `next`; `head` is the first of them, `tail`
the last, and `size` their number. -/
def Queue.Holds {T : Type} (q : Queue T) (k : Nat) (xs : List T) : Prop :=
  k + xs.length = q.heap.length ∧
  q.size = xs.length ∧
  q.head = (if xs.length = 0 then none else some k) ∧
  q.tail = (if xs.length = 0 then none else some (k + xs.length - 1)) ∧
  ∀ i, i < xs.length →
    ∃ nd, q.heap[k + i]? = some nd ∧ xs[i]? = some nd.Value ∧
      nd.next = (if i + 1 < xs.length then some (k + i + 1) else none)

end Generics

namespace CircuitBreaker

/-- The trial counter is idle outside HalfOpen and below `MaxRequests` in HalfOpen, and
`MaxRequests` is at least 1. -/
def TrialInvariant (cb : circuitBreakerImpl) : Prop :=
  1 ≤ cb.config.MaxRequests ∧
  (cb.state ≠ State.StateHalfOpen → cb.halfOpenRequests = 0) ∧
  (cb.state = State.StateHalfOpen → cb.halfOpenRequests < cb.config.MaxRequests)

/-- The changes of state the breaker is meant to make: Closed to Open, Open to HalfOpen,
HalfOpen to Open and HalfOpen to Closed. -/
def legalTransition (a b : State) : Bool :=
  match a, b with
  | State.StateClosed, State.StateOpen => true
  | State.StateOpen, State.StateHalfOpen => true
  | State.StateHalfOpen, State.StateOpen => true
  | State.StateHalfOpen, State.StateClosed => true
  | _, _ => false

/-- Where one goroutine stands in its `Call`, between two accesses to the shared breaker:
`waiting` before the context check and the read of the state that opens `canExecute`;
`locking` having read Open and waiting for the write lock of `canExecute`; `admitted` with the
admission check passed and the operation not yet run; `ran` holding what the operation returned
and waiting for the lock under which the outcome is recorded; `returned` with the pair that
`Call` gave back. -/
inductive Caller where
  | waiting (env : CallEnv)
  | locking (env : CallEnv)
  | admitted (env : CallEnv)
  | ran (env : CallEnv) (out : GoAny × Option GoError)
  | returned (result : GoAny) (err : Option GoError)

/-- The number of moves a goroutine can still make, at most. -/
def Caller.weight : Caller → Nat
  | Caller.waiting _ => 4
  | Caller.locking _ => 3
  | Caller.admitted _ => 2
  | Caller.ran _ _ => 1
  | Caller.returned _ _ => 0

/-- The next move of one goroutine on the shared breaker, each move being one section of `Call`
that the mutex (or the absence of any shared access) makes indivisible: the context check with
the `GetState` that opens `canExecute`; the write-locked part of `canExecute`; the operation;
the locked recording of the outcome.  The operation runs outside any lock and is one move: as
in `Call`, `env.operation` gives what it returns from the state and the metrics the breaker
shows at that move (a constant `env.operation` is an operation that returns the same whatever
it reads, and when).  `none` for a goroutine that has returned and when `recordFailure`
panics. -/
def advance (cb : circuitBreakerImpl) : Caller → Option (circuitBreakerImpl × Caller)
  | Caller.waiting env =>
    match env.ctxErr with
    | some err => some (cb, Caller.returned GoAny.nil (some err))
    | none =>
      if GetState cb = State.StateOpen then some (cb, Caller.locking env)
      else some (cb, Caller.admitted env)
  | Caller.locking env =>
    if cb.state ≠ State.StateOpen then some (cb, Caller.admitted env)
    else if !isReady cb env.nowCheck then
      some (cb, Caller.returned GoAny.nil (some GoError.ErrCircuitBreakerOpen))
    else some (setState cb State.StateHalfOpen env.nowHalfOpen, Caller.admitted env)
  | Caller.admitted env =>
    some ({ cb with trace := cb.trace ++ [Event.operation cb.state] },
      Caller.ran env (env.operation (GetState cb) (GetMetrics cb)))
  | Caller.ran env out =>
    match out.2 with
    | none => some (recordSuccess cb env.nowRecord, Caller.returned out.1 out.2)
    | some _ =>
      match recordFailure cb env.nowFailure env.nowRecord with
      | none => none
      | some cb1 => some (cb1, Caller.returned out.1 out.2)
  | Caller.returned _ _ => none

/-- A breaker shared by goroutines, each in one `Call`. -/
structure Shared where
  cb : circuitBreakerImpl
  callers : List Caller

/-- Goroutine `i` makes its next move; `none` when there is no such goroutine, when it has
returned, and when the move panics. -/
def Shared.step (s : Shared) (i : Nat) : Option Shared :=
  match s.callers[i]? with
  | none => none
  | some c =>
    match advance s.cb c with
    | none => none
    | some (cb1, c1) => some { cb := cb1, callers := s.callers.set i c1 }

/-- The goroutines move as the schedule says, one move at a time. -/
def Shared.run (s : Shared) : List Nat → Option Shared
  | [] => some s
  | i :: rest =>
    match s.step i with
    | none => none
    | some s1 => s1.run rest

/-- The moves the goroutines can still make, at most. -/
def Shared.movesLeft (s : Shared) : Nat := (s.callers.map Caller.weight).sum

/-- One goroutine per call, none of them begun, on the breaker `cb`. -/
def Shared.launch (cb : circuitBreakerImpl) (envs : List CallEnv) : Shared :=
  { cb := cb, callers := envs.map Caller.waiting }

end CircuitBreaker

namespace GoMap

/-- The read `v, ok := m[k]` on a `map[int]V` given by its entries: the value of the first entry
with key `k`, `none` when there is none (`ok` is false). -/
def lookup {V : Type} : List (Int × V) → Int → Option V
  | [], _ => none
  | (k1, v1) :: rest, k => if k = k1 then some v1 else lookup rest k

end GoMap

/-!
# Bank account (challenge07/account.go)

Modelling conventions
* `float64` amounts are rational numbers: the arithmetic is exact.
* An account is a value; a method that writes to its receiver returns the account afterwards.
  Two arguments of `Transfer` are two accounts, never the same one.
* The mutexes are not modelled: one method runs at a time.
-/

namespace Account

/-- The custom error types of the package, with the fields the code stores in them. -/
inductive GoError where
  | AccountError (accountID message : String)
  | InsufficientFundsError (accountID : String) (amount minBalance : Rat)
  | NegativeAmountError (accountID : String)
  | ExceedsLimitError (accountID : String) (amount : Rat)
  deriving DecidableEq, Repr

/-- BankAccount represents a bank account with balance management and minimum balance
requirements. -/
structure BankAccount where
  ID : String
  Owner : String
  Balance : Rat
  MinBalance : Rat
  deriving DecidableEq, Repr

/-- The constant `MaxTransactionAmount`. -/
def MaxTransactionAmount : Rat := 10000

/-- NewBankAccount creates a new bank account with the given parameters, or returns an error
if any of them is invalid. -/
def NewBankAccount (id owner : String) (initialBalance minBalance : Rat) :
    Option BankAccount × Option GoError :=
  if id = "" then (none, some (GoError.AccountError id "account ID is blank"))
  else if owner = "" then (none, some (GoError.AccountError id "account owner is blank"))
  else if initialBalance < 0 ∨ minBalance < 0 then (none, some (GoError.NegativeAmountError id))
  else if initialBalance < minBalance then
    (none, some (GoError.InsufficientFundsError id initialBalance minBalance))
  else
    (some { ID := id, Owner := owner, Balance := initialBalance, MinBalance := minBalance }, none)

/-- The check `validateAmount`: `nil` for an amount between 0 and the limit. -/
def validateAmount (id : String) (amount : Rat) : Option GoError :=
  if amount < 0 then some (GoError.NegativeAmountError id)
  else if amount > MaxTransactionAmount then some (GoError.ExceedsLimitError id amount)
  else none

/-- The internal method `transact`: the account afterwards and the returned error. -/
def BankAccount.transact (a : BankAccount) (amount : Rat) : BankAccount × Option GoError :=
  if amount < 0 ∧ a.Balance + amount < a.MinBalance then
    (a, some (GoError.InsufficientFundsError a.ID amount a.MinBalance))
  else ({ a with Balance := a.Balance + amount }, none)

/-- Deposit adds the specified amount dst the account balance. -/
def BankAccount.Deposit (a : BankAccount) (amount : Rat) : BankAccount × Option GoError :=
  match validateAmount a.ID amount with
  | some err => (a, some err)
  | none => a.transact amount

/-- Withdraw removes the specified amount from the account balance. -/
def BankAccount.Withdraw (a : BankAccount) (amount : Rat) : BankAccount × Option GoError :=
  match validateAmount a.ID amount with
  | some err => (a, some err)
  | none => a.transact (-amount)

/-- Transfer moves the specified amount from this account (`src`, the receiver `from` of the
source) to the target account (`dst`, the parameter `to`): the two accounts afterwards and the returned error. -/
def BankAccount.Transfer (src : BankAccount) (amount : Rat) (dst : BankAccount) :
    (BankAccount × BankAccount) × Option GoError :=
  match validateAmount src.ID amount with
  | some err => ((src, dst), some err)
  | none =>
    match src.transact (-amount) with
    | (src1, some err) => ((src1, dst), some err)
    | (src1, none) =>
      match dst.transact amount with
      | (dst1, err) => ((src1, dst1), err)

/-- An account with balance 0 and minimum balance 100, as the struct literal
`BankAccount{ID: "a", Owner: "o", MinBalance: 100}` makes it. -/
def belowMinimum : BankAccount := { ID := "a", Owner := "o", Balance := 0, MinBalance := 100 }

/-- An account with balance 50 and no minimum balance. -/
def receiver : BankAccount := { ID := "b", Owner := "p", Balance := 50, MinBalance := 0 }

/-- An account with balance 500 and minimum balance 100. -/
def funded : BankAccount := { ID := "c", Owner := "q", Balance := 500, MinBalance := 100 }

end Account

/-!
# Order service (challenge14/order, user, product)

Modelling conventions
* The three services are values holding their maps; `orderServer` holds the user and the
  product server it asks, and a call to them is a function call.  The gRPC transport, the JSON
  codec and the interceptors between the services are not modelled.
* `float64` is any type `F` with a multiplication and a conversion from the integers;
  `Total` is the product as `F` computes it.
* `int64` and `int32` values are only compared, stored and converted: they are integers.
* The identifier drawn by `rand.Int64()` is an argument of `CreateOrder`.
* A method that writes to the server returns the server afterwards.
-/

namespace OrderService

/-- The gRPC status codes the services use. -/
inductive Code where
  | NotFound
  | PermissionDenied
  deriving DecidableEq, Repr

/-- Non-nil errors: those made by `status.Errorf` and those made by `errors.New`. -/
inductive GoError where
  | status (code : Code) (message : String)
  | plain (message : String)
  deriving DecidableEq, Repr

/-- User represents a user in the system. -/
structure User where
  ID : Int
  Username : String
  Email : String
  Active : Bool
  deriving DecidableEq, Repr

/-- Product represents a product in the catalog. -/
structure Product (F : Type) where
  ID : Int
  Name : String
  Price : F
  Inventory : Int

/-- Order represents an order in the system. -/
structure Order (F : Type) where
  ID : Int
  UserID : Int
  ProductID : Int
  Quantity : Int
  Total : F

/-- Request of `GetUser`. -/
structure GetUserRequest where
  UserID : Int

/-- Request of `GetProduct`. -/
structure GetProductRequest where
  ProductID : Int

/-- Request of `GetOrder`. -/
structure GetOrderRequest where
  OrderID : Int

/-- Request of `CreateOrder`. -/
structure CreateOrderRequest where
  UserID : Int
  ProductID : Int
  Quantity : Int

/-- The server `userServer` implements the UserService. -/
structure userServer where
  users : List (Int × User)

/-- The server `productServer` implements the ProductService. -/
structure productServer (F : Type) where
  products : List (Int × Product F)

/-- The server `orderServer` implements the OrderService. -/
structure orderServer (F : Type) where
  orders : List (Int × Order F)
  userService : userServer
  productService : productServer F

/-- The users of `newUserService`. -/
def newUserService : userServer :=
  { users :=
      [(1, { ID := 1, Username := "alice", Email := "alice@example.com", Active := true }),
       (2, { ID := 2, Username := "bob", Email := "bob@example.com", Active := true }),
       (3, { ID := 3, Username := "charlie", Email := "charlie@example.com", Active := false })] }

/-- The products of `newProductService`, the prices as exact decimals. -/
def newProductService : productServer Rat :=
  { products :=
      [(1, { ID := 1, Name := "Laptop", Price := 99999 / 100, Inventory := 10 }),
       (2, { ID := 2, Name := "Phone", Price := 49999 / 100, Inventory := 20 }),
       (3, { ID := 3, Name := "Headphones", Price := 9999 / 100, Inventory := 1 })] }

/-- The constructor `newOrderService` creates a new OrderService. -/
def newOrderService {F : Type} (userService : userServer) (productService : productServer F) :
    orderServer F :=
  { orders := [], userService := userService, productService := productService }

/-- GetUser retrieves a user by ID. -/
def userServer.GetUser (s : userServer) (req : GetUserRequest) : Except GoError User :=
  match GoMap.lookup s.users req.UserID with
  | none =>
    Except.error (GoError.status Code.NotFound ("user " ++ toString req.UserID ++ " not found"))
  | some user =>
    if !user.Active then
      Except.error
        (GoError.status Code.PermissionDenied ("user " ++ toString req.UserID ++ " is not active"))
    else Except.ok user

/-- GetProduct retrieves a product by ID. -/
def productServer.GetProduct {F : Type} (srv : productServer F) (req : GetProductRequest) :
    Except GoError (Product F) :=
  match GoMap.lookup srv.products req.ProductID with
  | none =>
    Except.error
      (GoError.status Code.NotFound ("product " ++ toString req.ProductID ++ " not found"))
  | some p => Except.ok p

/-- CreateOrder creates a new order: the response and the server afterwards.  `id` is the value
of `rand.Int64()`. -/
def orderServer.CreateOrder {F : Type} [Mul F] [IntCast F] (srv : orderServer F)
    (req : CreateOrderRequest) (id : Int) : Except GoError (Order F) × orderServer F :=
  match srv.userService.GetUser { UserID := req.UserID } with
  | Except.error err => (Except.error err, srv)
  | Except.ok _ =>
    match srv.productService.GetProduct { ProductID := req.ProductID } with
    | Except.error err => (Except.error err, srv)
    | Except.ok product =>
      if product.Inventory < req.Quantity then
        (Except.error (GoError.plain "insufficient inventory"), srv)
      else
        let order : Order F :=
          { ID := id
            UserID := req.UserID
            ProductID := req.ProductID
            Quantity := req.Quantity
            Total := (req.Quantity : F) * product.Price }
        (Except.ok order, { srv with orders := GoMap.insert srv.orders order.ID order })

/-- GetOrder retrieves an order by ID. -/
def orderServer.GetOrder {F : Type} (srv : orderServer F) (req : GetOrderRequest) :
    Except GoError (Order F) :=
  match GoMap.lookup srv.orders req.OrderID with
  | none =>
    Except.error
      (GoError.status Code.NotFound ("order " ++ toString req.OrderID ++ " not found"))
  | some order => Except.ok order

/-- A sequence of `CreateOrder` calls, each with the identifier it draws: the server afterwards
and the identifiers of the orders created. -/
def orderServer.createAll {F : Type} [Mul F] [IntCast F] (srv : orderServer F) :
    List (CreateOrderRequest × Int) → orderServer F × List Int
  | [] => (srv, [])
  | (req, id) :: rest =>
    match srv.CreateOrder req id with
    | (Except.error _, srv1) => orderServer.createAll srv1 rest
    | (Except.ok order, srv1) =>
      ((orderServer.createAll srv1 rest).1, order.ID :: (orderServer.createAll srv1 rest).2)

end OrderService

/-!
# Breadth-first search queries (challenge04/bfs.go)

Modelling conventions
* The graph `map[int][]int` is the list of its entries; `graph[node]` is the slice of the first
  entry with that key and the empty slice when there is none.
* The set `visited` is the list of the nodes inserted so far, in insertion order.
* The loop of `bfs` takes a fuel; running out of fuel is `none`.
* The goroutines of `ConcurrentBFSQueries` are a transition system: the sender, the workers and
  the collector move one at a time, and a schedule says who moves.
-/

namespace BFS

/-- The value `graph[node]`. -/
def adjacent (graph : List (Int × List Int)) (node : Int) : List Int :=
  match GoMap.lookup graph node with
  | some neighbors => neighbors
  | none => []

/-- The variables of the loop of `bfs`. -/
structure BfsState where
  visited : List Int
  queue : List Int
  result : List Int
  deriving DecidableEq, Repr

/-- The inner loop of `bfs` over the neighbors of the node taken from the queue: every neighbor
not yet visited is marked and put at the end of the queue. -/
def visitNeighbors (s : BfsState) (neighbors : List Int) : BfsState :=
  neighbors.foldl
    (fun st neighbor =>
      if neighbor ∈ st.visited then st
      else { st with visited := st.visited ++ [neighbor], queue := st.queue ++ [neighbor] })
    s

/-- The loop `for len(queue) > 0` of `bfs`, run for at most `fuel` iterations. -/
def bfsLoop (graph : List (Int × List Int)) : Nat → BfsState → Option (List Int)
  | 0, s =>
    match s.queue with
    | [] => some s.result
    | _ :: _ => none
  | fuel + 1, s =>
    match s.queue with
    | [] => some s.result
    | node :: rest =>
      bfsLoop graph fuel
        (visitNeighbors { visited := s.visited, queue := rest, result := s.result ++ [node] }
          (adjacent graph node))

/-- All the nodes that stand in some adjacency list of the graph. -/
def allNeighbors (graph : List (Int × List Int)) : List Int :=
  graph.flatMap (fun e => e.2)

/-- The function `bfs`: the nodes in the order the search takes them from the queue.  The loop
is given one iteration for `start` and one for every entry of an adjacency list. -/
def bfs (graph : List (Int × List Int)) (start : Int) : Option (List Int) :=
  bfsLoop graph ((allNeighbors graph).length + 1)
    { visited := [start], queue := [start], result := [] }

/-- There is an edge from `u` to `v`. -/
def Edge (graph : List (Int × List Int)) (u v : Int) : Prop := v ∈ adjacent graph u

/-- A walk of `n` edges from `u` to `v`. -/
inductive Walk (graph : List (Int × List Int)) (u : Int) : Int → Nat → Prop where
  | nil : Walk graph u u 0
  | snoc (v w : Int) (n : Nat) : Walk graph u v n → Edge graph v w → Walk graph u w (n + 1)

/-- The node `v` is reachable from `u`. -/
def Reachable (graph : List (Int × List Int)) (u v : Int) : Prop := ∃ n, Walk graph u v n

/-- The distance from `u` to `v` is `d`: there is a walk of `d` edges and none of fewer. -/
def IsDist (graph : List (Int × List Int)) (u v : Int) (d : Nat) : Prop :=
  Walk graph u v d ∧ ∀ n, Walk graph u v n → d ≤ n

/-- The loop invariant of `bfs` for the level function `lv`: the visited nodes are the result
followed by the queue, without repetition and starting with `start`; `lv` is the distance of
every visited node and does not decrease along them; the queue spans at most two levels; every
neighbor of a node of the result is visited; and every node closer to `start` than the front of
the queue is in the result. -/
structure Inv (graph : List (Int × List Int)) (start : Int) (lv : Int → Nat) (s : BfsState) :
    Prop where
  split : s.visited = s.result ++ s.queue
  nodup : s.visited.Nodup
  first : s.visited.head? = some start
  dist : ∀ v ∈ s.visited, IsDist graph start v (lv v)
  sorted : s.visited.Pairwise (fun a b => lv a ≤ lv b)
  span : ∀ u rest, s.queue = u :: rest → ∀ a ∈ rest, lv a ≤ lv u + 1
  closed : ∀ u ∈ s.result, ∀ w, Edge graph u w → w ∈ s.visited
  near : ∀ u rest, s.queue = u :: rest → ∀ x n, Walk graph start x n → n < lv u → x ∈ s.result
  known : ∀ v ∈ s.visited, v ∈ start :: allNeighbors graph


/-- A worker goroutine: waiting to receive from `starts`, holding the entry it computed until
the collector receives it from `results`, or returned after it found `starts` closed. -/
inductive Worker where
  | waiting
  | holding (start : Int) (order : List Int)
  | returned
  deriving DecidableEq, Repr

/-- The goroutines of `ConcurrentBFSQueries` between two moves: the queries the sender has still
to send on `starts`, whether it has closed `starts`, the workers, and the map `res` of the
collector. -/
structure Pool where
  pending : List Int
  startsClosed : Bool
  workers : List Worker
  res : List (Int × List Int)
  deriving DecidableEq, Repr

/-- The moves of the goroutines.  `send w`: the sender hands its next query to worker `w`, which
runs `bfs` on it.  `close`: the sender, out of queries, closes `starts`.  `leave w`: worker `w`
finds `starts` closed and returns.  `collect w`: the collector receives the entry worker `w`
holds and stores it in `res`. -/
inductive Move where
  | send (w : Nat)
  | close
  | leave (w : Nat)
  | collect (w : Nat)
  deriving DecidableEq, Repr

/-- One move; `none` when the move is not possible in this state (or `bfs` does not return). -/
def step (graph : List (Int × List Int)) (p : Pool) : Move → Option Pool
  | Move.send w =>
    match p.pending, p.workers[w]? with
    | q :: rest, some Worker.waiting =>
      match bfs graph q with
      | none => none
      | some order =>
        some { p with pending := rest, workers := p.workers.set w (Worker.holding q order) }
    | _, _ => none
  | Move.close =>
    if p.pending = [] ∧ p.startsClosed = false then some { p with startsClosed := true }
    else none
  | Move.leave w =>
    match p.workers[w]? with
    | some Worker.waiting =>
      if p.startsClosed then some { p with workers := p.workers.set w Worker.returned }
      else none
    | _ => none
  | Move.collect w =>
    match p.workers[w]? with
    | some (Worker.holding q order) =>
      some { p with workers := p.workers.set w Worker.waiting
                    res := GoMap.insert p.res q order }
    | _ => none

/-- The moves of a schedule, one after the other. -/
def run (graph : List (Int × List Int)) : Pool → List Move → Option Pool
  | p, [] => some p
  | p, m :: rest =>
    match step graph p m with
    | none => none
    | some p1 => run graph p1 rest

/-- All workers have returned: `wg.Wait()` returns, `results` is closed and the collector
returns `res`. -/
def finished (p : Pool) : Bool := p.workers.all (fun w => decide (w = Worker.returned))

/-- The goroutines as `ConcurrentBFSQueries` starts them: `numWorkers` workers waiting, all
queries still to send, an empty `res`. -/
def launch (queries : List Int) (numWorkers : Int) : Pool :=
  { pending := queries
    startsClosed := false
    workers := List.replicate numWorkers.toNat Worker.waiting
    res := [] }

/-- ConcurrentBFSQueries concurrently processes BFS queries on the provided graph: the map it
returns when its goroutines move as `schedule` says; `none` when `schedule` is not a complete
execution. -/
def ConcurrentBFSQueries (graph : List (Int × List Int)) (queries : List Int) (numWorkers : Int)
    (schedule : List Move) : Option (List (Int × List Int)) :=
  match run graph (launch queries numWorkers) schedule with
  | none => none
  | some p => if finished p then some p.res else none

/-- The moves a worker has still to make, counted generously: a waiting worker returns, a
holding one is collected from and then returns. -/
def Worker.weight : Worker → Nat
  | Worker.waiting => 1
  | Worker.holding _ _ => 2
  | Worker.returned => 0

/-- The number of moves left in every execution from this state. -/
def movesLeft (p : Pool) : Nat :=
  2 * p.pending.length + (if p.startsClosed then 0 else 1) + (p.workers.map Worker.weight).sum

/-- What holds of the goroutines in every state of an execution for `queries` with `n`
workers. -/
structure Sound (graph : List (Int × List Int)) (queries : List Int) (n : Nat) (p : Pool) :
    Prop where
  workers : p.workers.length = n
  closed : p.startsClosed = true → p.pending = []
  left : Worker.returned ∈ p.workers → p.startsClosed = true
  pending : ∀ q ∈ p.pending, q ∈ queries
  held : ∀ q order, Worker.holding q order ∈ p.workers → bfs graph q = some order ∧ q ∈ queries
  stored : ∀ q order, GoMap.lookup p.res q = some order → bfs graph q = some order ∧ q ∈ queries
  covered : ∀ q ∈ queries,
    q ∈ p.pending ∨ (∃ order, Worker.holding q order ∈ p.workers) ∨
      (GoMap.lookup p.res q).isSome = true
  keys : (p.res.map Prod.fst).Pairwise (fun a b => a < b)

end BFS


/-! ## Theorems -/

namespace CircuitBreaker

theorem setState_config (cb : circuitBreakerImpl) (s : State) (t : Time) :
    (setState cb s t).config = cb.config := by
  unfold setState
  cases s <;> simp only [] <;> split_ifs <;> rfl

theorem setState_state (cb : circuitBreakerImpl) (s : State) (t : Time) :
    (setState cb s t).state = s := by
  unfold setState
  cases s <;> simp only [] <;> split_ifs with h <;> first | rfl | exact h

theorem setState_name (cb : circuitBreakerImpl) (s : State) (t : Time) :
    (setState cb s t).name = cb.name := by
  unfold setState
  cases s <;> simp only [] <;> split_ifs <;> rfl

theorem setState_metrics (cb : circuitBreakerImpl) (s : State) (t : Time)
    (hs : s ≠ State.StateClosed) : (setState cb s t).metrics = cb.metrics := by
  unfold setState
  cases s <;> simp only [] <;> split_ifs <;> first | rfl | exact absurd rfl hs

theorem setState_self (cb : circuitBreakerImpl) (s : State) (t : Time) (h : cb.state = s) :
    setState cb s t = cb := by
  simp [setState, h]

theorem setState_metrics_cases (cb : circuitBreakerImpl) (s : State) (t : Time) :
    (setState cb s t).metrics = cb.metrics ∨ (setState cb s t).metrics = Metrics.zero := by
  unfold setState
  cases s <;> simp only [] <;> split_ifs <;> first | exact Or.inl rfl | exact Or.inr rfl

theorem setState_halfOpenRequests (cb : circuitBreakerImpl) (s : State) (t : Time)
    (hs : s ≠ State.StateHalfOpen) (hne : cb.state ≠ s) :
    (setState cb s t).halfOpenRequests = 0 := by
  unfold setState
  cases s <;> simp only [] <;> split_ifs <;> first | rfl | exact absurd rfl hs | contradiction

theorem setState_halfOpen_counter (cb : circuitBreakerImpl) (t : Time) :
    (setState cb State.StateHalfOpen t).halfOpenRequests = cb.halfOpenRequests := by
  unfold setState
  simp only []
  split_ifs <;> rfl

theorem canExecute_of_not_open (cb : circuitBreakerImpl) (t1 t2 : Time)
    (h : cb.state ≠ State.StateOpen) : canExecute cb t1 t2 = (cb, none) := by
  simp [canExecute, GetState, h]

theorem canExecute_of_ready (cb : circuitBreakerImpl) (t1 t2 : Time)
    (h : cb.state = State.StateOpen) (ht : cb.lastStateChange + cb.config.Timeout < t1) :
    canExecute cb t1 t2 = (setState cb State.StateHalfOpen t2, none) := by
  simp [canExecute, GetState, h, isReady, ht]

theorem recordFailure_some (cb : circuitBreakerImpl) (t1 t2 : Time)
    (h : cb.state ≠ State.StateClosed ∨ cb.config.ReadyToTrip.isSome) :
    ∃ cb1, recordFailure cb t1 t2 = some cb1 := by
  unfold recordFailure shouldTrip
  simp only []
  by_cases hc : cb.state = State.StateClosed
  · rcases h with h | h
    · exact absurd hc h
    · obtain ⟨f, hf⟩ := Option.isSome_iff_exists.mp h
      simp only [hc, hf, if_true]
      cases f _ <;> simp
  · simp only [hc, if_false]
    split_ifs <;> exact ⟨_, rfl⟩

/-- C1 (fast-fail).  For every breaker in state Open and every call whose context is live and
whose admission time lies strictly before `lastStateChange + Timeout`, `Call` returns
`(nil, ErrCircuitBreakerOpen)` and the breaker afterwards is the breaker before: state, metrics,
`halfOpenRequests`, `lastStateChange` and the trace are unchanged, so neither the operation nor
the callback was invoked. -/
theorem call_fast_fail (cb : circuitBreakerImpl) (env : CallEnv)
    (hopen : cb.state = State.StateOpen) (hctx : env.ctxErr = none)
    (hnow : env.nowCheck < cb.lastStateChange + cb.config.Timeout) :
    Call cb env
      = some { result := GoAny.nil, err := some GoError.ErrCircuitBreakerOpen, cb := cb } := by
  have hnr : isReady cb env.nowCheck = false := by
    simp only [isReady, hopen, decide_True, Bool.true_and, decide_eq_false_iff_not, not_lt]
    exact le_of_lt hnow
  simp [Call, hctx, canExecute, GetState, hopen, hnr]

/-- Witness of C1: the tripped sample breaker rejects a call made 10 ns after it tripped. -/
theorem call_fast_fail_witness :
    trippedBreaker.state = State.StateOpen ∧ (failingCall 15).ctxErr = none ∧
    (failingCall 15).nowCheck < trippedBreaker.lastStateChange + trippedBreaker.config.Timeout ∧
    Call trippedBreaker (failingCall 15)
      = some { result := GoAny.nil, err := some GoError.ErrCircuitBreakerOpen,
               cb := trippedBreaker } :=
  ⟨rfl, rfl, by decide, call_fast_fail trippedBreaker (failingCall 15) rfl rfl (by decide)⟩

/-- C2 (pass-through).  For every call that passes the context check and the admission check
(state Closed, HalfOpen, or Open with the timeout exceeded) on a breaker whose `ReadyToTrip` is
not nil, `Call` returns, and the pair it returns is exactly the pair the operation produced,
whatever that pair is. -/
theorem call_pass_through (cb : circuitBreakerImpl) (env : CallEnv)
    (hctx : env.ctxErr = none)
    (hcfg : cb.config.ReadyToTrip.isSome = true)
    (hadm : cb.state = State.StateClosed ∨ cb.state = State.StateHalfOpen ∨
      (cb.state = State.StateOpen ∧ cb.lastStateChange + cb.config.Timeout < env.nowCheck)) :
    ∃ r, Call cb env = some r ∧
      (r.result, r.err)
        = env.operation
            (if cb.state = State.StateClosed then State.StateClosed else State.StateHalfOpen)
            cb.metrics := by
  have key : ∀ cb1 : circuitBreakerImpl,
      canExecute cb env.nowCheck env.nowHalfOpen = (cb1, none) →
      cb1.config = cb.config →
      ∃ r, Call cb env = some r ∧ (r.result, r.err) = env.operation cb1.state cb1.metrics := by
    intro cb1 hce hc
    unfold Call
    simp only [hctx, hce, GetState, GetMetrics]
    cases hout : (env.operation cb1.state cb1.metrics).2 with
    | none => exact ⟨_, rfl, by rw [← hout]⟩
    | some e =>
      obtain ⟨cb3, h3⟩ := recordFailure_some
        { cb1 with trace := cb1.trace ++ [Event.operation cb1.state] } env.nowFailure env.nowRecord
        (Or.inr (by simpa [hc] using hcfg))
      simp only [h3]
      exact ⟨_, rfl, by rw [← hout]⟩
  rcases hadm with h | h | ⟨h, ht⟩
  · have := key cb (canExecute_of_not_open cb _ _ (by simp [h])) rfl
    simpa [h] using this
  · have := key cb (canExecute_of_not_open cb _ _ (by simp [h])) rfl
    simpa [h] using this
  · have := key _ (canExecute_of_ready cb _ _ h ht) (setState_config _ _ _)
    simpa [h, setState_state, setState_metrics] using this

/-- Witness of C2: a failing call on the tripped sample breaker, made after the timeout. -/
theorem call_pass_through_witness :
    ∃ r, Call trippedBreaker (failingCall (40 * Second)) = some r ∧
      (r.result, r.err) = (GoAny.nil, some (GoError.other 7)) :=
  call_pass_through trippedBreaker (failingCall (40 * Second)) rfl rfl
    (Or.inr (Or.inr ⟨rfl, by decide⟩))

/-- C3 (cancelled context).  For every breaker, in whatever state, a call whose context error is
non-nil returns `(nil, that error)` and the breaker afterwards is the breaker before: no
admission check ran (an Open breaker past its timeout stays Open), and the trace is unchanged, so
the operation was not invoked. -/
theorem call_cancelled (cb : circuitBreakerImpl) (env : CallEnv) (e : GoError)
    (hctx : env.ctxErr = some e) :
    Call cb env = some { result := GoAny.nil, err := some e, cb := cb } := by
  simp [Call, hctx]

/-- Witness of C3: a cancelled call on the tripped sample breaker, made after the timeout. -/
theorem call_cancelled_witness :
    trippedBreaker.lastStateChange + trippedBreaker.config.Timeout
        < (cancelledCall (40 * Second)).nowCheck ∧
    Call trippedBreaker (cancelledCall (40 * Second))
      = some { result := GoAny.nil, err := some (GoError.other 1), cb := trippedBreaker } :=
  ⟨by decide, call_cancelled trippedBreaker (cancelledCall (40 * Second)) (GoError.other 1) rfl⟩

theorem opCount_append (a b : List Event) : opCount (a ++ b) = opCount a + opCount b := by
  simp [opCount, List.countP_append]

theorem setState_trace (cb : circuitBreakerImpl) (s : State) (t : Time) :
    ∃ l, (setState cb s t).trace = cb.trace ++ l ∧ opCount l = 0 := by
  unfold setState
  cases s <;> simp only [] <;> split_ifs <;>
    first
      | exact ⟨[_], rfl, rfl⟩
      | exact ⟨[], (List.append_nil _).symm, rfl⟩

theorem recordSuccess_trace (cb : circuitBreakerImpl) (t : Time) :
    ∃ l, (recordSuccess cb t).trace = cb.trace ++ l ∧ opCount l = 0 := by
  unfold recordSuccess
  simp only []
  split_ifs
  · exact setState_trace _ _ _
  · exact ⟨[], by simp, rfl⟩
  · exact ⟨[], by simp, rfl⟩

theorem recordFailure_trace (cb cb1 : circuitBreakerImpl) (t1 t2 : Time)
    (h : recordFailure cb t1 t2 = some cb1) :
    ∃ l, cb1.trace = cb.trace ++ l ∧ opCount l = 0 := by
  unfold recordFailure at h
  simp only [] at h
  split at h
  · split at h
    · exact absurd h (by simp)
    · cases Option.some.inj h; exact setState_trace _ _ _
    · split at h
      · cases Option.some.inj h; exact setState_trace _ _ _
      · cases Option.some.inj h; exact ⟨[], by simp, rfl⟩
  · split at h
    · cases Option.some.inj h; exact setState_trace _ _ _
    · cases Option.some.inj h; exact ⟨[], by simp, rfl⟩

/-- Shape of a call that passes the context check and the admission check. -/
theorem call_of_canExecute (cb cb1 : circuitBreakerImpl) (env : CallEnv)
    (hctx : env.ctxErr = none)
    (hce : canExecute cb env.nowCheck env.nowHalfOpen = (cb1, none))
    (hcfg : cb1.state ≠ State.StateClosed ∨ cb1.config.ReadyToTrip.isSome = true) :
    ∃ r post, Call cb env = some r ∧
      (r.result, r.err) = env.operation cb1.state cb1.metrics ∧
      r.cb.trace = cb1.trace ++ Event.operation cb1.state :: post ∧
      opCount post = 0 ∧
      (r.err = none →
        r.cb = recordSuccess { cb1 with trace := cb1.trace ++ [Event.operation cb1.state] }
                env.nowRecord) ∧
      (r.err ≠ none →
        recordFailure { cb1 with trace := cb1.trace ++ [Event.operation cb1.state] }
          env.nowFailure env.nowRecord = some r.cb) := by
  unfold Call
  simp only [hctx, hce, GetState, GetMetrics]
  cases hout : (env.operation cb1.state cb1.metrics).2 with
  | none =>
    obtain ⟨l, hl, hl0⟩ := recordSuccess_trace
      { cb1 with trace := cb1.trace ++ [Event.operation cb1.state] } env.nowRecord
    refine ⟨_, l, rfl, by rw [← hout], ?_, hl0, fun _ => rfl, fun h => absurd rfl h⟩
    simp only [hl, List.append_assoc, List.singleton_append]
  | some e =>
    obtain ⟨cb3, h3⟩ := recordFailure_some
      { cb1 with trace := cb1.trace ++ [Event.operation cb1.state] } env.nowFailure env.nowRecord
      hcfg
    obtain ⟨l, hl, hl0⟩ := recordFailure_trace _ _ _ _ h3
    simp only [h3]
    refine ⟨_, l, rfl, by rw [← hout], ?_, hl0, fun h => by simp at h, fun _ => rfl⟩
    simp only [hl, List.append_assoc, List.singleton_append]

/-- What `recordFailure` does in state Closed, as one equation. -/
theorem recordFailure_closed (cb : circuitBreakerImpl) (f : Metrics → Bool)
    (nowFail nowSet : Time)
    (hclosed : cb.state = State.StateClosed) (hf : cb.config.ReadyToTrip = some f) :
    recordFailure cb nowFail nowSet
      = some (if f (failureMetrics cb.metrics nowFail) = true
          then setState { cb with metrics := failureMetrics cb.metrics nowFail }
            State.StateOpen nowSet
          else { cb with metrics := failureMetrics cb.metrics nowFail }) := by
  unfold recordFailure shouldTrip
  simp only [hclosed, hf, if_true]
  cases hfm : f (failureMetrics cb.metrics nowFail) with
  | false =>
    simp only [failureMetrics] at hfm
    simp [hfm, failureMetrics]
  | true =>
    simp only [failureMetrics] at hfm
    simp [hfm, failureMetrics]

/-- C6 (trip rule).  When a failure is recorded in state Closed on a breaker whose `ReadyToTrip`
is `f`, the recording returns, the new metrics are the old ones with this failure counted (not
reset), the breaker is Open exactly when `f` is true on those new metrics and Closed exactly when
`f` is false on them, and when it is Open `halfOpenRequests` is 0. -/
theorem recordFailure_trip_rule (cb : circuitBreakerImpl) (f : Metrics → Bool)
    (nowFail nowSet : Time)
    (hclosed : cb.state = State.StateClosed) (hf : cb.config.ReadyToTrip = some f) :
    ∃ cb1, recordFailure cb nowFail nowSet = some cb1 ∧
      (cb1.state = State.StateOpen ↔ f (failureMetrics cb.metrics nowFail) = true) ∧
      (cb1.state = State.StateClosed ↔ f (failureMetrics cb.metrics nowFail) = false) ∧
      cb1.metrics = failureMetrics cb.metrics nowFail ∧
      (cb1.state = State.StateOpen → cb1.halfOpenRequests = 0) := by
  rw [recordFailure_closed cb f nowFail nowSet hclosed hf]
  refine ⟨_, rfl, ?_⟩
  cases hfm : f (failureMetrics cb.metrics nowFail) with
  | false =>
    rw [if_neg Bool.false_ne_true]
    exact ⟨by simp [hclosed], by simp [hclosed], rfl, fun h => by simp [hclosed] at h⟩
  | true =>
    rw [if_pos rfl]
    refine ⟨by simp [setState_state], by simp [setState_state], ?_, fun _ => ?_⟩
    · rw [setState_metrics _ _ _ (by decide)]
    · exact setState_halfOpenRequests _ _ _ (by decide) (by simp [hclosed])

/-- Witness of C6: the first failure on a new default breaker does not trip it. -/
theorem recordFailure_trip_rule_witness :
    ∃ cb1, recordFailure (NewCircuitBreaker zeroConfig 0) 1 1 = some cb1 ∧
      cb1.state = State.StateClosed ∧
      cb1.metrics = failureMetrics (NewCircuitBreaker zeroConfig 0).metrics 1 :=
  match recordFailure_trip_rule (NewCircuitBreaker zeroConfig 0) defaultReadyToTrip 1 1 rfl rfl with
  | ⟨cb1, h, _, hc, hm, _⟩ => ⟨cb1, h, hc.mpr (by decide), hm⟩

/-- Recording a failure in HalfOpen reopens the breaker and clears the trial counter. -/
theorem recordFailure_halfOpen (cb : circuitBreakerImpl) (t1 t2 : Time)
    (h : cb.state = State.StateHalfOpen) :
    ∃ cb1, recordFailure cb t1 t2 = some cb1 ∧ cb1.state = State.StateOpen ∧
      cb1.halfOpenRequests = 0 := by
  have hrf : recordFailure cb t1 t2
      = some (setState { cb with metrics := failureMetrics cb.metrics t1 } State.StateOpen t2) := by
    simp [recordFailure, h, failureMetrics]
  refine ⟨_, hrf, setState_state _ State.StateOpen t2, ?_⟩
  simp [setState, h]
  split_ifs <;> rfl

/-- C7 (recovery probe).  For every Open breaker, a call with a live context whose admission
time is strictly later than `lastStateChange + Timeout` returns, the breaker is set to HalfOpen
before the operation runs, the operation is applied to the observed state HalfOpen (its pair is
what the call returns), the trace grows by the transition, then one operation event observing
HalfOpen, then events that are not operation events: the operation ran exactly once. -/
theorem call_recovery_probe (cb : circuitBreakerImpl) (env : CallEnv)
    (hopen : cb.state = State.StateOpen) (hctx : env.ctxErr = none)
    (hnow : cb.lastStateChange + cb.config.Timeout < env.nowCheck) :
    ∃ r post, Call cb env = some r ∧
      (setState cb State.StateHalfOpen env.nowHalfOpen).state = State.StateHalfOpen ∧
      (r.result, r.err) = env.operation State.StateHalfOpen cb.metrics ∧
      r.cb.trace = (setState cb State.StateHalfOpen env.nowHalfOpen).trace
                    ++ Event.operation State.StateHalfOpen :: post ∧
      opCount post = 0 ∧
      opCount r.cb.trace = opCount cb.trace + 1 := by
  have hst := setState_state cb State.StateHalfOpen env.nowHalfOpen
  obtain ⟨r, post, hcall, hres, htr, hpost, -, -⟩ :=
    call_of_canExecute cb _ env hctx (canExecute_of_ready cb _ _ hopen hnow)
      (Or.inl (by rw [hst]; decide))
  rw [hst, setState_metrics _ _ _ (by decide)] at hres
  rw [hst] at htr
  refine ⟨r, post, hcall, hst, hres, htr, hpost, ?_⟩
  obtain ⟨l, hl, hl0⟩ := setState_trace cb State.StateHalfOpen env.nowHalfOpen
  rw [htr, hl, opCount_append, opCount_append, hl0]
  have : opCount (Event.operation State.StateHalfOpen :: post) = opCount post + 1 := by
    simp [opCount]
  omega

/-- Witness of C7: a successful call on the tripped sample breaker at 40 s. -/
theorem call_recovery_probe_witness :
    trippedBreaker.lastStateChange + trippedBreaker.config.Timeout
        < (succeedingCall (40 * Second)).nowCheck ∧
    ∃ r post, Call trippedBreaker (succeedingCall (40 * Second)) = some r ∧
      (setState trippedBreaker State.StateHalfOpen (40 * Second)).state = State.StateHalfOpen ∧
      (r.result, r.err) = (GoAny.box 42, none) ∧
      r.cb.trace = (setState trippedBreaker State.StateHalfOpen (40 * Second)).trace
                    ++ Event.operation State.StateHalfOpen :: post ∧
      opCount post = 0 ∧
      opCount r.cb.trace = opCount trippedBreaker.trace + 1 :=
  ⟨by decide, call_recovery_probe trippedBreaker (succeedingCall (40 * Second)) rfl rfl
    (by decide)⟩

/-- Counterexample to C8 as stated: the sample breaker is Open, tripped at 5 ns with a 30 s timeout;
at admission time exactly 30 s + 5 ns the admission check returns `ErrCircuitBreakerOpen` and the
breaker is still Open. -/
theorem canExecute_at_timeout_denies :
    trippedBreaker.state = State.StateOpen ∧
    (30 * Second + 5 : Time) ≥ trippedBreaker.lastStateChange + trippedBreaker.config.Timeout ∧
    (canExecute trippedBreaker (30 * Second + 5) (30 * Second + 5)).2
      = some GoError.ErrCircuitBreakerOpen ∧
    (canExecute trippedBreaker (30 * Second + 5) (30 * Second + 5)).1.state
      = State.StateOpen := by
  decide

/-- C8 amended (Open-to-HalfOpen trigger).  For every Open breaker, an admission check at a time
strictly later than `lastStateChange + Timeout` moves the breaker to HalfOpen (stamping
`lastStateChange`) and returns no error; at exactly `lastStateChange + Timeout` it returns
`ErrCircuitBreakerOpen` and leaves the breaker as it was. -/
theorem canExecute_open (cb : circuitBreakerImpl) (now nowSet : Time)
    (hopen : cb.state = State.StateOpen) :
    (cb.lastStateChange + cb.config.Timeout < now →
      canExecute cb now nowSet = (setState cb State.StateHalfOpen nowSet, none) ∧
      (setState cb State.StateHalfOpen nowSet).state = State.StateHalfOpen ∧
      (setState cb State.StateHalfOpen nowSet).lastStateChange = nowSet) ∧
    (now = cb.lastStateChange + cb.config.Timeout →
      canExecute cb now nowSet = (cb, some GoError.ErrCircuitBreakerOpen)) := by
  refine ⟨fun h => ⟨canExecute_of_ready cb _ _ hopen h, setState_state _ _ _, ?_⟩, fun h => ?_⟩
  · simp [setState, hopen]
    split_ifs <;> rfl
  · simp [canExecute, GetState, hopen, isReady, h]

/-- Witness of C8 amended: the tripped sample breaker at 40 s and at exactly 30 s + 5 ns. -/
theorem canExecute_open_witness :
    trippedBreaker.state = State.StateOpen ∧
    (canExecute trippedBreaker (40 * Second) (40 * Second)).1.state = State.StateHalfOpen ∧
    (canExecute trippedBreaker (40 * Second) (40 * Second)).2 = none ∧
    canExecute trippedBreaker (30 * Second + 5) (40 * Second)
      = (trippedBreaker, some GoError.ErrCircuitBreakerOpen) :=
  ⟨rfl,
   by rw [((canExecute_open trippedBreaker (40 * Second) (40 * Second) rfl).1 (by decide)).1]
      exact ((canExecute_open trippedBreaker (40 * Second) (40 * Second) rfl).1 (by decide)).2.1,
   by rw [((canExecute_open trippedBreaker (40 * Second) (40 * Second) rfl).1 (by decide)).1],
   (canExecute_open trippedBreaker (30 * Second + 5) (40 * Second) rfl).2 (by decide)⟩

/-- C9 (half-open failure reopens).  For every HalfOpen breaker, whatever its `halfOpenRequests`
and `MaxRequests`, a call with a live context whose operation returns a non-nil error returns
that error and leaves the breaker Open with `halfOpenRequests = 0`. -/
theorem call_halfOpen_failure (cb : circuitBreakerImpl) (env : CallEnv)
    (hhalf : cb.state = State.StateHalfOpen) (hctx : env.ctxErr = none)
    (herr : (env.operation State.StateHalfOpen cb.metrics).2 ≠ none) :
    ∃ r, Call cb env = some r ∧ r.err = (env.operation State.StateHalfOpen cb.metrics).2 ∧
      r.cb.state = State.StateOpen ∧ r.cb.halfOpenRequests = 0 := by
  obtain ⟨r, post, hcall, hres, -, -, -, hfail⟩ :=
    call_of_canExecute cb cb env hctx (canExecute_of_not_open cb _ _ (by rw [hhalf]; decide))
      (Or.inl (by rw [hhalf]; decide))
  rw [hhalf] at hres
  have herr2 : r.err = (env.operation State.StateHalfOpen cb.metrics).2 := by
    rw [← hres]
  obtain ⟨cb1, h1, hs, hh⟩ := recordFailure_halfOpen
    { cb with trace := cb.trace ++ [Event.operation cb.state] } env.nowFailure env.nowRecord hhalf
  have := hfail (by rw [herr2]; exact herr)
  rw [h1] at this
  cases Option.some.inj this
  exact ⟨_, hcall, herr2, hs, hh⟩

/-- Witness of C9: a failing call on the probing sample breaker. -/
theorem call_halfOpen_failure_witness :
    probingBreaker.state = State.StateHalfOpen ∧
    ∃ r, Call probingBreaker (failingCall (41 * Second)) = some r ∧
      r.err = some (GoError.other 7) ∧
      r.cb.state = State.StateOpen ∧ r.cb.halfOpenRequests = 0 :=
  ⟨rfl, call_halfOpen_failure probingBreaker (failingCall (41 * Second)) rfl rfl (by decide)⟩

theorem wrapInt64_of_range (x : Int) (h1 : -9223372036854775808 ≤ x)
    (h2 : x < 9223372036854775808) : wrapInt64 x = x := by
  unfold wrapInt64; omega

theorem wrapInt64_success (a b : Int) :
    wrapInt64 (wrapInt64 (a + b) + 1) = wrapInt64 (wrapInt64 (a + 1) + b) := by
  unfold wrapInt64; omega

theorem wrapInt64_failure (a b : Int) :
    wrapInt64 (wrapInt64 (a + b) + 1) = wrapInt64 (a + wrapInt64 (b + 1)) := by
  unfold wrapInt64; omega

theorem NewCircuitBreaker_MaxRequests (config : Config) (now : Time) :
    (NewCircuitBreaker config now).config.MaxRequests
      = if config.MaxRequests = 0 then 1 else config.MaxRequests := by
  unfold NewCircuitBreaker
  simp only []
  split_ifs <;> rfl

theorem NewCircuitBreaker_ReadyToTrip (config : Config) (now : Time) :
    (NewCircuitBreaker config now).config.ReadyToTrip
      = if config.ReadyToTrip.isNone then some defaultReadyToTrip else config.ReadyToTrip := by
  unfold NewCircuitBreaker
  simp only []
  split_ifs <;> rfl

theorem wellFormed_new (config : Config) (now : Time) :
    WellFormed (NewCircuitBreaker config now) := by
  refine ⟨?_, ?_, ?_, fun _ => rfl⟩
  · show (0 : Int) = wrapInt64 (0 + 0)
    decide
  · rw [NewCircuitBreaker_MaxRequests]
    split_ifs <;> omega
  · rw [NewCircuitBreaker_ReadyToTrip]
    split_ifs with h
    · rfl
    · cases hr : config.ReadyToTrip with
      | none => simp [hr] at h
      | some f => rfl

theorem wellFormed_setState (cb : circuitBreakerImpl) (s : State) (t : Time)
    (h : WellFormed cb) : WellFormed (setState cb s t) := by
  by_cases hcs : cb.state = s
  · rw [setState_self cb s t hcs]; exact h
  · obtain ⟨h1, h2, h3, -⟩ := h
    unfold WellFormed
    rw [setState_config, setState_state]
    refine ⟨?_, h2, h3, fun hs => setState_halfOpenRequests cb s t hs hcs⟩
    rcases setState_metrics_cases cb s t with hm | hm
    · rw [hm]; exact h1
    · rw [hm]; decide

theorem wellFormed_trace (cb : circuitBreakerImpl) (tr : List Event) (h : WellFormed cb) :
    WellFormed { cb with trace := tr } := h

theorem wellFormed_recordSuccess (cb : circuitBreakerImpl) (t : Time) (h : WellFormed cb) :
    WellFormed (recordSuccess cb t) := by
  obtain ⟨h1, h2, h3, h4⟩ := h
  unfold recordSuccess
  simp only []
  split_ifs with hs hm
  · apply wellFormed_setState
    exact ⟨by simp only [h1]; exact wrapInt64_success _ _, h2, h3, fun hne => absurd hs hne⟩
  · exact ⟨by simp only [h1]; exact wrapInt64_success _ _, h2, h3, fun hne => absurd hs hne⟩
  · exact ⟨by simp only [h1]; exact wrapInt64_success _ _, h2, h3, h4⟩

theorem wellFormed_recordFailure (cb cb1 : circuitBreakerImpl) (t1 t2 : Time)
    (h : WellFormed cb) (hr : recordFailure cb t1 t2 = some cb1) : WellFormed cb1 := by
  obtain ⟨h1, h2, h3, h4⟩ := h
  have hw : WellFormed { cb with metrics := failureMetrics cb.metrics t1 } :=
    ⟨by simp only [failureMetrics, h1]; exact wrapInt64_failure _ _, h2, h3, h4⟩
  unfold recordFailure at hr
  simp only [] at hr
  split at hr
  · split at hr
    · exact absurd hr (by simp)
    · cases Option.some.inj hr; exact wellFormed_setState _ _ _ hw
    · split at hr
      · cases Option.some.inj hr; exact wellFormed_setState _ _ _ hw
      · cases Option.some.inj hr; exact hw
  · split at hr
    · cases Option.some.inj hr; exact wellFormed_setState _ _ _ hw
    · cases Option.some.inj hr; exact hw

theorem wellFormed_canExecute (cb : circuitBreakerImpl) (t1 t2 : Time) (h : WellFormed cb) :
    WellFormed (canExecute cb t1 t2).1 := by
  unfold canExecute
  split_ifs
  · exact h
  · exact h
  · exact wellFormed_setState _ _ _ h
  · exact h

theorem wellFormed_call (cb : circuitBreakerImpl) (env : CallEnv) (r : CallResult)
    (h : WellFormed cb) (hc : Call cb env = some r) : WellFormed r.cb := by
  unfold Call at hc
  split at hc
  · cases Option.some.inj hc; exact h
  · have hce := wellFormed_canExecute cb env.nowCheck env.nowHalfOpen h
    split at hc
    · rename_i cb1 err heq
      rw [heq] at hce
      cases Option.some.inj hc; exact hce
    · rename_i cb1 heq
      rw [heq] at hce
      simp only [] at hc
      split at hc
      · cases Option.some.inj hc
        exact wellFormed_recordSuccess _ _ (wellFormed_trace _ _ hce)
      · split at hc
        · exact absurd hc (by simp)
        · rename_i cb3 h3
          cases Option.some.inj hc
          exact wellFormed_recordFailure _ _ _ _ (wellFormed_trace _ _ hce) h3

theorem wellFormed_of_reachable (cb : circuitBreakerImpl) (h : Reachable cb) : WellFormed cb := by
  induction h with
  | init config now => exact wellFormed_new config now
  | step cb env r _ hc ih => exact wellFormed_call cb env r ih hc

/-- C4 (metrics identity).  In every state reachable from `NewCircuitBreaker` by any sequence of
calls, `Requests == Successes + Failures` holds as Go evaluates it (with the wrapping `+` of
`int64`), and it holds over the integers whenever `Successes + Failures` is in the `int64`
range. -/
theorem metrics_identity (cb : circuitBreakerImpl) (h : Reachable cb) :
    cb.metrics.Requests = wrapInt64 (cb.metrics.Successes + cb.metrics.Failures) ∧
    (-9223372036854775808 ≤ cb.metrics.Successes + cb.metrics.Failures →
      cb.metrics.Successes + cb.metrics.Failures < 9223372036854775808 →
      cb.metrics.Requests = cb.metrics.Successes + cb.metrics.Failures) := by
  have h1 := (wellFormed_of_reachable cb h).1
  exact ⟨h1, fun ha hb => by rw [h1, wrapInt64_of_range _ ha hb]⟩

/-- Witness of C4: the breaker after one failing call on a new default breaker. -/
theorem metrics_identity_witness :
    Reachable onceFailed.cb ∧
    onceFailed.cb.metrics.Requests
      = onceFailed.cb.metrics.Successes + onceFailed.cb.metrics.Failures :=
  ⟨Reachable.step (NewCircuitBreaker zeroConfig 0) (failingCall 1) onceFailed
      (Reachable.init zeroConfig 0) rfl,
   (metrics_identity onceFailed.cb
      (Reachable.step (NewCircuitBreaker zeroConfig 0) (failingCall 1) onceFailed
        (Reachable.init zeroConfig 0) rfl)).2 (by decide) (by decide)⟩

theorem recordSuccess_config (cb : circuitBreakerImpl) (t : Time) :
    (recordSuccess cb t).config = cb.config := by
  unfold recordSuccess
  simp only []
  split_ifs
  · rw [setState_config]
  · rfl
  · rfl

theorem recordFailure_config (cb cb1 : circuitBreakerImpl) (t1 t2 : Time)
    (hr : recordFailure cb t1 t2 = some cb1) : cb1.config = cb.config := by
  unfold recordFailure at hr
  simp only [] at hr
  split at hr
  · split at hr
    · exact absurd hr (by simp)
    · cases Option.some.inj hr; rw [setState_config]
    · split at hr
      · cases Option.some.inj hr; rw [setState_config]
      · cases Option.some.inj hr; rfl
  · split at hr
    · cases Option.some.inj hr; rw [setState_config]
    · cases Option.some.inj hr; rfl

theorem runCalls_append (cb : circuitBreakerImpl) (l1 l2 : List CallEnv) :
    runCalls cb (l1 ++ l2) = (runCalls cb l1).bind (fun c => runCalls c l2) := by
  induction l1 generalizing cb with
  | nil => rfl
  | cons e rest ih =>
    simp only [List.cons_append, runCalls]
    cases Call cb e with
    | none => rfl
    | some r => exact ih r.cb

/-- One failing call on a Closed breaker that uses the default trip predicate. -/
theorem call_closed_failure (cb : circuitBreakerImpl) (env : CallEnv) (c : Int)
    (hclosed : cb.state = State.StateClosed)
    (hrtt : cb.config.ReadyToTrip = some defaultReadyToTrip)
    (hc : cb.metrics.ConsecutiveFailures = c) (hc0 : 0 ≤ c) (hc4 : c ≤ 4)
    (hctx : env.ctxErr = none)
    (herr : ∀ st m, (env.operation st m).2 ≠ none) :
    ∃ r, Call cb env = some r ∧
      r.cb.config = cb.config ∧
      r.cb.metrics.ConsecutiveFailures = c + 1 ∧
      opCount r.cb.trace = opCount cb.trace + 1 ∧
      (c < 4 → r.cb.state = State.StateClosed) ∧
      (c = 4 → r.cb.state = State.StateOpen) := by
  obtain ⟨r, post, hcall, hres, htr, hpost, -, hfail⟩ :=
    call_of_canExecute cb cb env hctx (canExecute_of_not_open cb _ _ (by rw [hclosed]; decide))
      (Or.inr (by rw [hrtt]; rfl))
  have herr2 : r.err ≠ none := by
    have : r.err = (env.operation cb.state cb.metrics).2 := by rw [← hres]
    rw [this]; exact herr _ _
  have hrf := hfail herr2
  have hcf : (failureMetrics cb.metrics env.nowFailure).ConsecutiveFailures = c + 1 := by
    simp only [failureMetrics, hc]
    exact wrapInt64_of_range _ (by omega) (by omega)
  have hdef : defaultReadyToTrip (failureMetrics cb.metrics env.nowFailure)
      = decide (c + 1 ≥ 5) := by
    simp only [defaultReadyToTrip, hcf]
  have hcfg : r.cb.config = cb.config := by
    have := recordFailure_config _ _ _ _ hrf
    exact this
  have hrcb := (Option.some.inj
    ((recordFailure_closed { cb with trace := cb.trace ++ [Event.operation cb.state] }
      defaultReadyToTrip env.nowFailure env.nowRecord hclosed hrtt).symm.trans hrf)).symm
  have hop : opCount r.cb.trace = opCount cb.trace + 1 := by
    rw [htr, opCount_append]
    have : opCount (Event.operation cb.state :: post) = opCount post + 1 := by
      simp [opCount]
    omega
  refine ⟨r, hcall, hcfg, ?_, hop, ?_, ?_⟩
  · rw [hrcb]
    split_ifs
    · rw [setState_metrics _ _ _ (by decide)]; exact hcf
    · exact hcf
  · intro h
    have hfalse : ¬ (defaultReadyToTrip (failureMetrics cb.metrics env.nowFailure) = true) := by
      rw [hdef]; simp; omega
    rw [hrcb]
    simp only [hfalse, if_false]
    exact hclosed
  · intro h
    have htrue : defaultReadyToTrip (failureMetrics cb.metrics env.nowFailure) = true := by
      rw [hdef]; simp; omega
    rw [hrcb]
    simp only [htrue, if_true]
    exact setState_state _ _ _

/-- A run of failing calls that stays below the default threshold keeps the breaker Closed. -/
theorem runCalls_closed_failures (envs : List CallEnv) :
    ∀ (cb : circuitBreakerImpl) (c : Int),
      cb.state = State.StateClosed →
      cb.config.ReadyToTrip = some defaultReadyToTrip →
      cb.metrics.ConsecutiveFailures = c → 0 ≤ c → c + envs.length ≤ 4 →
      (∀ e ∈ envs, e.ctxErr = none ∧ ∀ st m, (e.operation st m).2 ≠ none) →
      ∃ cb1, runCalls cb envs = some cb1 ∧ cb1.state = State.StateClosed ∧
        cb1.config.ReadyToTrip = some defaultReadyToTrip ∧
        cb1.metrics.ConsecutiveFailures = c + envs.length ∧
        opCount cb1.trace = opCount cb.trace + envs.length := by
  induction envs with
  | nil =>
    intro cb c hs hr hc _ _ _
    exact ⟨cb, rfl, hs, hr, by simpa using hc, by simp⟩
  | cons e rest ih =>
    intro cb c hs hr hc hc0 hlen hall
    simp only [List.length_cons, Nat.cast_add, Nat.cast_one] at hlen
    obtain ⟨hctx, herr⟩ := hall e (List.mem_cons_self _ _)
    obtain ⟨r, hcall, hcfg, hcf, hop, hcl, -⟩ :=
      call_closed_failure cb e c hs hr hc hc0 (by omega) hctx herr
    obtain ⟨cb1, hrun, hs1, hr1, hc1, hop1⟩ :=
      ih r.cb (c + 1) (hcl (by omega)) (by rw [hcfg]; exact hr) hcf (by omega) (by omega)
        (fun x hx => hall x (List.mem_cons_of_mem _ hx))
    refine ⟨cb1, by simp only [runCalls, hcall]; exact hrun, hs1, hr1, ?_, ?_⟩
    · rw [hc1]; simp only [List.length_cons, Nat.cast_add, Nat.cast_one]; omega
    · rw [hop1, hop]; simp only [List.length_cons]; omega

/-- C5 (trip threshold).  With the default trip predicate (no `ReadyToTrip` supplied), starting
from a new breaker, five consecutive calls with live contexts whose operations return a non-nil
error all run their operation (after `k` calls the operation has been invoked `k` times); the
breaker is Closed after each of the first four (and before the first) and Open after the
fifth. -/
theorem trip_threshold (config : Config) (now : Time) (envs : List CallEnv) (k : Nat)
    (hcfg : config.ReadyToTrip = none) (hlen : envs.length = 5)
    (hfail : ∀ e ∈ envs, e.ctxErr = none ∧ ∀ st m, (e.operation st m).2 ≠ none)
    (hk : k ≤ 5) :
    ∃ cbk, runCalls (NewCircuitBreaker config now) (envs.take k) = some cbk ∧
      opCount cbk.trace = k ∧
      (k < 5 → cbk.state = State.StateClosed) ∧
      (k = 5 → cbk.state = State.StateOpen) := by
  have hrtt : (NewCircuitBreaker config now).config.ReadyToTrip = some defaultReadyToTrip := by
    rw [NewCircuitBreaker_ReadyToTrip, hcfg]; rfl
  have hprefix : ∀ k, k ≤ 4 →
      ∃ cbk, runCalls (NewCircuitBreaker config now) (envs.take k) = some cbk ∧
        cbk.state = State.StateClosed ∧
        cbk.config.ReadyToTrip = some defaultReadyToTrip ∧
        cbk.metrics.ConsecutiveFailures = k ∧ opCount cbk.trace = k := by
    intro k hk
    have hl : (envs.take k).length = k := by rw [List.length_take]; omega
    obtain ⟨cbk, hrun, hs, hr, hc, hop⟩ :=
      runCalls_closed_failures (envs.take k) (NewCircuitBreaker config now) 0 rfl hrtt rfl
        (le_refl _) (by rw [hl]; omega) (fun e he => hfail e (List.mem_of_mem_take he))
    refine ⟨cbk, hrun, hs, hr, by rw [hc, hl]; omega, ?_⟩
    rw [hop, hl]
    show opCount [] + k = k
    simp [opCount]
  by_cases hk4 : k ≤ 4
  · obtain ⟨cbk, hrun, hs, -, -, hop⟩ := hprefix k hk4
    exact ⟨cbk, hrun, hop, fun _ => hs, fun h => by omega⟩
  · have hk5 : k = 5 := by omega
    subst hk5
    obtain ⟨cb4, hrun, hs, hr, hc, hop⟩ := hprefix 4 (le_refl _)
    have hdrop : (envs.drop 4).length = 1 := by rw [List.length_drop]; omega
    obtain ⟨e, he⟩ := List.length_eq_one.mp hdrop
    have hmem : e ∈ envs := List.mem_of_mem_drop (by rw [he]; exact List.mem_singleton_self e)
    obtain ⟨hctx, herr⟩ := hfail e hmem
    obtain ⟨r, hcall, -, -, hop5, -, hopen⟩ :=
      call_closed_failure cb4 e 4 hs hr (by rw [hc]; rfl) (by omega) (le_refl _) hctx herr
    have htake : envs.take 5 = envs.take 4 ++ [e] := by
      rw [← he, List.take_append_drop, List.take_of_length_le (by omega)]
    refine ⟨r.cb, ?_, by rw [hop5, hop], fun h => by omega, fun _ => hopen rfl⟩
    rw [htake, runCalls_append, hrun]
    simp only [Option.bind, runCalls, hcall]

/-- Witness of C5: five failing calls at times 1..5 on a new default breaker. -/
theorem trip_threshold_witness :
    ∃ cb5, runCalls (NewCircuitBreaker zeroConfig 0)
        ([failingCall 1, failingCall 2, failingCall 3, failingCall 4, failingCall 5].take 5)
          = some cb5 ∧
      opCount cb5.trace = 5 ∧ cb5.state = State.StateOpen :=
  match trip_threshold zeroConfig 0
      [failingCall 1, failingCall 2, failingCall 3, failingCall 4, failingCall 5] 5 rfl rfl
      (by simp [failingCall]) (le_refl 5) with
  | ⟨cb5, h, ho, _, hs⟩ => ⟨cb5, h, ho, hs rfl⟩

/-- A call on an Open breaker past its timeout is the same call on the breaker already moved
to HalfOpen by the admission check. -/
theorem call_of_ready (cb : circuitBreakerImpl) (env : CallEnv)
    (hopen : cb.state = State.StateOpen) (hctx : env.ctxErr = none)
    (hnow : cb.lastStateChange + cb.config.Timeout < env.nowCheck) :
    Call cb env = Call (setState cb State.StateHalfOpen env.nowHalfOpen) env := by
  unfold Call
  simp only [hctx]
  rw [canExecute_of_ready cb _ _ hopen hnow,
    canExecute_of_not_open (setState cb State.StateHalfOpen env.nowHalfOpen) _ _
      (by rw [setState_state]; decide)]

/-- One successful call on a HalfOpen breaker whose trial counter is below `MaxRequests`. -/
theorem call_halfOpen_success (cb : circuitBreakerImpl) (env : CallEnv) (h n : Nat)
    (hhalf : cb.state = State.StateHalfOpen) (hh : cb.halfOpenRequests = h)
    (hmax : cb.config.MaxRequests = n) (hn : n < 4294967296) (hlt : h < n)
    (hctx : env.ctxErr = none) (hok : ∀ st m, (env.operation st m).2 = none) :
    ∃ r, Call cb env = some r ∧ r.cb.config = cb.config ∧
      (h + 1 < n → r.cb.state = State.StateHalfOpen ∧ r.cb.halfOpenRequests = h + 1) ∧
      (h + 1 = n → r.cb.state = State.StateClosed ∧ r.cb.metrics = Metrics.zero ∧
        r.cb.halfOpenRequests = 0) := by
  obtain ⟨r, post, hcall, hres, -, -, hsucc, -⟩ :=
    call_of_canExecute cb cb env hctx (canExecute_of_not_open cb _ _ (by rw [hhalf]; decide))
      (Or.inl (by rw [hhalf]; decide))
  have herr : r.err = none := by
    have : r.err = (env.operation cb.state cb.metrics).2 := by rw [← hres]
    rw [this]; exact hok _ _
  have hrc := hsucc herr
  have hwrap : wrapUint32 (h + 1) = h + 1 := by unfold wrapUint32; omega
  refine ⟨r, hcall, by rw [hrc, recordSuccess_config], ?_, ?_⟩
  · intro hlt1
    have hne : h + 1 ≠ n := by omega
    rw [hrc]
    simp [recordSuccess, hhalf, hh, hmax, hwrap, hne]
  · intro heq
    subst heq
    have hrs : recordSuccess { cb with trace := cb.trace ++ [Event.operation cb.state] }
          env.nowRecord
        = setState
            { cb with
              trace := cb.trace ++ [Event.operation cb.state]
              metrics :=
                { cb.metrics with
                  Requests := wrapInt64 (cb.metrics.Requests + 1)
                  Successes := wrapInt64 (cb.metrics.Successes + 1)
                  ConsecutiveFailures := 0 }
              halfOpenRequests := wrapUint32 (cb.halfOpenRequests + 1) }
            State.StateClosed env.nowRecord := by
      simp [recordSuccess, hhalf, hh, hmax, hwrap]
    rw [hrc, hrs]
    refine ⟨setState_state _ _ _, ?_, ?_⟩
    · simp [setState, hhalf]
      split_ifs <;> rfl
    · exact setState_halfOpenRequests _ _ _ (by decide) (by simp [hhalf])

/-- A streak of successful calls on a HalfOpen breaker: it stays HalfOpen while the trial counter
is below `MaxRequests` and closes, with zeroed metrics, when the counter reaches it. -/
theorem runCalls_halfOpen_successes (n : Nat) (hn : n < 4294967296) (envs : List CallEnv) :
    ∀ (cb : circuitBreakerImpl) (h : Nat),
      cb.state = State.StateHalfOpen → cb.halfOpenRequests = h → cb.config.MaxRequests = n →
      envs ≠ [] → h + envs.length ≤ n →
      (∀ e ∈ envs, e.ctxErr = none ∧ ∀ st m, (e.operation st m).2 = none) →
      ∃ cb1, runCalls cb envs = some cb1 ∧
        (h + envs.length < n → cb1.state = State.StateHalfOpen) ∧
        (h + envs.length = n → cb1.state = State.StateClosed ∧ cb1.metrics = Metrics.zero ∧
          cb1.halfOpenRequests = 0) := by
  induction envs with
  | nil => intro cb h _ _ _ hne; exact absurd rfl hne
  | cons e rest ih =>
    intro cb h hs hh hmax _ hlen hall
    simp only [List.length_cons] at hlen ⊢
    obtain ⟨hctx, hok⟩ := hall e (List.mem_cons_self _ _)
    obtain ⟨r, hcall, hcfg, hstay, hclose⟩ :=
      call_halfOpen_success cb e h n hs hh hmax hn (by omega) hctx hok
    by_cases hrest : rest = []
    · subst hrest
      refine ⟨r.cb, by simp only [runCalls, hcall], ?_, ?_⟩
      · intro hlt; exact (hstay (by simpa using hlt)).1
      · intro heq; exact hclose (by simpa using heq)
    · have hpos : 0 < rest.length := List.length_pos.mpr hrest
      obtain ⟨hs1, hh1⟩ := hstay (by omega)
      obtain ⟨cb1, hrun, hA, hB⟩ :=
        ih r.cb (h + 1) hs1 hh1 (by rw [hcfg]; exact hmax) hrest (by omega)
          (fun x hx => hall x (List.mem_cons_of_mem _ hx))
      refine ⟨cb1, by simp only [runCalls, hcall]; exact hrun, ?_, ?_⟩
      · intro hlt; exact hA (by omega)
      · intro heq; exact hB (by omega)

/-- C10 (half-open success streak closes).  For every `MaxRequests = n` (a `uint32`; `n ≥ 1` on
every reachable breaker), take a reachable Open breaker and `n` consecutive successful calls, the
first of them made after the timeout so that its admission check moves the breaker to HalfOpen.
After each of the first `n - 1` calls the breaker is HalfOpen, and after the `n`-th it is Closed
with `Requests`, `Successes`, `Failures`, `ConsecutiveFailures`, `LastFailureTime` and
`halfOpenRequests` all zero. -/
theorem halfOpen_success_streak (cb : circuitBreakerImpl) (envs : List CallEnv) (n k : Nat)
    (hreach : Reachable cb) (hopen : cb.state = State.StateOpen)
    (hmax : cb.config.MaxRequests = n) (hn : n < 4294967296) (hlen : envs.length = n)
    (hok : ∀ e ∈ envs, e.ctxErr = none ∧ ∀ st m, (e.operation st m).2 = none)
    (hfirst : ∀ e, envs.head? = some e → cb.lastStateChange + cb.config.Timeout < e.nowCheck)
    (hk1 : 1 ≤ k) (hkn : k ≤ n) :
    ∃ cbk, runCalls cb (envs.take k) = some cbk ∧
      (k < n → cbk.state = State.StateHalfOpen) ∧
      (k = n → cbk.state = State.StateClosed ∧ cbk.metrics = Metrics.zero ∧
        cbk.halfOpenRequests = 0) := by
  have hzero : cb.halfOpenRequests = 0 :=
    (wellFormed_of_reachable cb hreach).2.2.2 (by rw [hopen]; decide)
  cases envs with
  | nil => simp only [List.length_nil] at hlen; omega
  | cons e rest =>
    have hready := hfirst e rfl
    have hl : ((e :: rest).take k).length = k := by rw [List.length_take]; omega
    have htk : (e :: rest).take k = e :: rest.take (k - 1) := by
      obtain ⟨j, rfl⟩ : ∃ j, k = j + 1 := ⟨k - 1, by omega⟩
      rfl
    obtain ⟨cbk, hrun, hA, hB⟩ :=
      runCalls_halfOpen_successes n hn ((e :: rest).take k)
        (setState cb State.StateHalfOpen e.nowHalfOpen) 0
        (setState_state _ _ _) (by rw [setState_halfOpen_counter]; exact hzero)
        (by rw [setState_config]; exact hmax) (by rw [htk]; simp) (by rw [hl]; omega)
        (fun x hx => hok x (List.mem_of_mem_take hx))
    rw [hl] at hA hB
    refine ⟨cbk, ?_, fun h => hA (by omega), fun h => hB (by omega)⟩
    rw [htk] at hrun ⊢
    simp only [runCalls] at hrun ⊢
    rw [call_of_ready cb e hopen (hok e (List.mem_cons_self _ _)).1 hready]
    exact hrun

/-- Witness of C10: three successful calls, the first after the timeout, on a reachable Open
breaker with `MaxRequests = 3`. -/
theorem halfOpen_success_streak_witness :
    Reachable trippedOnce.cb ∧
    ∃ cb3, runCalls trippedOnce.cb
        ([succeedingCall (40 * Second), succeedingCall (41 * Second),
          succeedingCall (42 * Second)].take 3) = some cb3 ∧
      cb3.state = State.StateClosed ∧ cb3.metrics = Metrics.zero ∧ cb3.halfOpenRequests = 0 :=
  ⟨Reachable.step (NewCircuitBreaker probeConfig 0) (failingCall 1) trippedOnce
      (Reachable.init probeConfig 0) rfl,
   match halfOpen_success_streak trippedOnce.cb
      [succeedingCall (40 * Second), succeedingCall (41 * Second), succeedingCall (42 * Second)]
      3 3
      (Reachable.step (NewCircuitBreaker probeConfig 0) (failingCall 1) trippedOnce
        (Reachable.init probeConfig 0) rfl)
      rfl rfl (by decide) rfl (by simp [succeedingCall])
      (fun e he => by cases he; decide) (by decide) (by decide) with
   | ⟨cb3, h, _, hc⟩ => ⟨cb3, h, hc rfl⟩⟩

/-- Recording a success outside HalfOpen only updates the metrics. -/
theorem recordSuccess_of_not_halfOpen (cb : circuitBreakerImpl) (t : Time)
    (h : cb.state ≠ State.StateHalfOpen) :
    recordSuccess cb t = { cb with metrics := successMetrics cb.metrics } := by
  simp [recordSuccess, h, successMetrics]

/-- One successful call on a Closed breaker. -/
theorem call_closed_success (cb : circuitBreakerImpl) (env : CallEnv)
    (hclosed : cb.state = State.StateClosed) (hctx : env.ctxErr = none)
    (hok : ∀ st m, (env.operation st m).2 = none) :
    ∃ r, Call cb env = some r ∧ r.cb.state = State.StateClosed ∧
      r.cb.metrics.ConsecutiveFailures = 0 := by
  have hcall : Call cb env
      = some { result := (env.operation cb.state cb.metrics).1
               err := (env.operation cb.state cb.metrics).2
               cb := recordSuccess { cb with trace := cb.trace ++ [Event.operation cb.state] }
                      env.nowRecord } := by
    unfold Call
    simp only [hctx, canExecute_of_not_open cb _ _ (by rw [hclosed]; decide : cb.state ≠ _),
      GetState, GetMetrics, hok]
  refine ⟨_, hcall, ?_, ?_⟩
  · rw [recordSuccess_of_not_halfOpen _ _ (by simp [hclosed])]; exact hclosed
  · rw [recordSuccess_of_not_halfOpen _ _ (by simp [hclosed])]; rfl

/-- C11 (closed stability).  From any Closed breaker, with any configuration (even a nil
`ReadyToTrip`), a non-empty sequence of calls with live contexts whose operations all return a
nil error runs to completion and leaves the breaker Closed with `ConsecutiveFailures = 0`. -/
theorem closed_stability (cb : circuitBreakerImpl) (envs : List CallEnv)
    (hclosed : cb.state = State.StateClosed) (hne : envs ≠ [])
    (hok : ∀ e ∈ envs, e.ctxErr = none ∧ ∀ st m, (e.operation st m).2 = none) :
    ∃ cb1, runCalls cb envs = some cb1 ∧ cb1.state = State.StateClosed ∧
      cb1.metrics.ConsecutiveFailures = 0 := by
  induction envs generalizing cb with
  | nil => exact absurd rfl hne
  | cons e rest ih =>
    obtain ⟨hctx, hop⟩ := hok e (List.mem_cons_self _ _)
    obtain ⟨r, hcall, hs, hcf⟩ := call_closed_success cb e hclosed hctx hop
    by_cases hrest : rest = []
    · subst hrest
      exact ⟨r.cb, by simp only [runCalls, hcall], hs, hcf⟩
    · obtain ⟨cb1, hrun, hs1, hcf1⟩ :=
        ih r.cb hs hrest (fun x hx => hok x (List.mem_cons_of_mem _ hx))
      exact ⟨cb1, by simp only [runCalls, hcall]; exact hrun, hs1, hcf1⟩

/-- Witness of C11: two successful calls on a Closed breaker that has seen four failures and
whose `ReadyToTrip` is nil. -/
theorem closed_stability_witness :
    ∃ cb1, runCalls
        { NewCircuitBreaker zeroConfig 0 with
          config := zeroConfig
          metrics :=
            { Requests := 4, Successes := 0, Failures := 4, ConsecutiveFailures := 4,
              LastFailureTime := 4 } }
        [succeedingCall 5, succeedingCall 6] = some cb1 ∧
      cb1.state = State.StateClosed ∧ cb1.metrics.ConsecutiveFailures = 0 :=
  closed_stability _ [succeedingCall 5, succeedingCall 6] rfl (by simp)
    (by simp [succeedingCall])

/-- C13 (`setState`).  `setState s` stamps `lastStateChange` with the current time when `s`
differs from the current state and leaves it alone when `s` is the current state; in that case
it returns the breaker unchanged (state, metrics, `halfOpenRequests`, `lastStateChange`, and the
trace of callback invocations). -/
theorem setState_lastStateChange (cb : circuitBreakerImpl) (s : State) (now : Time) :
    (setState cb s now).lastStateChange = (if cb.state = s then cb.lastStateChange else now) ∧
    (cb.state = s → setState cb s now = cb) ∧
    (cb.state ≠ s → (setState cb s now).state = s ∧ (setState cb s now).lastStateChange = now) := by
  have hne : cb.state ≠ s → (setState cb s now).lastStateChange = now := by
    intro h
    unfold setState
    cases s <;> simp only [] <;> split_ifs <;> first | rfl | contradiction
  refine ⟨?_, setState_self cb s now, fun h => ⟨setState_state cb s now, hne h⟩⟩
  split_ifs with h
  · rw [setState_self cb s now h]
  · exact hne h

/-- C14 (construction defaults).  `NewCircuitBreaker` replaces `MaxRequests == 0` by 1,
`Interval == 0` by one minute, `Timeout == 0` by 30 seconds and a nil `ReadyToTrip` by the
predicate `ConsecutiveFailures ≥ 5`, keeps every other supplied field (and `OnStateChange`) as
given, and returns a breaker in state Closed with all-zero metrics, `halfOpenRequests = 0`,
`lastStateChange` set to the current time and the name `circuit-breaker`. -/
theorem NewCircuitBreaker_defaults (config : Config) (now : Time) :
    (NewCircuitBreaker config now).config.MaxRequests
      = (if config.MaxRequests = 0 then 1 else config.MaxRequests) ∧
    (NewCircuitBreaker config now).config.Interval
      = (if config.Interval = 0 then 60 * 1000000000 else config.Interval) ∧
    (NewCircuitBreaker config now).config.Timeout
      = (if config.Timeout = 0 then 30 * 1000000000 else config.Timeout) ∧
    (NewCircuitBreaker config now).config.ReadyToTrip
      = (match config.ReadyToTrip with
         | none => some (fun m => decide (m.ConsecutiveFailures ≥ 5))
         | some f => some f) ∧
    (NewCircuitBreaker config now).config.OnStateChange = config.OnStateChange ∧
    (NewCircuitBreaker config now).state = State.StateClosed ∧
    (NewCircuitBreaker config now).metrics
      = { Requests := 0, Successes := 0, Failures := 0, ConsecutiveFailures := 0,
          LastFailureTime := 0 } ∧
    (NewCircuitBreaker config now).halfOpenRequests = 0 ∧
    (NewCircuitBreaker config now).lastStateChange = now ∧
    (NewCircuitBreaker config now).name = "circuit-breaker" := by
  refine ⟨NewCircuitBreaker_MaxRequests config now, ?_, ?_, ?_, ?_, rfl, rfl, rfl, rfl, rfl⟩
  · unfold NewCircuitBreaker
    simp only []
    split_ifs <;> rfl
  · unfold NewCircuitBreaker
    simp only []
    split_ifs <;> rfl
  · rw [NewCircuitBreaker_ReadyToTrip]
    cases config.ReadyToTrip <;> rfl
  · unfold NewCircuitBreaker
    simp only []
    split_ifs <;> rfl

/-- C16 (admission policy).  The admission check returns an error exactly when the breaker is
Open and the time elapsed since `lastStateChange` does not exceed `Timeout`; the error is then
`ErrCircuitBreakerOpen` and the breaker is unchanged.  In Closed and in HalfOpen, whatever
`halfOpenRequests` is, it returns no error and the breaker unchanged.  It never returns
`ErrTooManyRequests`. -/
theorem canExecute_policy (cb : circuitBreakerImpl) (now nowSet : Time) :
    ((canExecute cb now nowSet).2 ≠ none ↔
      (cb.state = State.StateOpen ∧ now - cb.lastStateChange ≤ cb.config.Timeout)) ∧
    ((canExecute cb now nowSet).2 ≠ none →
      canExecute cb now nowSet = (cb, some GoError.ErrCircuitBreakerOpen)) ∧
    (cb.state = State.StateClosed ∨ cb.state = State.StateHalfOpen →
      canExecute cb now nowSet = (cb, none)) ∧
    (canExecute cb now nowSet).2 ≠ some GoError.ErrTooManyRequests := by
  by_cases hopen : cb.state = State.StateOpen
  · by_cases ht : cb.lastStateChange + cb.config.Timeout < now
    · rw [canExecute_of_ready cb now nowSet hopen ht]
      refine ⟨⟨fun h => absurd rfl h, fun h => by
        have h2 := h.2
        linarith⟩,
        fun h => absurd rfl h, ?_, by simp⟩
      rintro (h | h) <;> rw [hopen] at h <;> cases h
    · have hden : canExecute cb now nowSet = (cb, some GoError.ErrCircuitBreakerOpen) := by
        simp [canExecute, GetState, hopen, isReady, ht]
      rw [hden]
      refine ⟨⟨fun _ => ⟨hopen, by
        have h1 := not_lt.mp ht
        linarith⟩, fun _ => by simp⟩,
        fun _ => rfl, ?_, by simp⟩
      rintro (h | h) <;> rw [hopen] at h <;> cases h
  · rw [canExecute_of_not_open cb now nowSet hopen]
    exact ⟨⟨fun h => absurd rfl h, fun h => absurd h.1 hopen⟩, fun h => absurd rfl h,
      fun _ => rfl, by simp⟩

theorem wrapInt64_succ_ne (x : Int) : wrapInt64 (x + 1) ≠ x := by
  unfold wrapInt64; omega

/-- After an admission check that returned no error the breaker is not Open. -/
theorem canExecute_state_of_none (cb cb1 : circuitBreakerImpl) (t1 t2 : Time)
    (h : canExecute cb t1 t2 = (cb1, none)) : cb1.state ≠ State.StateOpen := by
  unfold canExecute at h
  split_ifs at h with h1 h2 h3
  · cases h; exact h2
  · cases h
  · cases h; rw [setState_state]; decide
  · cases h; exact h1

/-- The metrics a recorded failure leaves behind. -/
theorem recordFailure_metrics (cb cb1 : circuitBreakerImpl) (t1 t2 : Time)
    (h : recordFailure cb t1 t2 = some cb1) :
    cb1.metrics = failureMetrics cb.metrics t1 := by
  unfold recordFailure at h
  simp only [] at h
  split at h
  · split at h
    · exact absurd h (by simp)
    · cases Option.some.inj h; rw [setState_metrics _ _ _ (by decide)]; rfl
    · split at h
      · cases Option.some.inj h; rw [setState_metrics _ _ _ (by decide)]; rfl
      · cases Option.some.inj h; rfl
  · split at h
    · cases Option.some.inj h; rw [setState_metrics _ _ _ (by decide)]; rfl
    · cases Option.some.inj h; rfl

/-- The metrics and state a recorded success leaves behind. -/
theorem recordSuccess_metrics (cb : circuitBreakerImpl) (t : Time) :
    ((recordSuccess cb t).metrics = successMetrics cb.metrics ∧
      (recordSuccess cb t).state = cb.state) ∨
    (cb.state = State.StateHalfOpen ∧ (recordSuccess cb t).state = State.StateClosed ∧
      (recordSuccess cb t).metrics = Metrics.zero) := by
  by_cases hs : cb.state = State.StateHalfOpen
  · unfold recordSuccess
    simp only [hs, if_true]
    split_ifs with hm
    · refine Or.inr ⟨trivial, setState_state _ _ _, ?_⟩
      simp [setState, hs]
      split_ifs <;> rfl
    · exact Or.inl ⟨rfl, rfl⟩
  · rw [recordSuccess_of_not_halfOpen cb t hs]
    exact Or.inl ⟨rfl, rfl⟩

/-- A recorded failure and a recorded success never leave the same breaker behind. -/
theorem recordFailure_ne_recordSuccess (cb : circuitBreakerImpl) (t1 t2 t3 : Time) :
    recordFailure cb t1 t2 ≠ some (recordSuccess cb t3) := by
  intro h
  have hm := recordFailure_metrics cb _ t1 t2 h
  rcases recordSuccess_metrics cb t3 with ⟨hsm, -⟩ | ⟨hhalf, hcl, -⟩
  · rw [hsm] at hm
    have : wrapInt64 (cb.metrics.Successes + 1) = cb.metrics.Successes := by
      have := congrArg Metrics.Successes hm
      simpa [successMetrics, failureMetrics] using this
    exact wrapInt64_succ_ne _ this
  · obtain ⟨cb1, h1, hopen, -⟩ := recordFailure_halfOpen cb t1 t2 hhalf
    rw [h1] at h
    cases Option.some.inj h
    rw [hcl] at hopen
    cases hopen

/-- C15 (failure classification).  For a call that passed the context check and the admission
check: it returns the operation's pair; the outcome is recorded by `recordFailure` exactly when
the returned error is non-nil and by `recordSuccess` exactly when it is nil.  A failure leaves
`Requests`, `Failures` and `ConsecutiveFailures` each one higher (in `int64`); a success leaves
`Requests` and `Successes` one higher and `ConsecutiveFailures` zero, unless that success closes
a HalfOpen breaker, which then resets the metrics.  A second call that differs only in the
result values its operation returns ends in the same breaker. -/
theorem call_classification (cb cb1 : circuitBreakerImpl) (env : CallEnv) (r : CallResult)
    (hctx : env.ctxErr = none)
    (hce : canExecute cb env.nowCheck env.nowHalfOpen = (cb1, none))
    (hcall : Call cb env = some r) :
    (r.result, r.err) = env.operation cb1.state cb1.metrics ∧
    (r.err ≠ none ↔
      recordFailure { cb1 with trace := cb1.trace ++ [Event.operation cb1.state] }
        env.nowFailure env.nowRecord = some r.cb) ∧
    (r.err = none ↔
      r.cb = recordSuccess { cb1 with trace := cb1.trace ++ [Event.operation cb1.state] }
        env.nowRecord) ∧
    (r.err ≠ none → r.cb.metrics = failureMetrics cb1.metrics env.nowFailure) ∧
    (r.err = none →
      r.cb.metrics = successMetrics cb1.metrics ∨
      (cb1.state = State.StateHalfOpen ∧ r.cb.state = State.StateClosed ∧
        r.cb.metrics = Metrics.zero)) ∧
    (∀ env2 : CallEnv, env2.ctxErr = env.ctxErr → env2.nowCheck = env.nowCheck →
      env2.nowHalfOpen = env.nowHalfOpen → env2.nowFailure = env.nowFailure →
      env2.nowRecord = env.nowRecord →
      (∀ st m, (env2.operation st m).2 = (env.operation st m).2) →
      ∃ r2, Call cb env2 = some r2 ∧ r2.cb = r.cb ∧ r2.err = r.err) := by
  have hshape : ∀ e : CallEnv, e.ctxErr = none → e.nowCheck = env.nowCheck →
      e.nowHalfOpen = env.nowHalfOpen → e.nowFailure = env.nowFailure →
      e.nowRecord = env.nowRecord →
      Call cb e
        = (match (e.operation cb1.state cb1.metrics).2 with
           | none =>
             some { result := (e.operation cb1.state cb1.metrics).1
                    err := (e.operation cb1.state cb1.metrics).2
                    cb := recordSuccess
                      { cb1 with trace := cb1.trace ++ [Event.operation cb1.state] }
                      env.nowRecord }
           | some _ =>
             match recordFailure
                 { cb1 with trace := cb1.trace ++ [Event.operation cb1.state] }
                 env.nowFailure env.nowRecord with
             | none => none
             | some cb3 =>
               some { result := (e.operation cb1.state cb1.metrics).1
                      err := (e.operation cb1.state cb1.metrics).2
                      cb := cb3 }) := by
    intro e h0 h1 h2 h3 h4
    unfold Call
    simp only [h0, h1, h2, h3, h4, hce, GetState, GetMetrics]
  have hmain := hshape env hctx rfl rfl rfl rfl
  rw [hcall] at hmain
  cases hout : (env.operation cb1.state cb1.metrics).2 with
  | none =>
    rw [hout] at hmain
    simp only [] at hmain
    have hr := Option.some.inj hmain
    have herr : r.err = none := by rw [hr]
    have hcb : r.cb = recordSuccess
        { cb1 with trace := cb1.trace ++ [Event.operation cb1.state] } env.nowRecord := by
      rw [hr]
    refine ⟨by rw [hr]; exact Prod.ext rfl hout.symm, ?_, ?_, fun h => absurd herr h,
      fun _ => ?_, ?_⟩
    · refine ⟨fun h => absurd herr h, fun h => ?_⟩
      rw [hcb] at h
      exact absurd h (recordFailure_ne_recordSuccess _ _ _ _)
    · exact ⟨fun _ => hcb, fun _ => herr⟩
    · rw [hcb]
      rcases recordSuccess_metrics
        { cb1 with trace := cb1.trace ++ [Event.operation cb1.state] } env.nowRecord with
        ⟨hm, -⟩ | ⟨h1, h2, h3⟩
      · exact Or.inl hm
      · exact Or.inr ⟨h1, h2, h3⟩
    · intro env2 h0 h1 h2 h3 h4 hsame
      have h2shape := hshape env2 (h0.trans hctx) h1 h2 h3 h4
      rw [hsame, hout] at h2shape
      simp only [] at h2shape
      exact ⟨_, h2shape, hcb.symm, herr.symm⟩
  | some e =>
    rw [hout] at hmain
    simp only [] at hmain
    cases hrf : recordFailure
        { cb1 with trace := cb1.trace ++ [Event.operation cb1.state] }
        env.nowFailure env.nowRecord with
    | none => rw [hrf] at hmain; cases hmain
    | some cb3 =>
      rw [hrf] at hmain
      simp only [] at hmain
      have hr := Option.some.inj hmain
      have herr : r.err = some e := by rw [hr]
      have hcb : r.cb = cb3 := by rw [hr]
      refine ⟨by rw [hr]; exact Prod.ext rfl hout.symm, ?_, ?_, fun _ => ?_, fun h => ?_, ?_⟩
      · exact ⟨fun _ => by rw [hcb], fun _ => by simp [herr]⟩
      · refine ⟨fun h => absurd (herr.symm.trans h) (by simp), fun h => ?_⟩
        rw [← hcb, h] at hrf
        exact absurd hrf (recordFailure_ne_recordSuccess _ _ _ _)
      · rw [hcb]
        have := recordFailure_metrics _ _ _ _ hrf
        exact this
      · exact absurd (herr.symm.trans h) (by simp)
      · intro env2 h0 h1 h2 h3 h4 hsame
        have h2shape := hshape env2 (h0.trans hctx) h1 h2 h3 h4
        rw [hsame, hout] at h2shape
        simp only [hrf] at h2shape
        exact ⟨_, h2shape, hcb.symm, herr.symm⟩

/-- Witness of C15: the first failing call on a new default breaker is recorded as a failure. -/
theorem call_classification_witness :
    onceFailed.err ≠ none ∧
    onceFailed.cb.metrics = failureMetrics (NewCircuitBreaker zeroConfig 0).metrics 1 :=
  ⟨by decide,
   (call_classification (NewCircuitBreaker zeroConfig 0) (NewCircuitBreaker zeroConfig 0)
      (failingCall 1) onceFailed rfl rfl rfl).2.2.2.1 (by decide)⟩

theorem callbacks_append (a b : List Event) : callbacks (a ++ b) = callbacks a ++ callbacks b := by
  simp [callbacks, List.filterMap_append]

theorem stateChanges_pair (a b : State) :
    stateChanges [a, b] = if a = b then [] else [(a, b)] := by
  simp [stateChanges]

theorem stateChanges_triple (a b c : State) :
    stateChanges [a, b, c] = stateChanges [a, b] ++ stateChanges [b, c] := by
  simp only [stateChanges]
  split_ifs <;> simp

theorem stateChanges_ne (l : List State) : ∀ p ∈ stateChanges l, p.1 ≠ p.2 := by
  induction l with
  | nil => intro p hp; simp [stateChanges] at hp
  | cons a rest ih =>
    cases rest with
    | nil => intro p hp; simp [stateChanges] at hp
    | cons b rest2 =>
      intro p hp
      simp only [stateChanges] at hp
      split_ifs at hp with hab
      · exact ih p hp
      · rcases List.mem_cons.mp hp with h | h
        · rw [h]; exact hab
        · exact ih p h

/-- With a callback configured, `setState` invokes it once if the state changes, with the old
and the new state, and not at all otherwise. -/
theorem setState_callbacks (cb : circuitBreakerImpl) (s : State) (t : Time)
    (h : cb.config.OnStateChange.isSome = true) :
    callbacks (setState cb s t).trace
      = callbacks cb.trace
        ++ (stateChanges [cb.state, (setState cb s t).state]).map
            (fun p => (cb.name, p.1, p.2)) := by
  rw [setState_state, stateChanges_pair]
  by_cases hs : cb.state = s
  · rw [setState_self cb s t hs]; simp [hs]
  · simp only [hs, if_false]
    unfold setState
    cases s <;> simp only [hs, if_false, h, if_true] <;> simp [callbacks, List.filterMap_append]

theorem recordSuccess_name (cb : circuitBreakerImpl) (t : Time) :
    (recordSuccess cb t).name = cb.name := by
  unfold recordSuccess
  simp only []
  split_ifs
  · rw [setState_name]
  · rfl
  · rfl

theorem recordSuccess_callbacks (cb : circuitBreakerImpl) (t : Time)
    (h : cb.config.OnStateChange.isSome = true) :
    callbacks (recordSuccess cb t).trace
      = callbacks cb.trace
        ++ (stateChanges [cb.state, (recordSuccess cb t).state]).map
            (fun p => (cb.name, p.1, p.2)) := by
  unfold recordSuccess
  simp only []
  split_ifs with hs hm
  · exact setState_callbacks _ _ _ h
  · simp [stateChanges_pair]
  · simp [stateChanges_pair]

theorem recordFailure_name (cb cb1 : circuitBreakerImpl) (t1 t2 : Time)
    (hr : recordFailure cb t1 t2 = some cb1) : cb1.name = cb.name := by
  unfold recordFailure at hr
  simp only [] at hr
  split at hr
  · split at hr
    · exact absurd hr (by simp)
    · cases Option.some.inj hr; rw [setState_name]
    · split at hr
      · cases Option.some.inj hr; rw [setState_name]
      · cases Option.some.inj hr; rfl
  · split at hr
    · cases Option.some.inj hr; rw [setState_name]
    · cases Option.some.inj hr; rfl

theorem recordFailure_callbacks (cb cb1 : circuitBreakerImpl) (t1 t2 : Time)
    (h : cb.config.OnStateChange.isSome = true)
    (hr : recordFailure cb t1 t2 = some cb1) :
    callbacks cb1.trace
      = callbacks cb.trace
        ++ (stateChanges [cb.state, cb1.state]).map (fun p => (cb.name, p.1, p.2)) := by
  unfold recordFailure at hr
  simp only [] at hr
  split at hr
  · split at hr
    · exact absurd hr (by simp)
    · cases Option.some.inj hr; exact setState_callbacks _ _ _ h
    · split at hr
      · cases Option.some.inj hr; exact setState_callbacks _ _ _ h
      · cases Option.some.inj hr; simp [stateChanges_pair]
  · split at hr
    · cases Option.some.inj hr; exact setState_callbacks _ _ _ h
    · cases Option.some.inj hr; simp [stateChanges_pair]

theorem canExecute_callbacks (cb : circuitBreakerImpl) (t1 t2 : Time)
    (h : cb.config.OnStateChange.isSome = true) :
    callbacks (canExecute cb t1 t2).1.trace
      = callbacks cb.trace
        ++ (stateChanges [cb.state, (canExecute cb t1 t2).1.state]).map
            (fun p => (cb.name, p.1, p.2)) := by
  unfold canExecute
  split_ifs
  · simp [stateChanges_pair]
  · simp [stateChanges_pair]
  · exact setState_callbacks _ _ _ h
  · simp [stateChanges_pair]

theorem canExecute_config (cb : circuitBreakerImpl) (t1 t2 : Time) :
    (canExecute cb t1 t2).1.config = cb.config ∧ (canExecute cb t1 t2).1.name = cb.name := by
  unfold canExecute
  split_ifs
  · exact ⟨rfl, rfl⟩
  · exact ⟨rfl, rfl⟩
  · exact ⟨setState_config _ _ _, setState_name _ _ _⟩
  · exact ⟨rfl, rfl⟩

theorem canExecute_denied (cb cb1 : circuitBreakerImpl) (t1 t2 : Time) (e : GoError)
    (h : canExecute cb t1 t2 = (cb1, some e)) : cb1 = cb := by
  unfold canExecute at h
  split_ifs at h
  all_goals first | (cases h; rfl) | cases h

/-- A call keeps the configuration and the name of the breaker. -/
theorem call_config (cb : circuitBreakerImpl) (env : CallEnv) (r : CallResult)
    (hc : Call cb env = some r) : r.cb.config = cb.config ∧ r.cb.name = cb.name := by
  unfold Call at hc
  split at hc
  · cases Option.some.inj hc; exact ⟨rfl, rfl⟩
  · have hce := canExecute_config cb env.nowCheck env.nowHalfOpen
    split at hc
    · rename_i cb1 err heq
      rw [heq] at hce
      cases Option.some.inj hc; exact hce
    · rename_i cb1 heq
      rw [heq] at hce
      simp only [] at hc
      split at hc
      · cases Option.some.inj hc
        exact ⟨(recordSuccess_config _ _).trans hce.1, (recordSuccess_name _ _).trans hce.2⟩
      · split at hc
        · exact absurd hc (by simp)
        · rename_i cb3 h3
          cases Option.some.inj hc
          exact ⟨(recordFailure_config _ _ _ _ h3).trans hce.1,
            (recordFailure_name _ _ _ _ h3).trans hce.2⟩

/-- The callbacks of one call are the state changes among the state before it, the state after
its admission check and the state after its outcome is recorded. -/
theorem call_callbacks (cb : circuitBreakerImpl) (env : CallEnv) (r : CallResult)
    (h : cb.config.OnStateChange.isSome = true) (hc : Call cb env = some r) :
    callbacks r.cb.trace
      = callbacks cb.trace
        ++ (stateChanges (cb.state :: statesOfCall cb env)).map
            (fun p => (cb.name, p.1, p.2)) := by
  unfold statesOfCall
  rw [hc]
  have hcopy := hc
  unfold Call at hc
  split at hc
  · rename_i err herr
    cases Option.some.inj hc
    simp [stateChanges]
  · rename_i hctx
    simp only []
    have hcb := canExecute_callbacks cb env.nowCheck env.nowHalfOpen h
    have hcfg := canExecute_config cb env.nowCheck env.nowHalfOpen
    split at hc
    · rename_i cb1 err heq
      have := canExecute_denied cb cb1 _ _ err heq
      subst this
      cases Option.some.inj hc
      simp [heq, stateChanges]
    · rename_i cb1 heq
      rw [heq] at hcb hcfg
      simp only [heq]
      rw [stateChanges_triple, List.map_append, ← List.append_assoc, ← hcb]
      simp only [] at hc
      split at hc
      · cases Option.some.inj hc
        have hrs := recordSuccess_callbacks
          { cb1 with trace := cb1.trace ++ [Event.operation cb1.state] } env.nowRecord
          (by rw [← hcfg.1] at h; exact h)
        rw [hrs, callbacks_append, ← hcfg.2]
        simp [callbacks]
      · split at hc
        · exact absurd hc (by simp)
        · rename_i cb3 h3
          cases Option.some.inj hc
          have hrf := recordFailure_callbacks _ _ _ _ (by rw [← hcfg.1] at h; exact h) h3
          rw [hrf, callbacks_append, ← hcfg.2]
          simp [callbacks]

theorem expectedCallbacks_ne (envs : List CallEnv) :
    ∀ (cb : circuitBreakerImpl), ∀ p ∈ expectedCallbacks cb envs, p.2.1 ≠ p.2.2 := by
  induction envs with
  | nil => intro cb p hp; simp [expectedCallbacks] at hp
  | cons e rest ih =>
    intro cb p hp
    simp only [expectedCallbacks] at hp
    split at hp
    · simp at hp
    · rename_i r hr
      rcases List.mem_append.mp hp with h | h
      · obtain ⟨q, hq, rfl⟩ := List.mem_map.mp h
        exact stateChanges_ne _ q hq
      · exact ih r.cb p h

/-- C12 (callback firing).  On a breaker with `OnStateChange` configured, over any sequence of
calls that runs to completion, the callback invocations added to the trace are exactly the
changes of the breaker's state, one invocation per change, in the order the changes occur, each
with the breaker's name, the state before and the state after; these two states always differ.
A call during which the state never changes adds no invocation. -/
theorem callback_firing (cb cb1 : circuitBreakerImpl) (envs : List CallEnv)
    (h : cb.config.OnStateChange.isSome = true) (hrun : runCalls cb envs = some cb1) :
    callbacks cb1.trace = callbacks cb.trace ++ expectedCallbacks cb envs ∧
    (∀ p ∈ expectedCallbacks cb envs, p.2.1 ≠ p.2.2) ∧
    (∀ env r, Call cb env = some r → (∀ s ∈ statesOfCall cb env, s = cb.state) →
      callbacks r.cb.trace = callbacks cb.trace) := by
  refine ⟨?_, expectedCallbacks_ne envs cb, ?_⟩
  · induction envs generalizing cb with
    | nil =>
      simp only [runCalls] at hrun
      cases Option.some.inj hrun
      simp [expectedCallbacks]
    | cons e rest ih =>
      simp only [runCalls] at hrun
      cases hc : Call cb e with
      | none => rw [hc] at hrun; cases hrun
      | some r =>
        rw [hc] at hrun
        simp only [] at hrun
        have hcfg := call_config cb e r hc
        have hrest := ih r.cb (by rw [hcfg.1]; exact h) hrun
        rw [hrest, call_callbacks cb e r h hc]
        simp only [expectedCallbacks, hc, List.append_assoc]
  · intro env r hc hsame
    rw [call_callbacks cb env r h hc]
    have hnil : stateChanges (cb.state :: statesOfCall cb env) = [] := by
      generalize statesOfCall cb env = l at hsame
      induction l with
      | nil => rfl
      | cons a rest ih =>
        have ha : a = cb.state := hsame a (List.mem_cons_self _ _)
        subst ha
        cases rest with
        | nil => simp [stateChanges]
        | cons b rest2 =>
          have := ih (fun s hs => hsame s (List.mem_cons_of_mem _ hs))
          simp only [stateChanges, if_true] at this ⊢
          exact this
    rw [hnil]; simp

/-- Witness of C12: a failing call and then a successful probe on a breaker with a callback. -/
theorem callback_firing_witness :
    runCalls (NewCircuitBreaker notifyingConfig 0) [failingCall 1, succeedingCall (40 * Second)]
      = some notifiedBreaker ∧
    callbacks notifiedBreaker.trace
      = [("circuit-breaker", State.StateClosed, State.StateOpen),
         ("circuit-breaker", State.StateOpen, State.StateHalfOpen),
         ("circuit-breaker", State.StateHalfOpen, State.StateClosed)] :=
  ⟨rfl,
   (callback_firing (NewCircuitBreaker notifyingConfig 0) notifiedBreaker
      [failingCall 1, succeedingCall (40 * Second)] rfl (by rfl)).1.trans (by decide)⟩

theorem wrapInt64_wrap_succ (x : Int) : wrapInt64 (wrapInt64 x + 1) = wrapInt64 (x + 1) := by
  unfold wrapInt64; omega

/-- Recording a failure never moves the breaker into Closed. -/
theorem recordFailure_state (cb cb1 : circuitBreakerImpl) (t1 t2 : Time)
    (h : recordFailure cb t1 t2 = some cb1) :
    cb1.state = cb.state ∨ cb1.state = State.StateOpen := by
  unfold recordFailure at h
  simp only [] at h
  split at h
  · split at h
    · exact absurd h (by simp)
    · cases Option.some.inj h; exact Or.inr (setState_state _ _ _)
    · split at h
      · cases Option.some.inj h; exact Or.inr (setState_state _ _ _)
      · cases Option.some.inj h; exact Or.inl rfl
  · split at h
    · cases Option.some.inj h; exact Or.inr (setState_state _ _ _)
    · cases Option.some.inj h; exact Or.inl rfl

theorem canExecute_metrics (cb : circuitBreakerImpl) (t1 t2 : Time) :
    (canExecute cb t1 t2).1.metrics = cb.metrics := by
  unfold canExecute
  split_ifs
  · rfl
  · rfl
  · exact setState_metrics _ _ _ (by decide)
  · rfl

/-- A call that passed both checks recorded its outcome with `recordSuccess` or with
`recordFailure`, according to the error it returns. -/
theorem call_recorded (cb cb1 : circuitBreakerImpl) (env : CallEnv) (r : CallResult)
    (hctx : env.ctxErr = none)
    (hce : canExecute cb env.nowCheck env.nowHalfOpen = (cb1, none))
    (hcall : Call cb env = some r) :
    (r.err = none ∧
      r.cb = recordSuccess { cb1 with trace := cb1.trace ++ [Event.operation cb1.state] }
        env.nowRecord) ∨
    (r.err ≠ none ∧
      recordFailure { cb1 with trace := cb1.trace ++ [Event.operation cb1.state] }
        env.nowFailure env.nowRecord = some r.cb) := by
  unfold Call at hcall
  simp only [hctx, hce, GetState, GetMetrics] at hcall
  split at hcall
  · rename_i hout
    cases Option.some.inj hcall
    exact Or.inl ⟨hout, rfl⟩
  · rename_i e hout
    split at hcall
    · cases hcall
    · rename_i cb3 h3
      cases Option.some.inj hcall
      exact Or.inr ⟨by simp [hout], h3⟩

/-- The counters agree with a window, as `int64` values. -/
theorem window_step (cb : circuitBreakerImpl) (env : CallEnv) (r : CallResult) (w : Window)
    (hc : Call cb env = some r)
    (hR : cb.metrics.Requests = wrapInt64 w.requests)
    (hS : cb.metrics.Successes = wrapInt64 w.successes)
    (hF : cb.metrics.Failures = wrapInt64 w.failures) :
    r.cb.metrics.Requests = wrapInt64 (windowStep enteredClosed cb env r w).requests ∧
    r.cb.metrics.Successes = wrapInt64 (windowStep enteredClosed cb env r w).successes ∧
    r.cb.metrics.Failures = wrapInt64 (windowStep enteredClosed cb env r w).failures := by
  unfold windowStep
  cases hctx : env.ctxErr with
  | some e =>
    have : r.cb = cb := by
      unfold Call at hc
      simp only [hctx] at hc
      cases Option.some.inj hc; rfl
    rw [this]; exact ⟨hR, hS, hF⟩
  | none =>
    simp only []
    cases hce : canExecute cb env.nowCheck env.nowHalfOpen with
    | mk cb1 err =>
      cases err with
      | some e =>
        have h1 := canExecute_denied cb cb1 _ _ e hce
        subst h1
        have : r.cb = cb1 := by
          unfold Call at hc
          simp only [hctx, hce] at hc
          cases Option.some.inj hc; rfl
        rw [this]; exact ⟨hR, hS, hF⟩
      | none =>
        simp only []
        have hm : cb1.metrics = cb.metrics := by
          have := canExecute_metrics cb env.nowCheck env.nowHalfOpen
          rw [hce] at this; exact this
        have hs1 : cb1.state ≠ State.StateOpen := canExecute_state_of_none cb cb1 _ _ hce
        have hnew1 : enteredClosed cb.state cb1.state = false := by
          unfold canExecute at hce
          split_ifs at hce with h1 h2 h3
          · cases hce; simp [enteredClosed]
          · cases hce
          · cases hce; simp [enteredClosed, setState_state]
          · cases hce; simp [enteredClosed]
        simp only [hnew1, Bool.false_eq_true, if_false]
        rcases call_recorded cb cb1 env r hctx hce hc with ⟨herr, hcb⟩ | ⟨herr, hrf⟩
        · rcases recordSuccess_metrics
            { cb1 with trace := cb1.trace ++ [Event.operation cb1.state] } env.nowRecord with
            ⟨hsm, hst⟩ | ⟨hhalf, hcl, hz⟩
          · rw [← hcb] at hsm hst
            have hnew2 : enteredClosed cb1.state r.cb.state = false := by
              rw [hst]; simp [enteredClosed]
            simp only [hnew2, Bool.false_eq_true, if_false, Window.record, herr, decide_True,
              if_true, hsm, successMetrics, hm, hR, hS, hF, Nat.cast_add, Nat.cast_one]
            exact ⟨wrapInt64_wrap_succ _, wrapInt64_wrap_succ _, trivial⟩
          · rw [← hcb] at hcl hz
            have hhalf1 : cb1.state = State.StateHalfOpen := hhalf
            have hnew2 : enteredClosed cb1.state r.cb.state = true := by
              rw [hcl, hhalf1]; decide
            simp only [hnew2, if_true, hz]
            decide
        · have hfm := recordFailure_metrics _ _ _ _ hrf
          have hst := recordFailure_state _ _ _ _ hrf
          have hnew2 : enteredClosed cb1.state r.cb.state = false := by
            rcases hst with h | h
            · rw [h]; simp [enteredClosed]
            · rw [h]; simp [enteredClosed]
          have herr2 : decide (r.err = none) = false := by simp [herr]
          simp only [hnew2, Bool.false_eq_true, if_false, Window.record, herr2,
            hfm, failureMetrics, hm, hR, hS, hF, Nat.cast_add, Nat.cast_one]
          exact ⟨wrapInt64_wrap_succ _, trivial, wrapInt64_wrap_succ _⟩

theorem windowStep_le (nw : State → State → Bool) (cb : circuitBreakerImpl) (env : CallEnv)
    (r : CallResult) (w : Window) :
    (windowStep nw cb env r w).requests ≤ w.requests + 1 ∧
    (windowStep nw cb env r w).successes ≤ w.successes + 1 ∧
    (windowStep nw cb env r w).failures ≤ w.failures + 1 := by
  unfold windowStep
  split
  · exact ⟨by omega, by omega, by omega⟩
  · split
    · exact ⟨by omega, by omega, by omega⟩
    · simp only [Window.record]
      split_ifs <;> simp [Window.zero]

theorem windowAfter_le (nw : State → State → Bool) (envs : List CallEnv) :
    ∀ (cb : circuitBreakerImpl) (w : Window),
      (windowAfter nw cb w envs).requests ≤ w.requests + envs.length ∧
      (windowAfter nw cb w envs).successes ≤ w.successes + envs.length ∧
      (windowAfter nw cb w envs).failures ≤ w.failures + envs.length := by
  induction envs with
  | nil => intro cb w; exact ⟨le_refl _, le_refl _, le_refl _⟩
  | cons e rest ih =>
    intro cb w
    simp only [windowAfter, List.length_cons]
    split
    · exact ⟨by omega, by omega, by omega⟩
    · rename_i r hr
      obtain ⟨h1, h2, h3⟩ := ih r.cb (windowStep nw cb e r w)
      obtain ⟨g1, g2, g3⟩ := windowStep_le nw cb e r w
      exact ⟨by omega, by omega, by omega⟩

theorem windowAfter_metrics (envs : List CallEnv) :
    ∀ (cb cb1 : circuitBreakerImpl) (w : Window),
      runCalls cb envs = some cb1 →
      cb.metrics.Requests = wrapInt64 w.requests →
      cb.metrics.Successes = wrapInt64 w.successes →
      cb.metrics.Failures = wrapInt64 w.failures →
      cb1.metrics.Requests = wrapInt64 (windowAfter enteredClosed cb w envs).requests ∧
      cb1.metrics.Successes = wrapInt64 (windowAfter enteredClosed cb w envs).successes ∧
      cb1.metrics.Failures = wrapInt64 (windowAfter enteredClosed cb w envs).failures := by
  induction envs with
  | nil =>
    intro cb cb1 w hrun hR hS hF
    simp only [runCalls] at hrun
    cases Option.some.inj hrun
    exact ⟨hR, hS, hF⟩
  | cons e rest ih =>
    intro cb cb1 w hrun hR hS hF
    simp only [runCalls] at hrun
    cases hc : Call cb e with
    | none => rw [hc] at hrun; cases hrun
    | some r =>
      rw [hc] at hrun
      simp only [] at hrun
      obtain ⟨g1, g2, g3⟩ := window_step cb e r w hc hR hS hF
      simp only [windowAfter, hc]
      exact ih r.cb cb1 _ hrun g1 g2 g3

/-- Counterexample to C17 as stated: after five failing calls the default breaker is Open with
`Requests = 5`, although no call has been recorded since it entered Open. -/
theorem metrics_window_not_per_state :
    (runCalls (NewCircuitBreaker zeroConfig 0)
        [failingCall 1, failingCall 2, failingCall 3, failingCall 4, failingCall 5]).map
      (fun c => (c.state, c.metrics.Requests)) = some (State.StateOpen, 5) ∧
    (windowAfter enteredAnyState (NewCircuitBreaker zeroConfig 0) Window.zero
        [failingCall 1, failingCall 2, failingCall 3, failingCall 4, failingCall 5]).requests
      = 0 := by
  decide

/-- C17 amended (metrics window).  In every state reached from a new breaker by a run of calls,
`Requests`, `Successes` and `Failures` are the numbers of calls, successful calls and failed
calls recorded since the breaker was built or last entered Closed (as `int64` values, and
exactly when the run has fewer than 2^63 calls).  The counters are not reset on entering Open or
HalfOpen. -/
theorem metrics_window (config : Config) (now : Time) (envs : List CallEnv)
    (cb1 : circuitBreakerImpl)
    (hrun : runCalls (NewCircuitBreaker config now) envs = some cb1) :
    (cb1.metrics.Requests
        = wrapInt64 (windowAfter enteredClosed (NewCircuitBreaker config now) Window.zero
            envs).requests ∧
      cb1.metrics.Successes
        = wrapInt64 (windowAfter enteredClosed (NewCircuitBreaker config now) Window.zero
            envs).successes ∧
      cb1.metrics.Failures
        = wrapInt64 (windowAfter enteredClosed (NewCircuitBreaker config now) Window.zero
            envs).failures) ∧
    (envs.length < 9223372036854775808 →
      cb1.metrics.Requests
        = (windowAfter enteredClosed (NewCircuitBreaker config now) Window.zero envs).requests ∧
      cb1.metrics.Successes
        = (windowAfter enteredClosed (NewCircuitBreaker config now) Window.zero envs).successes ∧
      cb1.metrics.Failures
        = (windowAfter enteredClosed (NewCircuitBreaker config now) Window.zero
            envs).failures) := by
  have hw := windowAfter_metrics envs (NewCircuitBreaker config now) cb1 Window.zero hrun
    (show (0 : Int) = wrapInt64 ((0 : Nat) : Int) by decide)
    (show (0 : Int) = wrapInt64 ((0 : Nat) : Int) by decide)
    (show (0 : Int) = wrapInt64 ((0 : Nat) : Int) by decide)
  refine ⟨hw, fun hlen => ?_⟩
  obtain ⟨h1, h2, h3⟩ := windowAfter_le enteredClosed envs (NewCircuitBreaker config now)
    Window.zero
  have hz1 : Window.zero.requests = 0 := rfl
  have hz2 : Window.zero.successes = 0 := rfl
  have hz3 : Window.zero.failures = 0 := rfl
  rw [hz1] at h1
  rw [hz2] at h2
  rw [hz3] at h3
  obtain ⟨g1, g2, g3⟩ := hw
  refine ⟨?_, ?_, ?_⟩
  · rw [g1]; exact wrapInt64_of_range _ (by omega) (by omega)
  · rw [g2]; exact wrapInt64_of_range _ (by omega) (by omega)
  · rw [g3]; exact wrapInt64_of_range _ (by omega) (by omega)

/-- Witness of C17 amended: after the call that trips a `probeConfig` breaker, the Open breaker
still counts that call. -/
theorem metrics_window_witness :
    runCalls (NewCircuitBreaker probeConfig 0) [failingCall 1] = some trippedOnce.cb ∧
    trippedOnce.cb.state = State.StateOpen ∧
    trippedOnce.cb.metrics.Requests
      = ((windowAfter enteredClosed (NewCircuitBreaker probeConfig 0) Window.zero
          [failingCall 1]).requests : Int) ∧
    (windowAfter enteredClosed (NewCircuitBreaker probeConfig 0) Window.zero
      [failingCall 1]).requests = 1 :=
  ⟨rfl, rfl,
   ((metrics_window probeConfig 0 [failingCall 1] trippedOnce.cb (by rfl)).2 (by decide)).1,
   by decide⟩

end CircuitBreaker

namespace GoSlice

theorem index_append_cons {α : Type} (X Z : List α) (a : α) (i : Int) (hi : i = X.length) :
    index (X ++ a :: Z) i = some a := by
  subst hi
  simp only [index, Int.toNat_ofNat, Int.natCast_nonneg, if_true]
  rw [List.getElem?_append_right (le_refl _)]
  simp

theorem assign_append_cons {α : Type} (X Z : List α) (a v : α) (i : Int)
    (hi : i = X.length) : assign (X ++ a :: Z) i v = some (X ++ v :: Z) := by
  subst hi
  have h : ((X.length : Int) < ((X ++ a :: Z).length : Int)) := by
    simp only [List.length_append, List.length_cons]; omega
  simp [assign, h]

theorem swap_same {α : Type} (X Z : List α) (a : α) (i : Int) (hi : i = X.length) :
    swap (X ++ a :: Z) i i = some (X ++ a :: Z) := by
  simp only [swap, index_append_cons X Z a i hi, assign_append_cons X Z a a i hi,
    assign_append_cons X Z a a i hi]

theorem swap_apart {α : Type} (X Y Z : List α) (a b : α) (i j : Int)
    (hi : i = X.length) (hj : j = X.length + 1 + Y.length) :
    swap (X ++ a :: (Y ++ b :: Z)) i j = some (X ++ b :: (Y ++ a :: Z)) ∧
    swap (X ++ a :: (Y ++ b :: Z)) j i = some (X ++ b :: (Y ++ a :: Z)) := by
  have hj1 : j = ((X ++ a :: Y).length : Int) := by
    simp only [List.length_append, List.length_cons]; omega
  have hj2 : j = ((X ++ b :: Y).length : Int) := by
    simp only [List.length_append, List.length_cons]; omega
  have e1 : X ++ a :: (Y ++ b :: Z) = (X ++ a :: Y) ++ b :: Z := by simp
  have e2 : X ++ b :: (Y ++ b :: Z) = (X ++ b :: Y) ++ b :: Z := by simp
  have e3 : X ++ b :: (Y ++ a :: Z) = (X ++ b :: Y) ++ a :: Z := by simp
  have e4 : X ++ a :: (Y ++ a :: Z) = (X ++ a :: Y) ++ a :: Z := by simp
  have ia : index (X ++ a :: (Y ++ b :: Z)) i = some a := index_append_cons X _ a i hi
  have ib : index (X ++ a :: (Y ++ b :: Z)) j = some b := by
    rw [e1]; exact index_append_cons _ Z b j hj1
  constructor
  · simp only [swap, ia, ib, assign_append_cons X _ a b i hi]
    rw [e2, assign_append_cons _ Z b a j hj2, e3]
  · simp only [swap, ia, ib]
    rw [e1, assign_append_cons _ Z b a j hj1, ← e4]
    simp only []
    exact assign_append_cons X _ a b i hi

theorem copy_make (data : List Int) : copy (make data.length) data = data := by
  simp [copy, make]

end GoSlice

namespace Perf

theorem bubbleStep_fold (tail : List Int) :
    ∀ (pre : List Int) (a : Int),
      (List.range' pre.length tail.length).foldlM bubbleStep (pre ++ a :: tail)
        = some (pre ++ bubbleAux a tail) := by
  induction tail with
  | nil => intro pre a; rfl
  | cons b t ih =>
    intro pre a
    have hstep : bubbleStep (pre ++ a :: b :: t) pre.length
        = some (if a > b then pre ++ b :: a :: t else pre ++ a :: b :: t) := by
      have h0 := GoSlice.index_append_cons pre (b :: t) a (pre.length : Int) rfl
      have h1 : GoSlice.index (pre ++ a :: b :: t) ((pre.length : Int) + 1) = some b := by
        have e : pre ++ a :: b :: t = (pre ++ [a]) ++ b :: t := by simp
        rw [e]
        exact GoSlice.index_append_cons _ t b _ (by simp)
      simp only [bubbleStep, h0, h1]
      split_ifs with hab
      · have := (GoSlice.swap_apart pre [] t a b (pre.length : Int) ((pre.length : Int) + 1)
          rfl (by simp)).1
        simpa using this
      · rfl
    simp only [List.length_cons, List.range'_succ, List.foldlM_cons, hstep]
    show (match (some (if a > b then pre ++ b :: a :: t else pre ++ a :: b :: t)) with
      | none => none
      | some s => List.foldlM bubbleStep s (List.range' (pre.length + 1) t.length)) = _
    simp only [bubbleAux]
    split_ifs with hab
    · have := ih (pre ++ [b]) a
      simp only [List.length_append, List.length_singleton, List.append_assoc,
        List.singleton_append] at this
      exact this
    · have := ih (pre ++ [a]) b
      simp only [List.length_append, List.length_singleton, List.append_assoc,
        List.singleton_append] at this
      exact this

theorem bubblePass_eq (l : List Int) : bubblePass l = some (bubble l) := by
  cases l with
  | nil => rfl
  | cons a tail =>
    have h : (((a :: tail).length : Int) - 1).toNat = tail.length := by
      simp only [List.length_cons]; omega
    unfold bubblePass
    rw [h, List.range_eq_range']
    exact bubbleStep_fold tail [] a

theorem bubbleAux_perm (l : List Int) : ∀ a : Int, (bubbleAux a l).Perm (a :: l) := by
  induction l with
  | nil => intro a; exact List.Perm.refl _
  | cons b t ih =>
    intro a
    simp only [bubbleAux]
    split_ifs
    · exact ((ih a).cons b).trans (List.Perm.swap a b t)
    · exact (ih b).cons a

theorem bubble_perm (l : List Int) : (bubble l).Perm l := by
  cases l with
  | nil => exact List.Perm.refl _
  | cons a t => exact bubbleAux_perm t a

/-- A pass ends with an element that is at least every element of the list. -/
theorem bubbleAux_last (l : List Int) :
    ∀ a : Int, ∃ l1 m, bubbleAux a l = l1 ++ [m] ∧ ∀ x ∈ a :: l, x ≤ m := by
  induction l with
  | nil => intro a; exact ⟨[], a, rfl, by simp⟩
  | cons b t ih =>
    intro a
    simp only [bubbleAux]
    split_ifs with hab
    · obtain ⟨l1, m, h1, h2⟩ := ih a
      refine ⟨b :: l1, m, by rw [h1]; rfl, ?_⟩
      intro x hx
      have ha : a ≤ m := h2 a (List.mem_cons_self _ _)
      rcases List.mem_cons.mp hx with rfl | hx
      · exact ha
      · rcases List.mem_cons.mp hx with rfl | hx
        · omega
        · exact h2 x (List.mem_cons_of_mem _ hx)
    · obtain ⟨l1, m, h1, h2⟩ := ih b
      refine ⟨a :: l1, m, by rw [h1]; rfl, ?_⟩
      intro x hx
      have hb : b ≤ m := h2 b (List.mem_cons_self _ _)
      rcases List.mem_cons.mp hx with rfl | hx
      · omega
      · exact h2 x hx

theorem bubbleAux_of_sorted (l : List Int) :
    ∀ a : Int, List.Sorted (· ≤ ·) (a :: l) → bubbleAux a l = a :: l := by
  induction l with
  | nil => intro a _; rfl
  | cons b t ih =>
    intro a hs
    have hab : a ≤ b := List.rel_of_sorted_cons hs b (List.mem_cons_self _ _)
    simp only [bubbleAux, gt_iff_lt, not_lt.mpr hab, if_false]
    rw [ih b hs.of_cons]

theorem bubbleAux_append (front back : List Int) (hs : List.Sorted (· ≤ ·) back) :
    ∀ a : Int, (∀ x ∈ a :: front, ∀ y ∈ back, x ≤ y) →
      bubbleAux a (front ++ back) = bubbleAux a front ++ back := by
  induction front with
  | nil =>
    intro a h
    have : List.Sorted (· ≤ ·) (a :: back) :=
      List.sorted_cons.mpr ⟨fun y hy => h a (List.mem_cons_self _ _) y hy, hs⟩
    rw [List.nil_append, bubbleAux_of_sorted back a this]
    rfl
  | cons f t ih =>
    intro a h
    rw [List.cons_append]
    simp only [bubbleAux]
    split_ifs
    · rw [ih a (fun x hx y hy => h x (by
        rcases List.mem_cons.mp hx with rfl | hx
        · exact List.mem_cons_self _ _
        · exact List.mem_cons_of_mem _ (List.mem_cons_of_mem _ hx)) y hy)]
      rfl
    · rw [ih f (fun x hx y hy => h x (List.mem_cons_of_mem _ hx) y hy)]
      rfl

/-- After `k` passes the list ends with a sorted block of at least `k` elements that bounds the
rest from above, or is sorted altogether. -/
theorem bubble_iterate (k : Nat) (l : List Int) :
    ∃ front back, bubble^[k] l = front ++ back ∧ List.Sorted (· ≤ ·) back ∧
      (∀ x ∈ front, ∀ y ∈ back, x ≤ y) ∧ (front = [] ∨ k ≤ back.length) := by
  induction k with
  | zero => exact ⟨l, [], by simp, List.sorted_nil, by simp, Or.inr (Nat.zero_le _)⟩
  | succ k ih =>
    obtain ⟨front, back, hl, hs, hle, hk⟩ := ih
    rw [Function.iterate_succ_apply', hl]
    cases front with
    | nil =>
      refine ⟨[], back, ?_, hs, by simp, Or.inl rfl⟩
      cases back with
      | nil => rfl
      | cons b t => exact bubbleAux_of_sorted t b hs
    | cons a f =>
      have hk1 : k ≤ back.length := by
        rcases hk with h | h
        · cases h
        · exact h
      obtain ⟨l1, m, h1, h2⟩ := bubbleAux_last f a
      have hperm := bubbleAux_perm f a
      have hm : m ∈ a :: f := hperm.subset (by rw [h1]; simp)
      refine ⟨l1, m :: back, ?_, ?_, ?_, Or.inr (by simp only [List.length_cons]; omega)⟩
      · show bubbleAux a (f ++ back) = _
        rw [bubbleAux_append f back hs a hle, h1]
        simp
      · exact List.sorted_cons.mpr ⟨fun y hy => hle m hm y hy, hs⟩
      · intro x hx y hy
        have hxf : x ∈ a :: f := hperm.subset (by rw [h1]; simp [hx])
        rcases List.mem_cons.mp hy with rfl | hy
        · exact h2 x hxf
        · exact hle x hxf y hy

theorem bubble_iterate_perm (k : Nat) (l : List Int) : (bubble^[k] l).Perm l := by
  induction k with
  | zero => exact List.Perm.refl _
  | succ k ih =>
    rw [Function.iterate_succ_apply']
    exact (bubble_perm _).trans ih

theorem foldlM_bubblePass (js : List Nat) :
    ∀ l : List Int, js.foldlM (fun res _ => bubblePass res) l = some (bubble^[js.length] l) := by
  induction js with
  | nil => intro l; rfl
  | cons j rest ih =>
    intro l
    rw [List.foldlM_cons, bubblePass_eq, List.length_cons, Function.iterate_succ_apply]
    exact ih (bubble l)

/-- `SlowSort` returns a sorted permutation of its input. -/
theorem SlowSort_spec (data : List Int) :
    ∃ res, SlowSort data = some res ∧ res.Perm data ∧ List.Sorted (· ≤ ·) res := by
  refine ⟨bubble^[data.length] data, ?_, bubble_iterate_perm _ _, ?_⟩
  · unfold SlowSort
    simp only [GoSlice.copy_make, foldlM_bubblePass, List.length_range]
  · obtain ⟨front, back, hl, hs, -, hk⟩ := bubble_iterate data.length data
    have hlen : (front ++ back).length = data.length := by
      rw [← hl]; exact (bubble_iterate_perm _ _).length_eq
    rw [hl]
    rcases hk with h | h
    · rw [h]; exact hs
    · have : front = [] := by
        apply List.eq_nil_of_length_eq_zero
        simp only [List.length_append] at hlen
        omega
      rw [this]; exact hs

theorem partitionView_cursor (pre post : List Int) (p1 p2 u : Int) (A B U C : List Int) :
    GoSlice.index (partitionView pre post p1 p2 A B (u :: U) C).nums
      (partitionView pre post p1 p2 A B (u :: U) C).cursor = some u := by
  have e : (partitionView pre post p1 p2 A B (u :: U) C).nums
      = (pre ++ p1 :: (A ++ B)) ++ u :: (U ++ (C ++ p2 :: post)) := by
    simp [partitionView]
  rw [e]
  exact GoSlice.index_append_cons _ _ u _ (by
    simp only [partitionView, List.length_append, List.length_cons]; push_cast; omega)

theorem partitionStep_left (pre post : List Int) (p1 p2 u : Int) (A B U C : List Int)
    (hu : u < p1) :
    ∃ B1, partitionStep p1 p2 (partitionView pre post p1 p2 A B (u :: U) C)
        = some (partitionView pre post p1 p2 (A ++ [u]) B1 U C) ∧ B1.Perm B := by
  have hc := partitionView_cursor pre post p1 p2 u A B U C
  cases B with
  | nil =>
    refine ⟨[], ?_, List.Perm.refl _⟩
    have hswap : GoSlice.swap (partitionView pre post p1 p2 A [] (u :: U) C).nums
        (partitionView pre post p1 p2 A [] (u :: U) C).cursor
        (partitionView pre post p1 p2 A [] (u :: U) C).leftBoundary
        = some (partitionView pre post p1 p2 A [] (u :: U) C).nums := by
      have e : (partitionView pre post p1 p2 A [] (u :: U) C).nums
          = (pre ++ p1 :: A) ++ u :: (U ++ (C ++ p2 :: post)) := by
        simp [partitionView]
      have e2 : (partitionView pre post p1 p2 A [] (u :: U) C).leftBoundary
          = (partitionView pre post p1 p2 A [] (u :: U) C).cursor := by
        simp [partitionView]
      rw [e2, e]
      exact GoSlice.swap_same _ _ u _ (by
        simp only [partitionView, List.length_append, List.length_cons, List.length_nil]
        push_cast; omega)
    simp only [partitionStep, hc, hu, if_true, hswap]
    simp only [partitionView, List.length_append, List.length_cons, List.length_nil,
      List.nil_append, List.append_assoc, List.singleton_append, List.cons_append,
      Option.some.injEq, PartitionState.mk.injEq, true_and, and_true]
    push_cast
    omega
  | cons b B2 =>
    refine ⟨B2 ++ [b], ?_, List.perm_append_singleton b B2⟩
    have hswap : GoSlice.swap (partitionView pre post p1 p2 A (b :: B2) (u :: U) C).nums
        (partitionView pre post p1 p2 A (b :: B2) (u :: U) C).cursor
        (partitionView pre post p1 p2 A (b :: B2) (u :: U) C).leftBoundary
        = some ((pre ++ p1 :: A) ++ u :: (B2 ++ b :: (U ++ (C ++ p2 :: post)))) := by
      have e : (partitionView pre post p1 p2 A (b :: B2) (u :: U) C).nums
          = (pre ++ p1 :: A) ++ b :: (B2 ++ u :: (U ++ (C ++ p2 :: post))) := by
        simp [partitionView]
      rw [e]
      exact (GoSlice.swap_apart (pre ++ p1 :: A) B2 _ b u _ _
        (by simp only [partitionView, List.length_append, List.length_cons]; push_cast; omega)
        (by simp only [partitionView, List.length_append, List.length_cons]
            push_cast; omega)).2
    simp only [partitionStep, hc, hu, if_true, hswap]
    simp only [partitionView, List.length_append, List.length_cons, List.length_nil,
      List.nil_append, List.append_assoc, List.singleton_append, List.cons_append,
      Option.some.injEq, PartitionState.mk.injEq, true_and, and_true]
    push_cast
    omega

theorem partitionStep_right (pre post : List Int) (p1 p2 u : Int) (A B U C : List Int)
    (hu1 : ¬ u < p1) (hu2 : u > p2) :
    ∃ U1, partitionStep p1 p2 (partitionView pre post p1 p2 A B (u :: U) C)
        = some (partitionView pre post p1 p2 A B U1 (u :: C)) ∧ U1.Perm U := by
  have hc := partitionView_cursor pre post p1 p2 u A B U C
  rcases List.eq_nil_or_concat U with rfl | ⟨U2, v, hU⟩
  swap
  · rw [List.concat_eq_append] at hU
    subst hU
    refine ⟨v :: U2, ?_, (List.perm_append_singleton v U2).symm⟩
    have hswap : GoSlice.swap (partitionView pre post p1 p2 A B (u :: (U2 ++ [v])) C).nums
        (partitionView pre post p1 p2 A B (u :: (U2 ++ [v])) C).cursor
        (partitionView pre post p1 p2 A B (u :: (U2 ++ [v])) C).rightBoundary
        = some ((pre ++ p1 :: (A ++ B)) ++ v :: (U2 ++ u :: (C ++ p2 :: post))) := by
      have e : (partitionView pre post p1 p2 A B (u :: (U2 ++ [v])) C).nums
          = (pre ++ p1 :: (A ++ B)) ++ u :: (U2 ++ v :: (C ++ p2 :: post)) := by
        simp [partitionView]
      rw [e]
      exact (GoSlice.swap_apart (pre ++ p1 :: (A ++ B)) U2 _ u v _ _
        (by simp only [partitionView, List.length_append, List.length_cons]; push_cast; omega)
        (by simp only [partitionView, List.length_append, List.length_cons, List.length_nil]
            push_cast; omega)).1
    simp only [partitionStep, hc, hu1, hu2, if_true, if_false, hswap]
    simp only [partitionView, List.length_append, List.length_cons, List.length_nil,
      List.nil_append, List.append_assoc, List.singleton_append, List.cons_append,
      Option.some.injEq, PartitionState.mk.injEq, true_and, and_true]
    push_cast
    omega
  · refine ⟨[], ?_, List.Perm.refl _⟩
    have hswap : GoSlice.swap (partitionView pre post p1 p2 A B [u] C).nums
        (partitionView pre post p1 p2 A B [u] C).cursor
        (partitionView pre post p1 p2 A B [u] C).rightBoundary
        = some (partitionView pre post p1 p2 A B [u] C).nums := by
      have e : (partitionView pre post p1 p2 A B [u] C).nums
          = (pre ++ p1 :: (A ++ B)) ++ u :: (C ++ p2 :: post) := by
        simp [partitionView]
      have e2 : (partitionView pre post p1 p2 A B [u] C).rightBoundary
          = (partitionView pre post p1 p2 A B [u] C).cursor := by
        simp only [partitionView, List.length_cons, List.length_nil]; push_cast; omega
      rw [e2, e]
      exact GoSlice.swap_same _ _ u _ (by
        simp only [partitionView, List.length_append, List.length_cons, List.length_nil]
        push_cast; omega)
    simp only [partitionStep, hc, hu1, hu2, if_true, if_false, hswap]
    simp only [partitionView, List.length_append, List.length_cons, List.length_nil,
      List.nil_append, List.append_assoc, List.singleton_append, List.cons_append,
      Option.some.injEq, PartitionState.mk.injEq, true_and, and_true]
    push_cast
    omega

theorem partitionStep_middle (pre post : List Int) (p1 p2 u : Int) (A B U C : List Int)
    (hu1 : ¬ u < p1) (hu2 : ¬ u > p2) :
    partitionStep p1 p2 (partitionView pre post p1 p2 A B (u :: U) C)
        = some (partitionView pre post p1 p2 A (B ++ [u]) U C) := by
  have hc := partitionView_cursor pre post p1 p2 u A B U C
  simp only [partitionStep, hc, hu1, hu2, if_false]
  simp only [partitionView, List.length_append, List.length_cons, List.length_nil,
    List.nil_append, List.append_assoc, List.singleton_append, List.cons_append,
    Option.some.injEq, PartitionState.mk.injEq, true_and, and_true]
  push_cast
  omega

theorem partitionLoop_done (pre post : List Int) (p1 p2 : Int) (A B C : List Int) (fuel : Nat) :
    partitionLoop p1 p2 fuel (partitionView pre post p1 p2 A B [] C)
      = some (partitionView pre post p1 p2 A B [] C) := by
  have h : ¬ (partitionView pre post p1 p2 A B [] C).cursor
      ≤ (partitionView pre post p1 p2 A B [] C).rightBoundary := by
    simp only [partitionView, List.length_nil]; push_cast; omega
  cases fuel <;> simp only [partitionLoop, h, if_false]

theorem partitionLoop_step (pre post : List Int) (p1 p2 u : Int) (A B U C : List Int)
    (fuel : Nat) (s1 : PartitionState)
    (h : partitionStep p1 p2 (partitionView pre post p1 p2 A B (u :: U) C) = some s1) :
    partitionLoop p1 p2 (fuel + 1) (partitionView pre post p1 p2 A B (u :: U) C)
      = partitionLoop p1 p2 fuel s1 := by
  have hc : (partitionView pre post p1 p2 A B (u :: U) C).cursor
      ≤ (partitionView pre post p1 p2 A B (u :: U) C).rightBoundary := by
    simp only [partitionView, List.length_cons]; push_cast; omega
  simp only [partitionLoop, hc, if_true, h]

/-- The loop of `partition` sorts the unscanned elements into the three regions. -/
theorem partitionLoop_spec (pre post : List Int) (p1 p2 : Int) (n : Nat) :
    ∀ (U A B C : List Int) (fuel : Nat), U.length = n → n ≤ fuel →
      (∀ x ∈ A, x < p1) → (∀ x ∈ B, p1 ≤ x ∧ x ≤ p2) → (∀ x ∈ C, p2 < x) →
      ∃ A1 B1 C1,
        partitionLoop p1 p2 fuel (partitionView pre post p1 p2 A B U C)
          = some (partitionView pre post p1 p2 A1 B1 [] C1) ∧
        (∀ x ∈ A1, x < p1) ∧ (∀ x ∈ B1, p1 ≤ x ∧ x ≤ p2) ∧ (∀ x ∈ C1, p2 < x) ∧
        (A1 ++ (B1 ++ C1)).Perm (A ++ (B ++ (U ++ C))) := by
  induction n with
  | zero =>
    intro U A B C fuel hU _ hA hB hC
    have : U = [] := List.eq_nil_of_length_eq_zero hU
    subst this
    exact ⟨A, B, C, partitionLoop_done pre post p1 p2 A B C fuel, hA, hB, hC, by simp⟩
  | succ n ih =>
    intro U A B C fuel hU hfuel hA hB hC
    obtain ⟨f, rfl⟩ : ∃ f, fuel = f + 1 := ⟨fuel - 1, by omega⟩
    cases U with
    | nil => simp at hU
    | cons u U1 =>
      simp only [List.length_cons, Nat.add_right_cancel_iff] at hU
      by_cases hu1 : u < p1
      · obtain ⟨B2, hstep, hperm⟩ := partitionStep_left pre post p1 p2 u A B U1 C hu1
        obtain ⟨A1, B1, C1, hloop, hA1, hB1, hC1, hp⟩ :=
          ih U1 (A ++ [u]) B2 C f hU (by omega)
            (fun x hx => by
              rcases List.mem_append.mp hx with h | h
              · exact hA x h
              · rw [List.mem_singleton.mp h]; exact hu1)
            (fun x hx => hB x (hperm.subset hx)) hC
        refine ⟨A1, B1, C1, ?_, hA1, hB1, hC1, hp.trans ?_⟩
        · rw [partitionLoop_step pre post p1 p2 u A B U1 C f _ hstep]; exact hloop
        · rw [List.append_assoc]
          refine List.Perm.append_left A ?_
          have h1 : ([u] ++ (B2 ++ (U1 ++ C))).Perm ([u] ++ (B ++ (U1 ++ C))) :=
            List.Perm.append_left _ (List.Perm.append_right _ hperm)
          refine h1.trans ?_
          simp only [List.singleton_append]
          exact (@List.perm_middle Int u B (U1 ++ C)).symm
      · by_cases hu2 : u > p2
        · obtain ⟨U2, hstep, hperm⟩ := partitionStep_right pre post p1 p2 u A B U1 C hu1 hu2
          obtain ⟨A1, B1, C1, hloop, hA1, hB1, hC1, hp⟩ :=
            ih U2 A B (u :: C) f (by rw [hperm.length_eq]; exact hU) (by omega) hA hB
              (fun x hx => by
                rcases List.mem_cons.mp hx with h | h
                · rw [h]; exact hu2
                · exact hC x h)
          refine ⟨A1, B1, C1, ?_, hA1, hB1, hC1, hp.trans ?_⟩
          · rw [partitionLoop_step pre post p1 p2 u A B U1 C f _ hstep]; exact hloop
          · refine List.Perm.append_left A (List.Perm.append_left B ?_)
            have h1 : (U2 ++ u :: C).Perm (U1 ++ u :: C) := List.Perm.append_right _ hperm
            exact h1.trans List.perm_middle
        · have hstep := partitionStep_middle pre post p1 p2 u A B U1 C hu1 hu2
          obtain ⟨A1, B1, C1, hloop, hA1, hB1, hC1, hp⟩ :=
            ih U1 A (B ++ [u]) C f hU (by omega) hA
              (fun x hx => by
                rcases List.mem_append.mp hx with h | h
                · exact hB x h
                · rw [List.mem_singleton.mp h]; exact ⟨by omega, by omega⟩)
              hC
          refine ⟨A1, B1, C1, ?_, hA1, hB1, hC1, hp.trans ?_⟩
          · rw [partitionLoop_step pre post p1 p2 u A B U1 C f _ hstep]; exact hloop
          · simp

/-- The two swaps that end `partition` put the pivots between the three regions. -/
theorem partition_finish (pre post : List Int) (p1 p2 : Int) (A B C : List Int) :
    ∃ L R nums2,
      GoSlice.swap (partitionView pre post p1 p2 A B [] C).nums (pre.length : Int)
        ((partitionView pre post p1 p2 A B [] C).leftBoundary - 1) = some nums2 ∧
      GoSlice.swap nums2 ((pre.length : Int) + 1 + A.length + B.length + C.length)
        ((partitionView pre post p1 p2 A B [] C).rightBoundary + 1)
        = some (pre ++ (L ++ p1 :: (B ++ p2 :: (R ++ post)))) ∧
      L.Perm A ∧ R.Perm C := by
  have hL : ∃ L, GoSlice.swap (partitionView pre post p1 p2 A B [] C).nums (pre.length : Int)
      ((partitionView pre post p1 p2 A B [] C).leftBoundary - 1)
        = some (pre ++ (L ++ p1 :: (B ++ (C ++ p2 :: post)))) ∧ L.Perm A := by
    rcases List.eq_nil_or_concat A with rfl | ⟨A2, a, hA⟩
    · refine ⟨[], ?_, List.Perm.refl _⟩
      have e : (partitionView pre post p1 p2 [] B [] C).leftBoundary - 1 = (pre.length : Int) := by
        simp only [partitionView, List.length_nil]; push_cast; omega
      rw [e]
      have := GoSlice.swap_same pre (B ++ (C ++ p2 :: post)) p1 (pre.length : Int) rfl
      simpa [partitionView] using this
    · rw [List.concat_eq_append] at hA
      subst hA
      refine ⟨a :: A2, ?_, (List.perm_append_singleton a A2).symm⟩
      have e : (partitionView pre post p1 p2 (A2 ++ [a]) B [] C).nums
          = pre ++ p1 :: (A2 ++ a :: (B ++ (C ++ p2 :: post))) := by
        simp [partitionView]
      rw [e]
      have := (GoSlice.swap_apart pre A2 (B ++ (C ++ p2 :: post)) p1 a (pre.length : Int)
        ((partitionView pre post p1 p2 (A2 ++ [a]) B [] C).leftBoundary - 1) rfl
        (by simp only [partitionView, List.length_append, List.length_cons, List.length_nil]
            push_cast; omega)).1
      simpa using this
  obtain ⟨L, hswapL, hpermL⟩ := hL
  have hlen : L.length = A.length := hpermL.length_eq
  have hR : ∃ R, GoSlice.swap (pre ++ (L ++ p1 :: (B ++ (C ++ p2 :: post))))
      ((pre.length : Int) + 1 + A.length + B.length + C.length)
      ((partitionView pre post p1 p2 A B [] C).rightBoundary + 1)
        = some (pre ++ (L ++ p1 :: (B ++ p2 :: (R ++ post)))) ∧ R.Perm C := by
    cases C with
    | nil =>
      refine ⟨[], ?_, List.Perm.refl _⟩
      have e : (partitionView pre post p1 p2 A B [] []).rightBoundary + 1
          = (pre.length : Int) + 1 + A.length + B.length + ([] : List Int).length := by
        simp only [partitionView, List.length_nil]; push_cast; omega
      rw [e]
      have := GoSlice.swap_same (pre ++ (L ++ p1 :: B)) post p2
        ((pre.length : Int) + 1 + A.length + B.length + ([] : List Int).length)
        (by simp only [List.length_append, List.length_cons, List.length_nil, hlen]
            push_cast; omega)
      simpa using this
    | cons c C2 =>
      refine ⟨C2 ++ [c], ?_, List.perm_append_singleton c C2⟩
      have := (GoSlice.swap_apart (pre ++ (L ++ p1 :: B)) C2 post c p2
        ((partitionView pre post p1 p2 A B [] (c :: C2)).rightBoundary + 1)
        ((pre.length : Int) + 1 + A.length + B.length + (c :: C2).length)
        (by simp only [partitionView, List.length_append, List.length_cons, List.length_nil,
              hlen]
            push_cast; omega)
        (by simp only [partitionView, List.length_append, List.length_cons, List.length_nil,
              hlen]
            push_cast; omega)).2
      simpa using this
  obtain ⟨R, hswapR, hpermR⟩ := hR
  exact ⟨L, R, _, hswapL, hswapR, hpermL, hpermR⟩

/-- `partition` on the segment `x :: mid ++ [y]` that sits between `pre` and `post`. -/
theorem partition_spec (pre post mid : List Int) (x y : Int) (lo hi : Int)
    (hlo : lo = pre.length) (hhi : hi = (pre.length : Int) + 1 + mid.length) :
    ∃ L M R p1 p2,
      partition (pre ++ x :: (mid ++ y :: post)) lo hi
        = some (pre ++ (L ++ p1 :: (M ++ p2 :: (R ++ post))),
            (pre.length : Int) + L.length, (pre.length : Int) + L.length + 1 + M.length) ∧
      (∀ z ∈ L, z < p1) ∧ (∀ z ∈ M, p1 ≤ z ∧ z ≤ p2) ∧ (∀ z ∈ R, p2 < z) ∧ p1 ≤ p2 ∧
      (L ++ p1 :: (M ++ p2 :: R)).Perm (x :: (mid ++ [y])) := by
  subst hlo hhi
  have hx : GoSlice.index (pre ++ x :: (mid ++ y :: post)) (pre.length : Int) = some x :=
    GoSlice.index_append_cons pre _ x _ rfl
  have hy : GoSlice.index (pre ++ x :: (mid ++ y :: post))
      ((pre.length : Int) + 1 + mid.length) = some y := by
    have e : pre ++ x :: (mid ++ y :: post) = (pre ++ x :: mid) ++ y :: post := by simp
    rw [e]
    exact GoSlice.index_append_cons _ post y _ (by
      simp only [List.length_append, List.length_cons]; push_cast; omega)
  -- the pivots after the first comparison
  obtain ⟨p1, p2, hnums1, hp, hperm0⟩ : ∃ p1 p2,
      (if x > y then GoSlice.swap (pre ++ x :: (mid ++ y :: post)) (pre.length : Int)
          ((pre.length : Int) + 1 + mid.length)
        else some (pre ++ x :: (mid ++ y :: post)))
        = some (pre ++ p1 :: (mid ++ p2 :: post)) ∧ p1 ≤ p2 ∧
      (p1 :: (mid ++ [p2])).Perm (x :: (mid ++ [y])) := by
    by_cases hxy : x > y
    · refine ⟨y, x, ?_, by omega, ?_⟩
      · rw [if_pos hxy]
        exact (GoSlice.swap_apart pre mid post x y _ _ rfl rfl).1
      · have h1 : (y :: (mid ++ [x])).Perm (y :: x :: mid) :=
          List.Perm.cons y (List.perm_append_singleton x mid)
        have h2 : (x :: (mid ++ [y])).Perm (x :: y :: mid) :=
          List.Perm.cons x (List.perm_append_singleton y mid)
        exact h1.trans ((List.Perm.swap x y mid).trans h2.symm)
    · exact ⟨x, y, by rw [if_neg hxy], by omega, List.Perm.refl _⟩
  have hp1 : GoSlice.index (pre ++ p1 :: (mid ++ p2 :: post)) (pre.length : Int) = some p1 :=
    GoSlice.index_append_cons pre _ p1 _ rfl
  have hp2 : GoSlice.index (pre ++ p1 :: (mid ++ p2 :: post))
      ((pre.length : Int) + 1 + mid.length) = some p2 := by
    have e : pre ++ p1 :: (mid ++ p2 :: post) = (pre ++ p1 :: mid) ++ p2 :: post := by simp
    rw [e]
    exact GoSlice.index_append_cons _ post p2 _ (by
      simp only [List.length_append, List.length_cons]; push_cast; omega)
  have hview : ({ nums := pre ++ p1 :: (mid ++ p2 :: post)
                  leftBoundary := (pre.length : Int) + 1
                  rightBoundary := (pre.length : Int) + 1 + mid.length - 1
                  cursor := (pre.length : Int) + 1 } : PartitionState)
      = partitionView pre post p1 p2 [] [] mid [] := by
    simp only [partitionView, List.length_nil, List.nil_append, PartitionState.mk.injEq,
      true_and]
    push_cast
    omega
  obtain ⟨A1, B1, C1, hloop, hA1, hB1, hC1, hperm1⟩ :=
    partitionLoop_spec pre post p1 p2 mid.length mid [] [] []
      ((pre.length : Int) + 1 + mid.length - pre.length).toNat rfl (by omega)
      (by simp) (by simp) (by simp)
  simp only [List.nil_append, List.append_nil] at hperm1
  have hlen : A1.length + (B1.length + C1.length) = mid.length := by
    have := hperm1.length_eq
    simpa using this
  obtain ⟨L, R, nums2, hswapL, hswapR, hpermL, hpermR⟩ :=
    partition_finish pre post p1 p2 A1 B1 C1
  have hhi : (pre.length : Int) + 1 + mid.length
      = (pre.length : Int) + 1 + A1.length + B1.length + C1.length := by
    rw [← hlen]; push_cast; omega
  refine ⟨L, B1, R, p1, p2, ?_, fun z hz => hA1 z (hpermL.subset hz), hB1,
    fun z hz => hC1 z (hpermR.subset hz), hp, ?_⟩
  · unfold partition
    simp only [hx, hy, hnums1, hp1, hp2, hview, hloop, hswapL]
    rw [hhi, hswapR]
    simp only [partitionView, hpermL.length_eq, List.length_nil]
    simp only [Option.some.injEq, Prod.mk.injEq, true_and]
    push_cast
    omega
  · have h1 : (L ++ p1 :: (B1 ++ p2 :: R)).Perm (p1 :: (L ++ (B1 ++ (R ++ [p2])))) := by
      refine List.perm_middle.trans (List.Perm.cons p1 (List.Perm.append_left L ?_))
      refine List.Perm.append_left B1 ?_
      exact (List.perm_append_singleton p2 R).symm
    have h2 : (p1 :: (L ++ (B1 ++ (R ++ [p2])))).Perm (p1 :: (mid ++ [p2])) := by
      refine List.Perm.cons p1 ?_
      have h3 : (L ++ (B1 ++ R)).Perm mid :=
        ((hpermL.append (List.Perm.append_left B1 hpermR))).trans hperm1
      have := h3.append_right [p2]
      simpa using this
    exact (h1.trans h2).trans hperm0

theorem sorted_of_parts (L M R : List Int) (p1 p2 : Int)
    (hL : List.Sorted (· ≤ ·) L) (hM : List.Sorted (· ≤ ·) M) (hR : List.Sorted (· ≤ ·) R)
    (h1 : ∀ z ∈ L, z < p1) (h2 : ∀ z ∈ M, p1 ≤ z ∧ z ≤ p2) (h3 : ∀ z ∈ R, p2 < z)
    (hp : p1 ≤ p2) : List.Sorted (· ≤ ·) (L ++ p1 :: (M ++ p2 :: R)) := by
  unfold List.Sorted at *
  rw [List.pairwise_append, List.pairwise_cons, List.pairwise_append, List.pairwise_cons]
  refine ⟨hL, ⟨?_, hM, ⟨fun b hb => ?_, hR⟩, ?_⟩, ?_⟩
  · intro b hb
    rcases List.mem_append.mp hb with h | h
    · exact (h2 b h).1
    · rcases List.mem_cons.mp h with rfl | h
      · exact hp
      · have := h3 b h; omega
  · have := h3 b hb; omega
  · intro a ha b hb
    rcases List.mem_cons.mp hb with rfl | h
    · exact (h2 a ha).2
    · have := h3 b h; have := (h2 a ha).2; omega
  · intro a ha b hb
    have ha1 := h1 a ha
    rcases List.mem_cons.mp hb with rfl | h
    · omega
    · rcases List.mem_append.mp h with h | h
      · have := (h2 b h).1; omega
      · rcases List.mem_cons.mp h with rfl | h
        · omega
        · have := h3 b h; omega

/-- `SortDualPivot` sorts the segment `seg` between `pre` and `post` and touches nothing else,
when its fuel is at least the length of the segment. -/
theorem SortDualPivot_spec (fuel : Nat) :
    ∀ (pre seg post : List Int) (lo hi : Int),
      lo = pre.length → hi = (pre.length : Int) + seg.length - 1 → seg.length ≤ fuel →
      ∃ seg1, SortDualPivot fuel (pre ++ (seg ++ post)) lo hi = some (pre ++ (seg1 ++ post)) ∧
        seg1.Perm seg ∧ List.Sorted (· ≤ ·) seg1 := by
  induction fuel with
  | zero =>
    intro pre seg post lo hi hlo hhi hlen
    have : seg = [] := List.eq_nil_of_length_eq_zero (by omega)
    subst this
    refine ⟨[], ?_, List.Perm.refl _, List.sorted_nil⟩
    have hge : lo ≥ hi := by simp only [List.length_nil] at hhi; omega
    simp only [SortDualPivot, hge, if_true]
  | succ f ih =>
    intro pre seg post lo hi hlo hhi hlen
    by_cases hge : lo ≥ hi
    · refine ⟨seg, by simp only [SortDualPivot, hge, if_true], List.Perm.refl _, ?_⟩
      have h1 : seg.length ≤ 1 := by omega
      match seg, h1 with
      | [], _ => exact List.sorted_nil
      | [a], _ => exact List.sorted_singleton a
    · -- the segment has at least two elements
      obtain ⟨x, mid, y, rfl⟩ : ∃ x mid y, seg = x :: (mid ++ [y]) := by
        match seg, hhi with
        | [], h => simp only [List.length_nil] at h; omega
        | [a], h => simp only [List.length_singleton] at h; omega
        | a :: b :: t, _ =>
          rcases List.eq_nil_or_concat (b :: t) with h | ⟨m, z, h⟩
          · cases h
          · exact ⟨a, m, z, by rw [h, List.concat_eq_append]⟩
      have hhi2 : hi = (pre.length : Int) + 1 + mid.length := by
        simp only [List.length_cons, List.length_append, List.length_nil] at hhi
        push_cast at hhi; omega
      have hlen2 : mid.length + 2 ≤ f + 1 := by
        simp only [List.length_cons, List.length_append, List.length_nil] at hlen; omega
      obtain ⟨L, M, R, p1, p2, hpart, hL, hM, hR, hp, hperm⟩ :=
        partition_spec pre post mid x y lo hi hlo hhi2
      have hsum : L.length + (M.length + R.length) = mid.length := by
        have := hperm.length_eq
        simp only [List.length_cons, List.length_append, List.length_nil] at this
        omega
      -- first recursive call: the left region
      obtain ⟨L1, hs1, hpL, hsL⟩ := ih pre L (p1 :: (M ++ p2 :: (R ++ post))) lo
        ((pre.length : Int) + L.length - 1) hlo rfl (by omega)
      -- second recursive call: the middle region
      obtain ⟨M1, hs2, hpM, hsM⟩ := ih (pre ++ (L1 ++ [p1])) M (p2 :: (R ++ post))
        ((pre.length : Int) + L.length + 1) ((pre.length : Int) + L.length + 1 + M.length - 1)
        (by simp only [List.length_append, List.length_cons, List.length_nil, hpL.length_eq]
            push_cast; omega)
        (by simp only [List.length_append, List.length_cons, List.length_nil, hpL.length_eq]
            push_cast; omega)
        (by omega)
      -- third recursive call: the right region
      obtain ⟨R1, hs3, hpR, hsR⟩ := ih (pre ++ (L1 ++ p1 :: (M1 ++ [p2]))) R post
        ((pre.length : Int) + L.length + 1 + M.length + 1) hi
        (by simp only [List.length_append, List.length_cons, List.length_nil, hpL.length_eq,
              hpM.length_eq]
            push_cast; omega)
        (by simp only [List.length_append, List.length_cons, List.length_nil, hpL.length_eq,
              hpM.length_eq]
            push_cast; omega)
        (by omega)
      refine ⟨L1 ++ p1 :: (M1 ++ p2 :: R1), ?_, ?_, ?_⟩
      · have e0 : pre ++ (x :: (mid ++ [y]) ++ post) = pre ++ x :: (mid ++ y :: post) := by
          simp
        have e1 : pre ++ (L ++ p1 :: (M ++ p2 :: (R ++ post)))
            = pre ++ (L ++ (p1 :: (M ++ p2 :: (R ++ post)))) := rfl
        have e2 : pre ++ (L1 ++ p1 :: (M ++ p2 :: (R ++ post)))
            = (pre ++ (L1 ++ [p1])) ++ (M ++ p2 :: (R ++ post)) := by simp
        have e3 : (pre ++ (L1 ++ [p1])) ++ (M1 ++ p2 :: (R ++ post))
            = (pre ++ (L1 ++ p1 :: (M1 ++ [p2]))) ++ (R ++ post) := by simp
        have e4 : (pre ++ (L1 ++ p1 :: (M1 ++ [p2]))) ++ (R1 ++ post)
            = pre ++ ((L1 ++ p1 :: (M1 ++ p2 :: R1)) ++ post) := by simp
        rw [e0]
        simp only [SortDualPivot, hge, if_false, hpart]
        rw [e1, hs1]
        simp only []
        rw [e2, hs2]
        simp only []
        rw [e3, show (pre.length : Int) + L.length + 1 + M.length + 1
              = (pre.length : Int) + L.length + 1 + M.length + 1 from rfl, hs3, e4]
      · have h1 : (L1 ++ p1 :: (M1 ++ p2 :: R1)).Perm (L ++ p1 :: (M ++ p2 :: R)) :=
          hpL.append (List.Perm.cons p1 (hpM.append (List.Perm.cons p2 hpR)))
        exact h1.trans hperm
      · exact sorted_of_parts L1 M1 R1 p1 p2 hsL hsM hsR
          (fun z hz => hL z (hpL.subset hz)) (fun z hz => hM z (hpM.subset hz))
          (fun z hz => hR z (hpR.subset hz)) hp

/-- `OptimizedSort` returns a sorted permutation of its input. -/
theorem OptimizedSort_spec (data : List Int) :
    ∃ res, OptimizedSort data = some res ∧ res.Perm data ∧ List.Sorted (· ≤ ·) res := by
  obtain ⟨seg1, hs, hperm, hsorted⟩ :=
    SortDualPivot_spec data.length [] data [] 0 ((data.length : Int) - 1) rfl
      (by simp) (le_refl _)
  refine ⟨seg1, ?_, hperm, hsorted⟩
  unfold OptimizedSort
  simp only [GoSlice.copy_make]
  simpa using hs

/-- C19 (sort equivalence).  For every slice of ints, `OptimizedSort` and `SlowSort` both
return, they return the same slice, element for element, and that slice is a non-decreasing
permutation of the input.  Both work on a copy made with `make` and `copy`; the input is a value
of the model and is not changed. -/
theorem sort_equivalence (data : List Int) :
    ∃ res, OptimizedSort data = some res ∧ SlowSort data = some res ∧
      res.Perm data ∧ List.Sorted (· ≤ ·) res := by
  obtain ⟨r1, h1, hp1, hs1⟩ := OptimizedSort_spec data
  obtain ⟨r2, h2, hp2, hs2⟩ := SlowSort_spec data
  have : r1 = r2 := List.eq_of_perm_of_sorted (hp1.trans hp2.symm) hs1 hs2
  subst this
  exact ⟨r1, h1, h2, hp1, hs1⟩

end Perf

namespace PatternMatch

/-- Whatever `perf.KMPLoop` does, `KMPSearch` returns an empty slice, without calling it, when
the text has fewer runes than the pattern and when the pattern is empty. -/
theorem KMPSearch_short
    (KMPLoop : List Char → List Char → Int → List Int → Bool → Option (List Int × List Int))
    (text pattern : String)
    (h : text.toList.length < pattern.toList.length ∨ pattern.toList.length = 0) :
    KMPSearch KMPLoop text pattern = some [] := by
  unfold KMPSearch
  simp only [h, if_true]

/-- With `kmpLoop` of `perf.go` put in the place of `perf.KMPLoop`: building the table for
`abab`, `kmpLoop` writes `lps[i] = i` and leaves `[0, 1, 2, 0]` where the prefix table is
`[0, 0, 1, 2]`; with that table `KMPSearch` finds `abab` in `ababab` only at 0, although it also
occurs at 2 (and `NaivePatternMatch` returns `[0, 2]`), and it reports position 1 in `abbab`,
where `abab` does not occur (and `NaivePatternMatch` returns nothing). -/
theorem KMPSearch_with_kmpLoop :
    Perf.kmpLoop "abab".toList "abab".toList 1 [0, 0, 0, 0] true = some ([], [0, 1, 2, 0]) ∧
    KMPSearch Perf.kmpLoop "ababab" "abab" = some [0] ∧
    ("ababab".toList.drop 2).take 4 = "abab".toList ∧
    NaivePatternMatch "ababab" "abab" = [0, 2] ∧
    KMPSearch Perf.kmpLoop "abbab" "abab" = some [1] ∧
    ("abbab".toList.drop 1).take 4 ≠ "abab".toList ∧
    NaivePatternMatch "abbab" "abab" = [] := by
  decide

end PatternMatch

namespace Perf
open CircuitBreaker

theorem wrapInt64_add (a b : Int) :
    wrapInt64 (wrapInt64 a + wrapInt64 b) = wrapInt64 (a + b) := by
  unfold wrapInt64
  omega

theorem wrapInt64_add_left (a b : Int) :
    wrapInt64 (wrapInt64 a + b) = wrapInt64 (a + b) := by
  unfold wrapInt64
  omega

theorem wrapInt64_small (x : Int) (h1 : -9223372036854775808 ≤ x)
    (h2 : x < 9223372036854775808) : wrapInt64 x = x := by
  unfold wrapInt64
  omega

/-- Sum of the Fibonacci numbers `F(0) + ... + F(m)`. -/
theorem fibonacci_value (fuel : Nat) :
    ∀ k : Nat, k ≤ fuel → 1 ≤ fuel →
      fibonacci fuel (k : Int) = some (wrapInt64 (Nat.fib k : Int)) := by
  induction fuel with
  | zero => intro k _ h; omega
  | succ f ih =>
    intro k hk _
    unfold fibonacci
    by_cases h1 : (k : Int) ≤ 1
    · rw [if_pos h1]
      have hk1 : k = 0 ∨ k = 1 := by omega
      rcases hk1 with rfl | rfl <;> decide
    · rw [if_neg h1]
      have hk2 : 2 ≤ k := by omega
      obtain ⟨m, rfl⟩ : ∃ m, k = m + 2 := ⟨k - 2, by omega⟩
      have e1 : ((m + 2 : Nat) : Int) - 1 = ((m + 1 : Nat) : Int) := by push_cast; ring
      have e2 : ((m + 2 : Nat) : Int) - 2 = ((m : Nat) : Int) := by push_cast; ring
      rw [e1, e2, ih (m + 1) (by omega) (by omega), ih m (by omega) (by omega)]
      simp only [wrapInt64_add]
      rw [Nat.fib_add_two]
      push_cast
      rw [add_comm]

end Perf

namespace Perf
open CircuitBreaker

theorem expensiveLoop_value (N : Nat) (hN : (N : Int) < 9223372036854775807) (d : Nat) :
    ∀ i : Nat, 1 ≤ i → i + d = N + 1 →
      expensiveLoop (N : Int) (d + 1) (i : Int)
          (wrapInt64 (∑ k in Finset.range i, (Nat.fib k : Int)))
        = some (wrapInt64 (∑ k in Finset.range (N + 1), (Nat.fib k : Int))) := by
  induction d with
  | zero =>
    intro i _ hi
    have e : i = N + 1 := by omega
    subst e
    unfold expensiveLoop
    rw [if_neg (by push_cast; omega)]
  | succ d ih =>
    intro i h1 hi
    unfold expensiveLoop
    rw [if_pos (by omega)]
    have hf : fibonacci ((i : Int).toNat + 1) (i : Int) = some (wrapInt64 (Nat.fib i : Int)) :=
      fibonacci_value _ i (by simp) (by omega)
    rw [hf]
    simp only []
    have e1 : wrapInt64 ((i : Int) + 1) = ((i + 1 : Nat) : Int) := by
      rw [wrapInt64_small _ (by omega) (by omega)]
      push_cast; ring
    rw [e1, wrapInt64_add, ← Finset.sum_range_succ]
    exact ih (i + 1) (by omega) (by omega)

theorem optimizedLoop_value (N : Nat) (hN : (N : Int) < 9223372036854775807) (d : Nat) :
    ∀ (i : Nat) (f0 f1 : Int), 2 ≤ i → i + d = N + 1 →
      (i % 2 = 0 → f0 = wrapInt64 (Nat.fib (i - 2) : Int) ∧ f1 = wrapInt64 (Nat.fib (i - 1) : Int)) →
      (i % 2 = 1 → f0 = wrapInt64 (Nat.fib (i - 1) : Int) ∧ f1 = wrapInt64 (Nat.fib (i - 2) : Int)) →
      optimizedLoop (N : Int) (d + 1) (i : Int) f0 f1
          (wrapInt64 (∑ k in Finset.range i, (Nat.fib k : Int)))
        = some (wrapInt64 (∑ k in Finset.range (N + 1), (Nat.fib k : Int))) := by
  induction d with
  | zero =>
    intro i f0 f1 _ hi _ _
    have e : i = N + 1 := by omega
    subst e
    unfold optimizedLoop
    rw [if_neg (by push_cast; omega)]
  | succ d ih =>
    intro i f0 f1 h2 hi hev hodd
    obtain ⟨m, rfl⟩ : ∃ m, i = m + 2 := ⟨i - 2, by omega⟩
    unfold optimizedLoop
    rw [if_pos (by omega)]
    simp only []
    have e1 : wrapInt64 (((m + 2 : Nat) : Int) + 1) = ((m + 2 + 1 : Nat) : Int) := by
      rw [wrapInt64_small _ (by omega) (by omega)]
      push_cast; ring
    have hfib : (Nat.fib (m + 2) : Int) = (Nat.fib m : Int) + (Nat.fib (m + 1) : Int) := by
      rw [Nat.fib_add_two]; push_cast; rfl
    rw [e1]
    by_cases hpar : (m + 2) % 2 = 0
    · have ht : ((m + 2 : Nat) : Int).tmod 2 = 0 := by
        rw [Int.tmod_eq_emod (by omega) (by omega)]; omega
      obtain ⟨h0, h1⟩ := hev hpar
      simp only [Nat.add_sub_cancel] at h0
      have h1' : f1 = wrapInt64 (Nat.fib (m + 1) : Int) := by
        rw [h1]; congr 2
      rw [if_pos ht]
      have hv : wrapInt64 (f0 + f1) = wrapInt64 (Nat.fib (m + 2) : Int) := by
        rw [h0, h1', wrapInt64_add, hfib]
      rw [hv, wrapInt64_add, ← Finset.sum_range_succ]
      apply ih (m + 2 + 1) _ _ (by omega) (by omega)
      · intro hc; omega
      · intro _
        exact ⟨by congr 2, by rw [h1']; congr 2⟩
    · have hpar1 : (m + 2) % 2 = 1 := by omega
      have ht : ((m + 2 : Nat) : Int).tmod 2 = 1 := by
        rw [Int.tmod_eq_emod (by omega) (by omega)]; omega
      obtain ⟨h0, h1⟩ := hodd hpar1
      simp only [Nat.add_sub_cancel] at h1
      have h0' : f0 = wrapInt64 (Nat.fib (m + 1) : Int) := by
        rw [h0]; congr 2
      rw [if_neg (by omega), if_pos ht]
      have hv : wrapInt64 (f0 + f1) = wrapInt64 (Nat.fib (m + 2) : Int) := by
        rw [h0', h1, wrapInt64_add, hfib, add_comm]
      rw [hv, wrapInt64_add, ← Finset.sum_range_succ]
      apply ih (m + 2 + 1) _ _ (by omega) (by omega)
      · intro _
        exact ⟨by rw [h0']; congr 2, by congr 2⟩
      · intro hc; omega

theorem ExpensiveCalculation_value (N : Nat) (hN : (N : Int) < 9223372036854775807) :
    ExpensiveCalculation (N : Int)
      = some (wrapInt64 (∑ k in Finset.range (N + 1), (Nat.fib k : Int))) := by
  unfold ExpensiveCalculation
  by_cases h0 : N = 0
  · subst h0
    simp
    decide
  · rw [if_neg (by omega)]
    have := expensiveLoop_value N hN N 1 (by omega) (by omega)
    simpa [wrapInt64] using this

theorem OptimizedCalculation_value (N : Nat) (hN : (N : Int) < 9223372036854775807) :
    OptimizedCalculation (N : Int)
      = some (wrapInt64 (∑ k in Finset.range (N + 1), (Nat.fib k : Int))) := by
  unfold OptimizedCalculation
  rw [if_neg (by omega)]
  by_cases h2 : N < 2
  · rw [if_pos (by omega)]
    have : N = 0 ∨ N = 1 := by omega
    rcases this with rfl | rfl <;> simp [Finset.sum_range_succ] <;> decide
  · rw [if_neg (by omega)]
    have := optimizedLoop_value N hN (N - 1) 2 0 1 (by omega) (by omega)
      (fun _ => ⟨by decide, by decide⟩) (fun h => absurd h (by decide))
    have e : N - 1 + 1 = (N : Int).toNat := by simp; omega
    rw [e] at this
    rw [← this]
    simp [Finset.sum_range_succ, wrapInt64]

/-- C23, the counterexample: on `n = -1` `ExpensiveCalculation` returns 0 and
`OptimizedCalculation` panics. -/
theorem calculation_negative_diverges :
    ExpensiveCalculation (-1) = some 0 ∧ OptimizedCalculation (-1) = none := by
  decide

/-- C23 as amended (calculation equivalence on the non-negative range).  For every `n` with
`0 <= n < 2^63 - 1` both functions return, and return the same int64: the sum
`F(0) + ... + F(n)` of Fibonacci numbers wrapped to 64 bits.  For every negative `n`
`ExpensiveCalculation` returns 0 and `OptimizedCalculation` panics. -/
theorem calculation_equivalence (n : Int) (h1 : n < 9223372036854775807) :
    (0 ≤ n →
      ExpensiveCalculation n
        = some (CircuitBreaker.wrapInt64
            (∑ k in Finset.range (n.toNat + 1), (Nat.fib k : Int))) ∧
      OptimizedCalculation n = ExpensiveCalculation n) ∧
    (n < 0 → ExpensiveCalculation n = some 0 ∧ OptimizedCalculation n = none) := by
  constructor
  · intro h0
    obtain ⟨N, rfl⟩ := Int.eq_ofNat_of_zero_le h0
    have e := ExpensiveCalculation_value N h1
    have o := OptimizedCalculation_value N h1
    rw [Int.toNat_ofNat]
    exact ⟨e, by rw [e, o]⟩
  · intro hneg
    unfold ExpensiveCalculation OptimizedCalculation
    rw [if_pos (by omega), if_pos hneg]
    exact ⟨rfl, rfl⟩

/-- Witness for `calculation_equivalence` at `n = 10`, where both return 143. -/
theorem calculation_equivalence_witness :
    (10 : Int) < 9223372036854775807 ∧
    OptimizedCalculation 10 = ExpensiveCalculation 10 :=
  ⟨by decide, ((calculation_equivalence 10 (by decide)).1 (by decide)).2⟩

end Perf

namespace Perf

/-- C21 (search equivalence), evaluated where it fails.  `OptimizedSearch` runs
`kmpLoop`, whose table for `abab` is wrong.  In `ababab` it finds `abab` only at
0, although `HighAllocationSearch` maps both 0 and 2 to `abab` (and the text does read `abab`
from position 2); in `abbab` it maps 1 to `bbab`, although the pattern does not occur and
`HighAllocationSearch` returns the empty map.  With an empty `substr` and the text `a`,
`HighAllocationSearch` maps 0 to the empty string and `OptimizedSearch` panics on `needle[0]`. -/
theorem OptimizedSearch_differs :
    HighAllocationSearch "ababab" "abab"
      = some [(0, PatternMatch.bytes "abab"), (2, PatternMatch.bytes "abab")] ∧
    OptimizedSearch "ababab" "abab" = some [(0, PatternMatch.bytes "abab")] ∧
    ((PatternMatch.bytes "ababab").drop 2).take 4 = PatternMatch.bytes "abab" ∧
    HighAllocationSearch "abbab" "abab" = some [] ∧
    OptimizedSearch "abbab" "abab" = some [(1, PatternMatch.bytes "bbab")] ∧
    HighAllocationSearch "a" "" = some [(0, [])] ∧
    OptimizedSearch "a" "" = none := by
  decide

end Perf

namespace PatternMatch
open CircuitBreaker

theorem wrapInt64_id (x : Int) (h1 : -9223372036854775808 ≤ x)
    (h2 : x < 9223372036854775808) : wrapInt64 x = x := by
  unfold wrapInt64
  omega

theorem neg_tmod_101 (y : Int) : (-y).tmod 101 = -(y.tmod 101) := by
  rw [Int.tmod_def, Int.tmod_def, Int.neg_tdiv]; ring

theorem tmod_101_of_nonneg (x : Int) (h : 0 ≤ x) : x.tmod 101 = x % 101 :=
  Int.tmod_eq_emod h (by decide)

theorem tmod_101_fix (x : Int) :
    (if x.tmod 101 < 0 then x.tmod 101 + 101 else x.tmod 101) = x % 101 := by
  rcases le_or_lt 0 x with h | h
  · rw [Int.tmod_eq_emod h (by decide)]
    have := Int.emod_nonneg x (by decide : (101 : Int) ≠ 0)
    rw [if_neg (by omega)]
  · obtain ⟨y, rfl⟩ : ∃ y, x = -y := ⟨-x, by simp⟩
    have hy : 0 ≤ y := by omega
    rw [neg_tmod_101, Int.tmod_eq_emod hy (by decide)]
    have h1 := Int.emod_nonneg y (by decide : (101 : Int) ≠ 0)
    have h2 := Int.emod_lt_of_pos y (by decide : (0 : Int) < 101)
    split_ifs <;> omega

theorem tmod_101_bounds (x : Int) : -101 < x.tmod 101 ∧ x.tmod 101 < 101 := by
  rcases le_or_lt 0 x with h | h
  · rw [Int.tmod_eq_emod h (by decide)]
    omega
  · obtain ⟨y, rfl⟩ : ∃ y, x = -y := ⟨-x, by simp⟩
    have hy : 0 ≤ y := by omega
    rw [neg_tmod_101, Int.tmod_eq_emod hy (by decide)]
    omega

theorem hashStep_eq (a : Int) (c : UInt8) (h0 : 0 ≤ a) (h1 : a < 101) :
    hashStep a c = (256 * a + (c.toNat : Int)) % 101 := by
  unfold hashStep
  have hc : c.toNat < 256 := c.toNat_lt
  rw [wrapInt64_id _ (by omega) (by omega), tmod_101_of_nonneg _ (by omega)]

/-- The value of a byte string read as a number in base 256, starting from `a`. -/
theorem foldl_hashStep_snoc (w : List UInt8) (c : UInt8) (a : Int) :
    (w ++ [c]).foldl hashStep a = hashStep (w.foldl hashStep a) c := by
  simp [List.foldl_append]

end PatternMatch

namespace PatternMatch
open CircuitBreaker

theorem baseValue_snoc (w : List UInt8) (c : UInt8) :
    baseValue (w ++ [c]) = 256 * baseValue w + (c.toNat : Int) := by
  simp [baseValue, List.foldl_append]

theorem foldl_base_shift (w : List UInt8) :
    ∀ a : Int, w.foldl (fun a c => 256 * a + ((c : UInt8).toNat : Int)) a
      = a * 256 ^ w.length + baseValue w := by
  induction w with
  | nil => intro a; simp [baseValue]
  | cons c rest ih =>
    intro a
    unfold baseValue
    rw [List.foldl_cons, List.foldl_cons, ih, ih (256 * 0 + (c.toNat : Int))]
    rw [List.length_cons, pow_succ]
    ring

theorem baseValue_cons (c : UInt8) (w : List UInt8) :
    baseValue (c :: w) = (c.toNat : Int) * 256 ^ w.length + baseValue w := by
  unfold baseValue
  rw [List.foldl_cons, foldl_base_shift]
  simp [baseValue]

theorem hash_eq_baseValue (w : List UInt8) :
    w.foldl hashStep 0 = baseValue w % 101 := by
  induction w using List.reverseRecOn with
  | nil => simp [baseValue]
  | append_singleton rest c ih =>
    rw [foldl_hashStep_snoc, ih, baseValue_snoc]
    rw [hashStep_eq _ _ (Int.emod_nonneg _ (by decide)) (Int.emod_lt_of_pos _ (by decide))]
    omega

theorem powModLoop_value (fuel : Nat) :
    ∀ (e : Nat) (result base : Int), e ≤ fuel → 0 ≤ result → result < 101 → 0 ≤ base →
      base < 101 →
      powModLoop 101 fuel result base (e : Int) = some ((result * base ^ e) % 101) := by
  induction fuel with
  | zero =>
    intro e result base he h0 h1 _ _
    have e0 : e = 0 := by omega
    subst e0
    unfold powModLoop
    rw [if_neg (by simp)]
    simp
    omega
  | succ f ih =>
    intro e result base he h0 h1 hb0 hb1
    unfold powModLoop
    by_cases hpos : (e : Int) > 0
    · rw [if_pos hpos]
      have hrb : 0 ≤ result * base := mul_nonneg h0 hb0
      have hrb2 : result * base ≤ 100 * 100 := mul_le_mul (by omega) (by omega) hb0 (by decide)
      have hbb : 0 ≤ base * base := mul_nonneg hb0 hb0
      have hbb2 : base * base ≤ 100 * 100 := mul_le_mul (by omega) (by omega) hb0 (by decide)
      rw [wrapInt64_id _ (by omega) (by omega), wrapInt64_id _ (by omega) (by omega),
        tmod_101_of_nonneg _ hrb, tmod_101_of_nonneg _ hbb]
      have ediv : (e : Int) / 2 = ((e / 2 : Nat) : Int) := by push_cast; rfl
      rw [ediv]
      have hmb0 := Int.emod_nonneg (base * base) (by decide : (101 : Int) ≠ 0)
      have hmb1 := Int.emod_lt_of_pos (base * base) (by decide : (0 : Int) < 101)
      have hmr0 := Int.emod_nonneg (result * base) (by decide : (101 : Int) ≠ 0)
      have hmr1 := Int.emod_lt_of_pos (result * base) (by decide : (0 : Int) < 101)
      have hsq : Int.ModEq 101 ((base * base % 101) ^ (e / 2)) ((base * base) ^ (e / 2)) :=
        (Int.mod_modEq (base * base) 101).pow (e / 2)
      by_cases hodd : (e : Int) % 2 = 1
      · rw [if_pos hodd, ih (e / 2) _ _ (by omega) hmr0 hmr1 hmb0 hmb1]
        congr 1
        have he2 : e = 2 * (e / 2) + 1 := by omega
        have hpow : base ^ e = (base * base) ^ (e / 2) * base := by
          conv_lhs => rw [he2]
          rw [pow_succ, pow_mul, pow_two]
        rw [hpow]
        have : Int.ModEq 101 (result * base % 101 * (base * base % 101) ^ (e / 2))
            (result * base * (base * base) ^ (e / 2)) :=
          (Int.mod_modEq (result * base) 101).mul hsq
        have e3 : result * ((base * base) ^ (e / 2) * base)
            = result * base * (base * base) ^ (e / 2) := by ring
        rw [e3]
        exact this
      · rw [if_neg hodd, ih (e / 2) _ _ (by omega) h0 h1 hmb0 hmb1]
        congr 1
        have he2 : e = 2 * (e / 2) := by omega
        have hpow : base ^ e = (base * base) ^ (e / 2) := by
          conv_lhs => rw [he2]
          rw [pow_mul, pow_two]
        rw [hpow]
        exact Int.ModEq.mul_left result hsq
    · have e0 : e = 0 := by omega
      subst e0
      rw [if_neg (by simp)]
      simp
      omega

theorem powMod_value (k : Nat) : powMod 256 (k : Int) 101 = some (256 ^ k % 101) := by
  unfold powMod
  rw [if_neg (by decide)]
  have h := powModLoop_value k k 1 ((256 : Int).tmod 101) (le_refl k) (by decide) (by decide)
    (by decide) (by decide)
  rw [Int.toNat_ofNat, h]
  congr 1
  have e : (256 : Int).tmod 101 = 256 % 101 := by decide
  rw [e, one_mul]
  exact (Int.mod_modEq 256 101).pow k

end PatternMatch

namespace PatternMatch
open CircuitBreaker

theorem window_split (text : List UInt8) (m i : Nat) (hm : 0 < m) (hi : i + m < text.length) :
    ∃ (cOld cNew : UInt8) (w : List UInt8),
      window text m i = cOld :: w ∧ window text m (i + 1) = w ++ [cNew] ∧
      text[i]? = some cOld ∧ text[i + m]? = some cNew ∧ w.length + 1 = m := by
  obtain ⟨k, rfl⟩ : ∃ k, m = k + 1 := ⟨m - 1, by omega⟩
  have h1 : i < text.length := by omega
  have h2 : i + (k + 1) < text.length := hi
  refine ⟨text[i], text[i + (k + 1)], (text.drop (i + 1)).take k, ?_, ?_, ?_, ?_, ?_⟩
  · unfold window
    rw [List.drop_eq_getElem_cons h1, List.take_succ_cons]
  · unfold window
    rw [List.take_succ]
    congr 1
    rw [List.getElem?_drop]
    have e : i + 1 + k = i + (k + 1) := by omega
    rw [e, List.getElem?_eq_getElem h2]
    rfl
  · exact List.getElem?_eq_getElem h1
  · exact List.getElem?_eq_getElem h2
  · rw [List.length_take, List.length_drop]
    omega

theorem roll_value (cOld cNew : UInt8) (w : List UInt8) :
    (256 * (baseValue (cOld :: w) % 101 - (cOld.toNat : Int) * (256 ^ w.length % 101))
        + (cNew.toNat : Int)) % 101
      = baseValue (w ++ [cNew]) % 101 := by
  rw [baseValue_cons, baseValue_snoc]
  have hmod : Int.ModEq 101 ((cOld.toNat : Int) * (256 ^ w.length % 101))
      ((cOld.toNat : Int) * 256 ^ w.length) :=
    Int.ModEq.mul_left _ (Int.mod_modEq _ 101)
  have hd := Int.ModEq.dvd hmod
  generalize (cOld.toNat : Int) * (256 ^ w.length % 101) = B at hd ⊢
  generalize (cOld.toNat : Int) * 256 ^ w.length = A at hd ⊢
  generalize baseValue w = P
  omega

theorem rabinKarpStep_roll (text pattern : List UInt8) (i : Nat) (res : List Int)
    (hm : 0 < pattern.length) (hi : i + pattern.length < text.length) :
    rabinKarpStep text pattern (256 ^ (pattern.length - 1) % 101)
        (baseValue pattern % 101)
        { txtHash := baseValue (window text pattern.length i) % 101, res := res } i
      = some { txtHash := baseValue (window text pattern.length (i + 1)) % 101
               res := if window text pattern.length i = pattern then res ++ [(i : Int)]
                      else res } := by
  obtain ⟨cOld, cNew, w, hw0, hw1, hc0, hc1, hlen⟩ :=
    window_split text pattern.length i hm hi
  have hwl : pattern.length - 1 = w.length := by omega
  unfold rabinKarpStep
  simp only []
  rw [if_pos (by omega)]
  have hidx0 : GoSlice.index text (i : Int) = some cOld := by
    unfold GoSlice.index
    rw [if_pos (by omega), Int.toNat_ofNat, hc0]
  have hidx1 : GoSlice.index text ((i : Int) + (pattern.length : Int)) = some cNew := by
    unfold GoSlice.index
    have e : ((i : Int) + (pattern.length : Int)).toNat = i + pattern.length := by omega
    rw [if_pos (by omega), e, hc1]
  rw [hidx0, hidx1]
  simp only []
  have hH0 := Int.emod_nonneg (baseValue (window text pattern.length i))
    (by decide : (101 : Int) ≠ 0)
  have hH1 := Int.emod_lt_of_pos (baseValue (window text pattern.length i))
    (by decide : (0 : Int) < 101)
  have hh0 := Int.emod_nonneg ((256 : Int) ^ (pattern.length - 1)) (by decide : (101 : Int) ≠ 0)
  have hh1 := Int.emod_lt_of_pos ((256 : Int) ^ (pattern.length - 1))
    (by decide : (0 : Int) < 101)
  have hcO : cOld.toNat < 256 := cOld.toNat_lt
  have hcN : cNew.toNat < 256 := cNew.toNat_lt
  have hB0 : 0 ≤ (cOld.toNat : Int) * (256 ^ (pattern.length - 1) % 101) :=
    mul_nonneg (by omega) hh0
  have hB1 : (cOld.toNat : Int) * (256 ^ (pattern.length - 1) % 101) ≤ 255 * 100 :=
    mul_le_mul (by omega) (by omega) hh0 (by decide)
  rw [wrapInt64_id _ (by omega) (by omega)]
  have hb := tmod_101_bounds
    (256 * (baseValue (window text pattern.length i) % 101
      - (cOld.toNat : Int) * (256 ^ (pattern.length - 1) % 101)) + (cNew.toNat : Int))
  rw [wrapInt64_id _ (by omega) (by omega), tmod_101_fix, hwl]
  have hroll := roll_value cOld cNew w
  rw [← hw0, ← hw1] at hroll
  rw [hroll]
  congr 2
  by_cases hwp : window text pattern.length i = pattern
  · unfold window at hwp ⊢
    rw [if_pos hwp, if_pos ⟨by rw [hwp], hwp⟩]
  · unfold window at hwp ⊢
    rw [if_neg hwp, if_neg (fun h => hwp h.2)]

theorem rabinKarpStep_last (text pattern : List UInt8) (i : Nat) (res : List Int)
    (hi : i + pattern.length = text.length) :
    rabinKarpStep text pattern (256 ^ (pattern.length - 1) % 101)
        (baseValue pattern % 101)
        { txtHash := baseValue (window text pattern.length i) % 101, res := res } i
      = some { txtHash := baseValue (window text pattern.length i) % 101
               res := if window text pattern.length i = pattern then res ++ [(i : Int)]
                      else res } := by
  unfold rabinKarpStep
  simp only []
  rw [if_neg (by omega)]
  congr 2
  by_cases hwp : window text pattern.length i = pattern
  · unfold window at hwp ⊢
    rw [if_pos hwp, if_pos ⟨by rw [hwp], hwp⟩]
  · unfold window at hwp ⊢
    rw [if_neg hwp, if_neg (fun h => hwp h.2)]

theorem rabinKarp_loop (text pattern : List UInt8) (hm : 0 < pattern.length)
    (hn : pattern.length ≤ text.length) (k : Nat) :
    k ≤ text.length - pattern.length + 1 →
    (List.range k).foldl
        (fun acc i =>
          match acc with
          | none => none
          | some s => rabinKarpStep text pattern (256 ^ (pattern.length - 1) % 101)
              (baseValue pattern % 101) s i)
        (some { txtHash := baseValue (window text pattern.length 0) % 101, res := [] })
      = some { txtHash := baseValue (window text pattern.length
                  (min k (text.length - pattern.length))) % 101
               res := (List.range k).foldl
                  (fun res i =>
                    if (text.drop i).take pattern.length = pattern then res ++ [(i : Int)]
                    else res) [] } := by
  induction k with
  | zero => intro _; simp
  | succ k ih =>
    intro hk
    rw [List.range_succ, List.foldl_append, List.foldl_append, ih (by omega)]
    simp only [List.foldl_cons, List.foldl_nil]
    have hmin : min k (text.length - pattern.length) = k := by omega
    rw [hmin]
    by_cases hlast : k + pattern.length = text.length
    · rw [rabinKarpStep_last text pattern k _ hlast]
      have hmin2 : min (k + 1) (text.length - pattern.length) = k := by omega
      rw [hmin2]
      rfl
    · rw [rabinKarpStep_roll text pattern k _ hm (by omega)]
      have hmin2 : min (k + 1) (text.length - pattern.length) = k + 1 := by omega
      rw [hmin2]
      rfl

theorem rabinKarpOnBytes_eq (text pattern : List UInt8) :
    rabinKarpOnBytes text pattern = some (naiveOnBytes text pattern) := by
  unfold rabinKarpOnBytes naiveOnBytes
  simp only []
  by_cases hg : text.length < pattern.length ∨ pattern.length = 0
  · rw [if_pos hg, if_pos hg]
  · rw [if_neg hg, if_neg hg]
    have hm : 0 < pattern.length := by omega
    have hn : pattern.length ≤ text.length := by omega
    have hp : ((pattern.length : Nat) : Int) - 1 = ((pattern.length - 1 : Nat) : Int) := by
      omega
    rw [hp, powMod_value]
    simp only []
    rw [List.take_length, hash_eq_baseValue, hash_eq_baseValue]
    have h0 : text.take pattern.length = window text pattern.length 0 := by
      simp [window]
    rw [h0, rabinKarp_loop text pattern hm hn _ (le_refl _)]

end PatternMatch

namespace PatternMatch

theorem naive_fold_eq_filter (text pattern : List UInt8) (k : Nat) :
    (List.range k).foldl
        (fun res i =>
          if (text.drop i).take pattern.length = pattern then res ++ [(i : Int)] else res) []
      = ((List.range k).filter
          (fun i => decide ((text.drop i).take pattern.length = pattern))).map
          (fun j : Nat => (j : Int)) := by
  induction k with
  | zero => rfl
  | succ k ih =>
    rw [List.range_succ, List.foldl_append, ih, List.filter_append, List.map_append]
    simp only [List.foldl_cons, List.foldl_nil]
    by_cases h : (text.drop k).take pattern.length = pattern
    · rw [if_pos h]
      simp [h]
    · rw [if_neg h]
      simp [h]

theorem naiveOnBytes_eq_filter (text pattern : List UInt8) :
    naiveOnBytes text pattern
      = if text.length < pattern.length ∨ pattern.length = 0 then []
        else ((List.range (text.length - pattern.length + 1)).filter
          (fun i => decide ((text.drop i).take pattern.length = pattern))).map
          (fun j : Nat => (j : Int)) := by
  unfold naiveOnBytes
  simp only []
  split_ifs
  · rfl
  · exact naive_fold_eq_filter text pattern _

theorem mem_naiveOnBytes (text pattern : List UInt8) (i : Int) :
    i ∈ naiveOnBytes text pattern ↔
      0 ≤ i ∧ pattern ≠ [] ∧ i + pattern.length ≤ text.length ∧
      window text pattern.length i.toNat = pattern := by
  rw [naiveOnBytes_eq_filter]
  by_cases hg : text.length < pattern.length ∨ pattern.length = 0
  · rw [if_pos hg]
    simp only [List.not_mem_nil, false_iff]
    rintro ⟨h0, h1, h2, -⟩
    rcases hg with hg | hg
    · omega
    · exact h1 (List.eq_nil_of_length_eq_zero hg)
  · rw [if_neg hg]
    simp only [List.mem_map, List.mem_filter, List.mem_range, decide_eq_true_eq]
    constructor
    · rintro ⟨j, ⟨hj, hw⟩, rfl⟩
      refine ⟨by omega, ?_, by omega, ?_⟩
      · intro hnil
        rw [hnil] at hg
        simp at hg
      · rw [Int.toNat_ofNat]
        exact hw
    · rintro ⟨h0, -, h2, hw⟩
      refine ⟨i.toNat, ⟨by omega, hw⟩, by omega⟩

theorem naiveOnBytes_ascending (text pattern : List UInt8) :
    (naiveOnBytes text pattern).Pairwise (fun a b => a < b) := by
  rw [naiveOnBytes_eq_filter]
  split_ifs
  · exact List.Pairwise.nil
  · rw [List.pairwise_map]
    apply List.Pairwise.sublist (List.filter_sublist _)
    exact (List.pairwise_lt_range _).imp (fun h => by exact_mod_cast h)

/-- C22 (`RabinKarpSearch`).  On every pair of byte strings the Rabin-Karp search returns, and
returns the list `NaivePatternMatch` computes.  That list holds exactly the indices `i` with
`text[i:i+len(pattern)] == pattern` (for a non-empty pattern that fits), in ascending order, so
no occurrence is skipped; it is empty when the pattern is empty or longer than the text.  The
same holds of the two functions on Go strings, whose bytes are such byte strings. -/
theorem RabinKarpSearch_spec :
    (∀ text pattern : List UInt8,
      rabinKarpOnBytes text pattern = some (naiveOnBytes text pattern) ∧
      (∀ i : Int, i ∈ naiveOnBytes text pattern ↔
        0 ≤ i ∧ pattern ≠ [] ∧ i + pattern.length ≤ text.length ∧
        window text pattern.length i.toNat = pattern) ∧
      (naiveOnBytes text pattern).Pairwise (fun a b => a < b) ∧
      (pattern = [] ∨ text.length < pattern.length → naiveOnBytes text pattern = [])) ∧
    (∀ text pattern : String,
      RabinKarpSearch text pattern = some (NaivePatternMatch text pattern)) := by
  refine ⟨fun text pattern => ⟨rabinKarpOnBytes_eq text pattern, mem_naiveOnBytes text pattern,
    naiveOnBytes_ascending text pattern, ?_⟩, fun text pattern => ?_⟩
  · intro h
    unfold naiveOnBytes
    simp only []
    rw [if_pos]
    rcases h with h | h
    · right; simp [h]
    · left; exact h
  · unfold RabinKarpSearch
    rw [rabinKarpOnBytes_eq]
    rfl

end PatternMatch

namespace Generics

end Generics

namespace Generics

end Generics

namespace Slices

end Slices

namespace Slices

theorem foldl_max_ge (l : List Int) :
    ∀ a : Int, a ≤ l.foldl (fun maxVal x => max maxVal x) a ∧
      (∀ x ∈ l, x ≤ l.foldl (fun maxVal x => max maxVal x) a) ∧
      (l.foldl (fun maxVal x => max maxVal x) a = a ∨
        l.foldl (fun maxVal x => max maxVal x) a ∈ l) := by
  induction l with
  | nil => intro a; simp
  | cons y rest ih =>
    intro a
    obtain ⟨h1, h2, h3⟩ := ih (max a y)
    rw [List.foldl_cons]
    refine ⟨le_trans (le_max_left a y) h1, ?_, ?_⟩
    · intro x hx
      rcases List.mem_cons.mp hx with rfl | hx
      · exact le_trans (le_max_right a x) h1
      · exact h2 x hx
    · rcases h3 with h3 | h3
      · rcases le_total a y with h | h
        · right
          rw [h3, max_eq_right h]
          exact List.mem_cons_self _ _
        · left
          rw [h3, max_eq_left h]
      · right
        exact List.mem_cons_of_mem _ h3

/-- C24 (`FindMax`), evaluated where it fails: for the one-element slice `[-3000000000]` the
loop starts from `math.MinInt32` and returns `-2147483648`, which is not an element of the
slice and is not its maximum.  The empty slice gives 0, and a slice with an element that is at
least `math.MinInt32` gives an element of the slice that is at least every element. -/
theorem FindMax_below_MinInt32 :
    FindMax [-3000000000] = -2147483648 ∧ FindMax [-3000000000] ∉ [(-3000000000 : Int)] ∧
    FindMax [] = 0 ∧
    (∀ numbers : List Int, (∃ y ∈ numbers, MinInt32 ≤ y) →
      FindMax numbers ∈ numbers ∧ ∀ x ∈ numbers, x ≤ FindMax numbers) := by
  refine ⟨by decide, by decide, by decide, ?_⟩
  rintro numbers ⟨y, hy, hmin⟩
  have hne : ¬ numbers.length = 0 := by
    intro h
    rw [List.eq_nil_of_length_eq_zero h] at hy
    simp at hy
  unfold FindMax
  rw [if_neg hne]
  obtain ⟨h1, h2, h3⟩ := foldl_max_ge numbers MinInt32
  refine ⟨?_, h2⟩
  rcases h3 with h3 | h3
  · have hle := h2 y hy
    rw [h3] at hle ⊢
    have : y = MinInt32 := le_antisymm hle hmin
    rw [← this]
    exact hy
  · exact h3

end Slices

namespace Generics

theorem Queue.holds_of_empty {T : Type} (q : Queue T) (h1 : q.head = none) (h2 : q.tail = none)
    (h3 : q.size = 0) : q.Holds q.heap.length [] := by
  refine ⟨by simp, by simp [h3], by simp [h1], by simp [h2], ?_⟩
  intro i hi
  simp at hi

theorem Queue.holds_nil {T : Type} (q : Queue T) (k : Nat) (h : q.Holds k []) :
    q.head = none ∧ q.tail = none ∧ q.size = 0 := by
  obtain ⟨-, h2, h3, h4, -⟩ := h
  exact ⟨by simpa using h3, by simpa using h4, by simpa using h2⟩

theorem Queue.enqueue_holds {T : Type} (q : Queue T) (k : Nat) (xs : List T) (v : T)
    (h : q.Holds k xs) : ∃ q1, q.Enqueue v = some q1 ∧ q1.Holds k (xs ++ [v]) := by
  obtain ⟨hlen, hsize, hhead, htail, hnodes⟩ := h
  by_cases hxs : xs.length = 0
  · have hnil : xs = [] := List.eq_nil_of_length_eq_zero hxs
    subst hnil
    simp only [List.length_nil, if_true, Nat.add_zero] at hlen hhead htail
    have hE : q.Enqueue v
        = some { heap := q.heap ++ [({ Value := v, next := none, prev := q.tail } : DLLNode T)]
                 head := some q.heap.length
                 tail := some q.heap.length
                 size := q.size + 1 } := by
      simp only [Queue.Enqueue, htail]
    refine ⟨_, hE, ?_⟩
    refine ⟨by simp [hlen], by simp [hsize], by simp [hlen], by simp [hlen], ?_⟩
    intro i hi
    have hi0 : i = 0 := by simpa using hi
    subst hi0
    refine ⟨{ Value := v, next := none, prev := q.tail }, ?_, by simp, by simp⟩
    rw [hlen]
    simp
  · have hpos : 0 < xs.length := Nat.pos_of_ne_zero hxs
    simp only [hxs, if_false] at hhead htail
    obtain ⟨tn, htn, hval, hnext⟩ := hnodes (xs.length - 1) (by omega)
    have hk : k + (xs.length - 1) = k + xs.length - 1 := by omega
    rw [hk] at htn
    have hlt : k + xs.length - 1 < q.heap.length := by omega
    have htn1 : (q.heap ++ [({ Value := v, next := none, prev := q.tail } : DLLNode T)])[k + xs.length - 1]?
        = some tn := by
      rw [List.getElem?_append_left hlt]; exact htn
    have hE : q.Enqueue v
        = some { heap := (q.heap ++ [({ Value := v, next := none, prev := q.tail } : DLLNode T)]).set
                   (k + xs.length - 1) { tn with next := some q.heap.length }
                 head := q.head
                 tail := some q.heap.length
                 size := q.size + 1 } := by
      unfold Queue.Enqueue
      simp only []
      rw [htail] at htn1 ⊢
      simp only [htn1]
    refine ⟨_, hE, ?_⟩
    refine ⟨by simp; omega, by simp [hsize], by simp [hhead], ?_, ?_⟩
    · simp only [List.length_append, List.length_singleton]
      rw [if_neg (by omega)]
      congr 1
      omega
    · intro i hi
      simp only [List.length_append, List.length_singleton] at hi
      by_cases hi1 : i = xs.length
      · subst hi1
        refine ⟨{ Value := v, next := none, prev := q.tail }, ?_, by simp, by simp⟩
        rw [List.getElem?_set_ne (by omega), hlen]
        simp
      · have hi2 : i < xs.length := by omega
        obtain ⟨nd, hnd, hv, hn⟩ := hnodes i hi2
        by_cases hlast : i = xs.length - 1
        · subst hlast
          refine ⟨{ tn with next := some q.heap.length }, ?_, ?_, ?_⟩
          · rw [hk, List.getElem?_set_self (by simp; omega)]
          · rw [List.getElem?_append_left hi2]
            exact hval
          · simp only [List.length_append, List.length_singleton]
            rw [if_pos (by omega)]
            congr 1
            omega
        · refine ⟨nd, ?_, ?_, ?_⟩
          · rw [List.getElem?_set_ne (by omega), List.getElem?_append_left (by omega)]
            exact hnd
          · rw [List.getElem?_append_left hi2]
            exact hv
          · rw [hn]
            simp only [List.length_append, List.length_singleton]
            rw [if_pos (by omega), if_pos (by omega)]

end Generics

namespace Generics

theorem Queue.front_holds {T : Type} [Inhabited T] (q : Queue T) (k : Nat) (x : T)
    (xs : List T) (h : q.Holds k (x :: xs)) : q.Front = some (x, none) := by
  obtain ⟨-, -, hhead, -, hnodes⟩ := h
  obtain ⟨nd, hnd, hv, -⟩ := hnodes 0 (by simp)
  simp only [List.length_cons, Nat.add_one_ne_zero, if_false] at hhead
  simp only [Nat.add_zero] at hnd
  simp only [List.getElem?_cons_zero, Option.some.injEq] at hv
  simp only [Queue.Front, hhead, hnd, hv]

theorem Queue.front_nil {T : Type} [Inhabited T] (q : Queue T) (h : q.head = none) :
    q.Front = some (default, some GoError.ErrEmptyCollection) := by
  simp only [Queue.Front, h]

theorem Queue.dequeue_nil {T : Type} [Inhabited T] (q : Queue T) (h : q.head = none) :
    q.Dequeue = some ((default, some GoError.ErrEmptyCollection), q) := by
  simp [Queue.Dequeue, Queue.front_nil q h]

theorem Queue.dequeue_holds {T : Type} [Inhabited T] (q : Queue T) (k : Nat) (x : T)
    (xs : List T) (h : q.Holds k (x :: xs)) :
    ∃ q1, q.Dequeue = some ((x, none), q1) ∧ q1.Holds (k + 1) xs := by
  have hfront := Queue.front_holds q k x xs h
  obtain ⟨hlen, hsize, hhead, htail, hnodes⟩ := h
  obtain ⟨nd, hnd, hv, hnext⟩ := hnodes 0 (by simp)
  simp only [List.length_cons, Nat.add_one_ne_zero, if_false] at hhead htail
  simp only [Nat.add_zero] at hnd
  simp only [List.length_cons] at hlen hsize hnext
  by_cases hxs : xs.length = 0
  · have hnil : xs = [] := List.eq_nil_of_length_eq_zero hxs
    subst hnil
    have hn : nd.next = none := by simpa using hnext
    have hD : q.Dequeue
        = some ((x, none), { q with head := none, tail := none, size := q.size - 1 }) := by
      simp only [Queue.Dequeue, hfront, hhead, hnd, hn, if_true]
    refine ⟨_, hD, ?_⟩
    refine ⟨by simpa using hlen, by simp [hsize], by simp, by simp, ?_⟩
    intro i hi
    simp at hi
  · have hpos : 0 < xs.length := Nat.pos_of_ne_zero hxs
    have hn : nd.next = some (k + 1) := by
      rw [hnext, if_pos (by omega)]
    obtain ⟨n1, hn1, hv1, hnext1⟩ := hnodes 1 (by simp only [List.length_cons]; omega)
    have hset1 : (q.heap.set (k + 1) { n1 with prev := none })[k]? = some nd := by
      rw [List.getElem?_set_ne (by omega)]; exact hnd
    have hD : q.Dequeue
        = some ((x, none),
            { heap := (q.heap.set (k + 1) { n1 with prev := none }).set k
                        { nd with next := none }
              head := some (k + 1)
              tail := q.tail
              size := q.size - 1 }) := by
      simp only [Queue.Dequeue, hfront, hhead, hnd, hn, hn1, hset1, if_true]
    refine ⟨_, hD, ?_⟩
    refine ⟨by simp; omega, by simp [hsize], by simp [hxs], ?_, ?_⟩
    · simp only [hxs, if_false, htail]
      congr 1
      omega
    · intro i hi
      obtain ⟨ni, hni, hvi, hnexti⟩ := hnodes (i + 1) (by simp only [List.length_cons]; omega)
      simp only [List.getElem?_cons_succ, List.length_cons] at hvi hnexti
      have hidx : k + (i + 1) = k + 1 + i := by omega
      rw [hidx] at hni
      by_cases hi0 : i = 0
      · subst hi0
        refine ⟨{ ni with prev := none }, ?_, hvi, ?_⟩
        · simp only [Nat.add_zero] at hni ⊢
          rw [List.getElem?_set_ne (by omega), List.getElem?_set_self (by omega)]
          rw [hn1] at hni
          rw [Option.some.inj hni]
        · rw [hnexti]
          by_cases h2 : 0 + 1 < xs.length
          · rw [if_pos (by omega), if_pos h2]
          · rw [if_neg (by omega), if_neg h2]
      · refine ⟨ni, ?_, hvi, ?_⟩
        · rw [List.getElem?_set_ne (by omega), List.getElem?_set_ne (by omega)]
          exact hni
        · rw [hnexti]
          by_cases h2 : i + 1 < xs.length
          · rw [if_pos (by omega), if_pos h2]
            congr 1
            omega
          · rw [if_neg (by omega), if_neg h2]

end Generics

namespace Generics

end Generics

namespace Generics

theorem Queue.enqueueAll_holds {T : Type} (ys : List T) :
    ∀ (q : Queue T) (k : Nat) (xs : List T), q.Holds k xs →
      ∃ q1, q.enqueueAll ys = some q1 ∧ q1.Holds k (xs ++ ys) := by
  induction ys with
  | nil => intro q k xs h; exact ⟨q, rfl, by simpa using h⟩
  | cons y rest ih =>
    intro q k xs h
    obtain ⟨q1, hq1, hh1⟩ := Queue.enqueue_holds q k xs y h
    obtain ⟨q2, hq2, hh2⟩ := ih q1 k (xs ++ [y]) hh1
    refine ⟨q2, ?_, by simpa using hh2⟩
    simp only [Queue.enqueueAll, hq1]
    exact hq2

theorem Queue.dequeueMany_holds {T : Type} [Inhabited T] (xs : List T) :
    ∀ (q : Queue T) (k : Nat) (ys : List T), q.Holds k (xs ++ ys) →
      ∃ q2, q.dequeueMany xs.length = some (xs.map (fun x => (x, none)), q2)
        ∧ q2.Holds (k + xs.length) ys := by
  induction xs with
  | nil => intro q k ys h; exact ⟨q, rfl, by simpa using h⟩
  | cons x rest ih =>
    intro q k ys h
    obtain ⟨q1, hq1, hh1⟩ := Queue.dequeue_holds q k x (rest ++ ys) (by simpa using h)
    obtain ⟨q2, hq2, hh2⟩ := ih q1 (k + 1) ys hh1
    refine ⟨q2, ?_, ?_⟩
    · simp only [List.length_cons, Queue.dequeueMany, hq1, hq2, List.map_cons]
    · have e : k + (rest.length + 1) = k + 1 + rest.length := by omega
      simpa [e] using hh2

theorem Queue.front_dequeue {T : Type} [Inhabited T] (q : Queue T) (k : Nat) (xs : List T)
    (h : q.Holds k xs) : ∃ r q1, q.Front = some r ∧ q.Dequeue = some (r, q1) := by
  cases xs with
  | nil =>
    obtain ⟨hh, -, -⟩ := Queue.holds_nil q k h
    exact ⟨_, q, Queue.front_nil q hh, Queue.dequeue_nil q hh⟩
  | cons x rest =>
    obtain ⟨q1, hq1, -⟩ := Queue.dequeue_holds q k x rest h
    exact ⟨_, q1, Queue.front_holds q k x rest h, hq1⟩

theorem Queue.isEmpty_holds {T : Type} (q : Queue T) (k : Nat) (xs : List T)
    (h : q.Holds k xs) : q.IsEmpty = true ↔ xs = [] := by
  obtain ⟨-, hsize, -⟩ := h
  unfold Queue.IsEmpty
  rw [decide_eq_true_eq, hsize]
  constructor
  · intro h0
    exact List.eq_nil_of_length_eq_zero (by exact_mod_cast h0)
  · intro h0
    simp [h0]

theorem Stack.consistent_new {T : Type} : (NewStack : Stack T).Consistent := by
  simp [Stack.Consistent, NewStack]

theorem Stack.consistent_push {T : Type} (s : Stack T) (v : T) (h : s.Consistent) :
    (s.Push v).Consistent := by
  unfold Stack.Consistent at h ⊢
  simp [Stack.Push, h]

theorem Stack.consistent_pop {T : Type} [Inhabited T] (s : Stack T) (h : s.Consistent) :
    s.Pop.2.Consistent := by
  unfold Stack.Consistent at h ⊢
  cases hh : s.head with
  | nil => simp [Stack.Pop, Stack.Peek, hh, h]
  | cons a rest =>
    rw [hh] at h
    simp [Stack.Pop, Stack.Peek, hh, h]

theorem Stack.push_pop {T : Type} [Inhabited T] (s : Stack T) (v : T) :
    (s.Push v).Pop = ((v, none), s) := by
  cases s with
  | mk head size => simp [Stack.Push, Stack.Pop, Stack.Peek]

theorem Stack.pushAll_popMany {T : Type} [Inhabited T] (xs : List T) :
    ∀ s : Stack T,
      (s.pushAll xs).popMany xs.length = (xs.reverse.map (fun x => (x, none)), s) := by
  induction xs using List.reverseRecOn with
  | nil => intro s; rfl
  | append_singleton rest x ih =>
    intro s
    have e : s.pushAll (rest ++ [x]) = (s.pushAll rest).Push x := by
      simp [Stack.pushAll, List.foldl_append]
    rw [e, List.length_append, List.length_singleton, Stack.popMany, Stack.push_pop]
    simp only [ih s, List.reverse_append, List.reverse_singleton, List.singleton_append,
      List.map_cons]

/-- C25 (stack is LIFO).  `Push(v)` followed by `Pop` returns `(v, nil)` and gives back the
stack as it was before the `Push` (same nodes, same `Size`); `Peek` returns what the next `Pop`
returns and `Size` is read from the same, unchanged stack; pushing `xs` and popping
`len(xs)` times returns `xs` in reverse push order with nil errors and restores the stack, so
that on a new stack `IsEmpty` is true afterwards. -/
theorem stack_lifo {T : Type} [Inhabited T] (s : Stack T) (v : T) (xs : List T) :
    (s.Push v).Pop = ((v, none), s) ∧
    ((s.Push v).Pop).2.Size = s.Size ∧
    s.Peek = s.Pop.1 ∧
    (s.pushAll xs).popMany xs.length = (xs.reverse.map (fun x => (x, none)), s) ∧
    (((NewStack : Stack T).pushAll xs).popMany xs.length).2.IsEmpty = true := by
  refine ⟨Stack.push_pop s v, by rw [Stack.push_pop], ?_, Stack.pushAll_popMany xs s, ?_⟩
  · unfold Stack.Pop
    simp only []
    split_ifs <;> rfl
  · rw [Stack.pushAll_popMany]
    rfl

/-- C26 (queue is FIFO).  Enqueuing `xs` in order onto an empty queue (head and tail nil, size
0) succeeds, and dequeuing `len(xs)` times then returns exactly `xs` in the same order, each
with a nil error, and leaves `Size` 0 with head and tail both nil.  In every state of a queue
holding some values, `Front` returns the pair the next `Dequeue` returns. -/
theorem queue_fifo {T : Type} [Inhabited T] (q0 : Queue T) (xs : List T)
    (h1 : q0.head = none) (h2 : q0.tail = none) (h3 : q0.size = 0) :
    (∃ q1 q2, q0.enqueueAll xs = some q1 ∧ q1.Size = xs.length ∧
      q1.dequeueMany xs.length = some (xs.map (fun x => (x, none)), q2) ∧
      q2.Size = 0 ∧ q2.IsEmpty = true ∧ q2.head = none ∧ q2.tail = none) ∧
    (∀ (q : Queue T) (k : Nat) (ys : List T), q.Holds k ys →
      ∃ r q1, q.Front = some r ∧ q.Dequeue = some (r, q1)) := by
  refine ⟨?_, fun q k ys h => Queue.front_dequeue q k ys h⟩
  obtain ⟨q1, hq1, hh1⟩ :=
    Queue.enqueueAll_holds xs q0 q0.heap.length [] (Queue.holds_of_empty q0 h1 h2 h3)
  rw [List.nil_append] at hh1
  obtain ⟨q2, hq2, hh2⟩ :=
    Queue.dequeueMany_holds xs q1 q0.heap.length [] (by simpa using hh1)
  obtain ⟨e1, e2, e3⟩ := Queue.holds_nil q2 _ hh2
  refine ⟨q1, q2, hq1, hh1.2.1, hq2, e3, ?_, e1, e2⟩
  simp [Queue.IsEmpty, e3]

/-- Witness for `queue_fifo`: three values through a new queue. -/
theorem queue_fifo_witness :
    (NewQueue : Queue Nat).head = none ∧ (NewQueue : Queue Nat).tail = none ∧
    (NewQueue : Queue Nat).size = 0 ∧
    ∃ q1 q2, (NewQueue : Queue Nat).enqueueAll [7, 8, 9] = some q1 ∧
      q1.Size = ([7, 8, 9] : List Nat).length ∧
      q1.dequeueMany ([7, 8, 9] : List Nat).length
        = some (([7, 8, 9] : List Nat).map (fun x => (x, none)), q2) ∧
      q2.Size = 0 ∧ q2.IsEmpty = true ∧ q2.head = none ∧ q2.tail = none :=
  ⟨rfl, rfl, rfl, (queue_fifo (NewQueue : Queue Nat) [7, 8, 9] rfl rfl rfl).1⟩

/-- C27 (empty-collection errors).  For a stack whose size field counts its nodes and a queue
holding the values `xs`: when `IsEmpty` is true, `Pop`, `Peek`, `Dequeue` and `Front` return the
zero value with `ErrEmptyCollection`, the collection is returned unchanged and `Size` is 0; when
`IsEmpty` is false, all four return a nil error. -/
theorem empty_collection_errors {T : Type} [Inhabited T] (s : Stack T) (q : Queue T) (k : Nat)
    (xs : List T) (hs : s.Consistent) (hq : q.Holds k xs) :
    (s.IsEmpty = true →
      s.Pop = ((default, some GoError.ErrEmptyCollection), s) ∧
      s.Peek = (default, some GoError.ErrEmptyCollection) ∧ s.Pop.2.Size = 0) ∧
    (s.IsEmpty = false → s.Pop.1.2 = none ∧ s.Peek.2 = none) ∧
    (q.IsEmpty = true →
      q.Dequeue = some ((default, some GoError.ErrEmptyCollection), q) ∧
      q.Front = some (default, some GoError.ErrEmptyCollection) ∧ q.Size = 0) ∧
    (q.IsEmpty = false →
      ∃ r q1, q.Dequeue = some (r, q1) ∧ r.2 = none ∧ q.Front = some r) := by
  unfold Stack.Consistent at hs
  refine ⟨fun he => ?_, fun he => ?_, fun he => ?_, fun he => ?_⟩
  · have h0 : s.size = 0 := by simpa [Stack.IsEmpty] using he
    have hnil : s.head = [] := by
      apply List.eq_nil_of_length_eq_zero
      rw [h0] at hs
      exact_mod_cast hs.symm
    have hp : s.Peek = (default, some GoError.ErrEmptyCollection) := by
      simp [Stack.Peek, hnil]
    have hpop : s.Pop = ((default, some GoError.ErrEmptyCollection), s) := by
      simp [Stack.Pop, hp]
    refine ⟨hpop, hp, ?_⟩
    rw [hpop]
    exact h0
  · have h0 : s.size ≠ 0 := by simpa [Stack.IsEmpty] using he
    cases hh : s.head with
    | nil => rw [hh] at hs; exact absurd (by simpa using hs) h0
    | cons a rest =>
      have hp : s.Peek = (a, none) := by simp [Stack.Peek, hh]
      exact ⟨by simp [Stack.Pop, hp], by rw [hp]⟩
  · have hnil : xs = [] := (Queue.isEmpty_holds q k xs hq).mp he
    subst hnil
    obtain ⟨e1, -, e3⟩ := Queue.holds_nil q k hq
    exact ⟨Queue.dequeue_nil q e1, Queue.front_nil q e1, e3⟩
  · cases xs with
    | nil =>
      have := (Queue.isEmpty_holds q k [] hq).mpr rfl
      rw [this] at he
      exact absurd he (by decide)
    | cons x rest =>
      obtain ⟨q1, hq1, -⟩ := Queue.dequeue_holds q k x rest hq
      exact ⟨(x, none), q1, hq1, rfl, Queue.front_holds q k x rest hq⟩

/-- Witness for `empty_collection_errors`: a new stack and a new queue. -/
theorem empty_collection_errors_witness :
    (NewStack : Stack Nat).Consistent ∧ (NewQueue : Queue Nat).Holds 0 [] ∧
    (NewStack : Stack Nat).Pop = ((0, some GoError.ErrEmptyCollection), NewStack) ∧
    (NewQueue : Queue Nat).Dequeue = some ((0, some GoError.ErrEmptyCollection), NewQueue) :=
  ⟨Stack.consistent_new, Queue.holds_of_empty NewQueue rfl rfl rfl,
    ((empty_collection_errors (NewStack : Stack Nat) (NewQueue : Queue Nat) 0 []
      Stack.consistent_new (Queue.holds_of_empty NewQueue rfl rfl rfl)).1 rfl).1,
    ((empty_collection_errors (NewStack : Stack Nat) (NewQueue : Queue Nat) 0 []
      Stack.consistent_new (Queue.holds_of_empty NewQueue rfl rfl rfl)).2.2.1 rfl).1⟩

end Generics

namespace CircuitBreaker

theorem trial_new (config : Config) (now : Time) :
    TrialInvariant (NewCircuitBreaker config now) := by
  refine ⟨(wellFormed_new config now).2.1, fun _ => rfl, fun h => ?_⟩
  exact absurd h (by show State.StateClosed ≠ State.StateHalfOpen; decide)

theorem trial_setState (cb : circuitBreakerImpl) (s : State) (t : Time)
    (h : TrialInvariant cb) : TrialInvariant (setState cb s t) := by
  by_cases hcs : cb.state = s
  · rw [setState_self cb s t hcs]; exact h
  · obtain ⟨h1, h2, -⟩ := h
    unfold TrialInvariant
    rw [setState_config, setState_state]
    refine ⟨h1, fun hs => setState_halfOpenRequests cb s t hs hcs, fun hs => ?_⟩
    subst hs
    rw [setState_halfOpen_counter, h2 hcs]
    omega

theorem trial_trace (cb : circuitBreakerImpl) (tr : List Event) (h : TrialInvariant cb) :
    TrialInvariant { cb with trace := tr } := h

theorem trial_recordSuccess (cb : circuitBreakerImpl) (t : Time) (h : TrialInvariant cb) :
    TrialInvariant (recordSuccess cb t) := by
  obtain ⟨h1, h2, h3⟩ := h
  unfold recordSuccess
  simp only []
  split_ifs with hs hm
  · unfold TrialInvariant
    rw [setState_config, setState_state]
    refine ⟨h1, fun _ => ?_, fun hc => absurd hc (by decide)⟩
    exact setState_halfOpenRequests _ _ _ (by decide) (by rw [hs]; decide)
  · refine ⟨h1, fun hne => absurd hs hne, fun _ => ?_⟩
    have hlt := h3 hs
    have hle : wrapUint32 (cb.halfOpenRequests + 1) ≤ cb.halfOpenRequests + 1 :=
      Nat.mod_le _ _
    have hne : wrapUint32 (cb.halfOpenRequests + 1) ≠ cb.config.MaxRequests := hm
    show wrapUint32 (cb.halfOpenRequests + 1) < cb.config.MaxRequests
    omega
  · exact ⟨h1, h2, h3⟩

theorem trial_recordFailure (cb cb1 : circuitBreakerImpl) (t1 t2 : Time)
    (h : TrialInvariant cb) (hr : recordFailure cb t1 t2 = some cb1) : TrialInvariant cb1 := by
  have hw : TrialInvariant { cb with metrics := failureMetrics cb.metrics t1 } := h
  unfold recordFailure at hr
  simp only [] at hr
  split at hr
  · split at hr
    · exact absurd hr (by simp)
    · cases Option.some.inj hr; exact trial_setState _ _ _ hw
    · split at hr
      · cases Option.some.inj hr; exact trial_setState _ _ _ hw
      · cases Option.some.inj hr; exact hw
  · split at hr
    · cases Option.some.inj hr; exact trial_setState _ _ _ hw
    · cases Option.some.inj hr; exact hw

theorem trial_canExecute (cb : circuitBreakerImpl) (t1 t2 : Time) (h : TrialInvariant cb) :
    TrialInvariant (canExecute cb t1 t2).1 := by
  unfold canExecute
  split_ifs
  · exact h
  · exact h
  · exact trial_setState _ _ _ h
  · exact h

theorem trial_call (cb : circuitBreakerImpl) (env : CallEnv) (r : CallResult)
    (h : TrialInvariant cb) (hc : Call cb env = some r) : TrialInvariant r.cb := by
  unfold Call at hc
  split at hc
  · cases Option.some.inj hc; exact h
  · have hce := trial_canExecute cb env.nowCheck env.nowHalfOpen h
    split at hc
    · rename_i cb1 err heq
      rw [heq] at hce
      cases Option.some.inj hc; exact hce
    · rename_i cb1 heq
      rw [heq] at hce
      simp only [] at hc
      split at hc
      · cases Option.some.inj hc
        exact trial_recordSuccess _ _ (trial_trace _ _ hce)
      · split at hc
        · exact absurd hc (by simp)
        · rename_i cb3 h3
          cases Option.some.inj hc
          exact trial_recordFailure _ _ _ _ (trial_trace _ _ hce) h3

theorem trial_of_reachable (cb : circuitBreakerImpl) (h : Reachable cb) : TrialInvariant cb := by
  induction h with
  | init config now => exact trial_new config now
  | step cb env r _ hc ih => exact trial_call cb env r ih hc

/-- C37 (trial-counter invariant).  In every state reachable from `NewCircuitBreaker` by
sequential calls, `halfOpenRequests` is 0 when the state is Closed or Open and is below
`MaxRequests` when the state is HalfOpen, so the increment in `recordSuccess` cannot pass
`MaxRequests` without being equal to it. -/
theorem trial_counter_invariant (cb : circuitBreakerImpl) (h : Reachable cb) :
    (cb.state = State.StateClosed ∨ cb.state = State.StateOpen → cb.halfOpenRequests = 0) ∧
    (cb.state = State.StateHalfOpen → cb.halfOpenRequests < cb.config.MaxRequests) ∧
    (cb.state = State.StateHalfOpen → cb.halfOpenRequests + 1 ≤ cb.config.MaxRequests) := by
  obtain ⟨-, h2, h3⟩ := trial_of_reachable cb h
  refine ⟨fun hs => h2 ?_, h3, fun hs => h3 hs⟩
  rcases hs with hs | hs <;> rw [hs] <;> decide

/-- Witness of C37: the `probeConfig` breaker after its first failing call is Open, with an
idle trial counter. -/
theorem trial_counter_invariant_witness :
    Reachable trippedOnce.cb ∧ trippedOnce.cb.halfOpenRequests = 0 :=
  ⟨Reachable.step (NewCircuitBreaker probeConfig 0) (failingCall 1) trippedOnce
      (Reachable.init probeConfig 0) rfl,
    (trial_counter_invariant trippedOnce.cb
      (Reachable.step (NewCircuitBreaker probeConfig 0) (failingCall 1) trippedOnce
        (Reachable.init probeConfig 0) rfl)).1 (Or.inr rfl)⟩

end CircuitBreaker

namespace CircuitBreaker

theorem canExecute_step (cb : circuitBreakerImpl) (t1 t2 : Time) :
    (canExecute cb t1 t2).1.state = cb.state ∨
    (cb.state = State.StateOpen ∧ (canExecute cb t1 t2).1.state = State.StateHalfOpen) := by
  unfold canExecute
  split_ifs with h1 h2 h3
  · exact Or.inl rfl
  · exact Or.inl rfl
  · exact Or.inr ⟨h1, setState_state _ _ _⟩
  · exact Or.inl rfl

theorem recordSuccess_step (cb : circuitBreakerImpl) (t : Time) :
    (recordSuccess cb t).state = cb.state ∨
    (cb.state = State.StateHalfOpen ∧ (recordSuccess cb t).state = State.StateClosed) := by
  unfold recordSuccess
  simp only []
  split_ifs with hs hm
  · exact Or.inr ⟨hs, setState_state _ _ _⟩
  · exact Or.inl rfl
  · exact Or.inl rfl

theorem recordFailure_step (cb cb1 : circuitBreakerImpl) (t1 t2 : Time)
    (h : recordFailure cb t1 t2 = some cb1) :
    cb1.state = cb.state ∨
    ((cb.state = State.StateClosed ∨ cb.state = State.StateHalfOpen) ∧
      cb1.state = State.StateOpen) := by
  unfold recordFailure at h
  simp only [] at h
  split at h
  · rename_i hc
    split at h
    · exact absurd h (by simp)
    · cases Option.some.inj h; exact Or.inr ⟨Or.inl hc, setState_state _ _ _⟩
    · split at h
      · cases Option.some.inj h; exact Or.inr ⟨Or.inl hc, setState_state _ _ _⟩
      · cases Option.some.inj h; exact Or.inl rfl
  · split at h
    · rename_i hh
      cases Option.some.inj h; exact Or.inr ⟨Or.inr hh, setState_state _ _ _⟩
    · cases Option.some.inj h; exact Or.inl rfl

theorem call_stopped (cb : circuitBreakerImpl) (env : CallEnv) (r : CallResult)
    (hc : Call cb env = some r)
    (h : env.ctxErr ≠ none ∨ (canExecute cb env.nowCheck env.nowHalfOpen).2 ≠ none) :
    r.cb = cb := by
  unfold Call at hc
  split at hc
  · cases Option.some.inj hc; rfl
  · rename_i hctx
    split at hc
    · rename_i cb1 err heq
      cases Option.some.inj hc
      exact canExecute_denied cb cb1 _ _ err heq
    · rename_i cb1 heq
      rcases h with h | h
      · exact absurd hctx h
      · rw [heq] at h
        exact absurd rfl h

theorem call_record_step (cb cb1 : circuitBreakerImpl) (env : CallEnv) (r : CallResult)
    (hctx : env.ctxErr = none)
    (hce : canExecute cb env.nowCheck env.nowHalfOpen = (cb1, none))
    (hc : Call cb env = some r) :
    (r.cb.state = cb1.state ∨
      (cb1.state = State.StateHalfOpen ∧ r.cb.state = State.StateClosed ∧ r.err = none) ∨
      ((cb1.state = State.StateClosed ∨ cb1.state = State.StateHalfOpen) ∧
        r.cb.state = State.StateOpen ∧ r.err ≠ none)) := by
  rcases call_recorded cb cb1 env r hctx hce hc with ⟨he, hr⟩ | ⟨he, hr⟩
  · rcases recordSuccess_step { cb1 with trace := cb1.trace ++ [Event.operation cb1.state] }
      env.nowRecord with h | ⟨h1, h2⟩
    · left; rw [hr]; exact h
    · right; left; exact ⟨h1, by rw [hr]; exact h2, he⟩
  · rcases recordFailure_step _ _ _ _ hr with h | ⟨h1, h2⟩
    · left; exact h
    · right; right; exact ⟨h1, h2, he⟩

theorem stateChanges_legal (s0 s1 s2 : State)
    (h1 : s1 = s0 ∨ (s0 = State.StateOpen ∧ s1 = State.StateHalfOpen))
    (h2 : s2 = s1 ∨ (s1 = State.StateHalfOpen ∧ s2 = State.StateClosed) ∨
      ((s1 = State.StateClosed ∨ s1 = State.StateHalfOpen) ∧ s2 = State.StateOpen)) :
    (∀ p ∈ stateChanges [s0, s1], legalTransition p.1 p.2 = true) ∧
    (∀ p ∈ stateChanges [s0, s1, s2], legalTransition p.1 p.2 = true) := by
  revert h1 h2
  cases s0 <;> cases s1 <;> cases s2 <;> decide

theorem statesOfCall_legal (cb : circuitBreakerImpl) (env : CallEnv) :
    ∀ p ∈ stateChanges (cb.state :: statesOfCall cb env), legalTransition p.1 p.2 = true := by
  unfold statesOfCall
  cases hctx : env.ctxErr with
  | some e => simp [stateChanges]
  | none =>
    simp only []
    have h1 := canExecute_step cb env.nowCheck env.nowHalfOpen
    cases hc : Call cb env with
    | none =>
      simp only []
      exact (stateChanges_legal cb.state _ _ h1 (Or.inl rfl)).1
    | some r =>
      simp only []
      cases hce : canExecute cb env.nowCheck env.nowHalfOpen with
      | mk cb1 oe =>
        cases oe with
        | some e =>
          have hr : r.cb = cb := call_stopped cb env r hc (Or.inr (by rw [hce]; simp))
          have hcb : cb1 = cb := canExecute_denied cb cb1 _ _ e hce
          rw [hr, hcb]
          simp [stateChanges]
        | none =>
          rw [hce] at h1
          have h2 := call_record_step cb cb1 env r hctx hce hc
          refine (stateChanges_legal cb.state cb1.state r.cb.state h1 ?_).2
          rcases h2 with h | ⟨a, b, -⟩ | ⟨a, b, -⟩
          · exact Or.inl h
          · exact Or.inr (Or.inl ⟨a, b⟩)
          · exact Or.inr (Or.inr ⟨a, b⟩)

theorem expectedCallbacks_legal (envs : List CallEnv) :
    ∀ cb : circuitBreakerImpl, ∀ p ∈ expectedCallbacks cb envs,
      legalTransition p.2.1 p.2.2 = true := by
  induction envs with
  | nil => intro cb p hp; simp [expectedCallbacks] at hp
  | cons env rest ih =>
    intro cb p hp
    unfold expectedCallbacks at hp
    cases hc : Call cb env with
    | none => simp [hc] at hp
    | some r =>
      simp only [hc, List.mem_append, List.mem_map] at hp
      rcases hp with ⟨q, hq, rfl⟩ | hp
      · exact statesOfCall_legal cb env q hq
      · exact ih r.cb p hp

/-- C36 (only legal transitions).  The admission check changes the state only from Open to
HalfOpen, `recordSuccess` only from HalfOpen to Closed, `recordFailure` only from Closed or
HalfOpen to Open.  Hence every change of state in a run of calls is one of Closed to Open, Open
to HalfOpen, HalfOpen to Open, HalfOpen to Closed.  A call stopped by its context or rejected by
the admission check leaves the breaker as it was, and a successful call on a Closed breaker
leaves it Closed. -/
theorem legal_transitions :
    (∀ (cb : circuitBreakerImpl) (t1 t2 : Time),
      (canExecute cb t1 t2).1.state = cb.state ∨
      (cb.state = State.StateOpen ∧ (canExecute cb t1 t2).1.state = State.StateHalfOpen)) ∧
    (∀ (cb : circuitBreakerImpl) (t : Time),
      (recordSuccess cb t).state = cb.state ∨
      (cb.state = State.StateHalfOpen ∧ (recordSuccess cb t).state = State.StateClosed)) ∧
    (∀ (cb cb1 : circuitBreakerImpl) (t1 t2 : Time), recordFailure cb t1 t2 = some cb1 →
      cb1.state = cb.state ∨
      ((cb.state = State.StateClosed ∨ cb.state = State.StateHalfOpen) ∧
        cb1.state = State.StateOpen)) ∧
    (∀ (cb : circuitBreakerImpl) (envs : List CallEnv),
      ∀ p ∈ expectedCallbacks cb envs, legalTransition p.2.1 p.2.2 = true) ∧
    legalTransition State.StateClosed State.StateHalfOpen = false ∧
    legalTransition State.StateOpen State.StateClosed = false ∧
    (∀ (cb : circuitBreakerImpl) (env : CallEnv) (r : CallResult), Call cb env = some r →
      env.ctxErr ≠ none ∨ (canExecute cb env.nowCheck env.nowHalfOpen).2 ≠ none →
      r.cb = cb) ∧
    (∀ (cb : circuitBreakerImpl) (env : CallEnv) (r : CallResult), Call cb env = some r →
      cb.state = State.StateClosed → r.err = none → r.cb.state = State.StateClosed) := by
  refine ⟨canExecute_step, recordSuccess_step, recordFailure_step,
    fun cb envs => expectedCallbacks_legal envs cb, rfl, rfl, call_stopped, ?_⟩
  intro cb env r hc hs he
  cases hctx : env.ctxErr with
  | some e =>
    rw [call_stopped cb env r hc (Or.inl (by rw [hctx]; simp))]
    exact hs
  | none =>
    have hce : canExecute cb env.nowCheck env.nowHalfOpen = (cb, none) :=
      canExecute_of_not_open cb _ _ (by rw [hs]; decide)
    rcases call_record_step cb cb env r hctx hce hc with h | ⟨a, -, -⟩ | ⟨-, -, c⟩
    · rw [h]; exact hs
    · rw [hs] at a; exact absurd a (by decide)
    · exact absurd he c

end CircuitBreaker

namespace CircuitBreaker

end CircuitBreaker

namespace Perf
open CircuitBreaker

theorem sum_range_fib (n : Nat) :
    (∑ k in Finset.range (n + 1), (Nat.fib k : Int)) = (Nat.fib (n + 2) : Int) - 1 := by
  have h := Nat.fib_succ_eq_succ_sum (n + 1)
  have h2 : ((Nat.fib (n + 1 + 1) : Nat) : Int)
      = ((∑ k in Finset.range (n + 1), Nat.fib k : Nat) : Int) + 1 := by
    exact_mod_cast h
  rw [h2]
  push_cast
  ring

theorem sum_Ico_fib (n : Nat) :
    (∑ k in Finset.Ico 1 (n + 1), (Nat.fib k : Int))
      = ∑ k in Finset.range (n + 1), (Nat.fib k : Int) := by
  rw [Finset.range_eq_Ico, Finset.sum_eq_sum_Ico_succ_bot (Nat.succ_pos n)]
  simp

theorem sum_fib_small (n : Nat) (hn : n ≤ 90) :
    wrapInt64 (∑ k in Finset.range (n + 1), (Nat.fib k : Int))
      = ∑ k in Finset.range (n + 1), (Nat.fib k : Int) := by
  rw [sum_range_fib]
  have hmono : Nat.fib (n + 2) ≤ Nat.fib 92 := Nat.fib_mono (by omega)
  have h92 : Nat.fib 92 = 7540113804746346429 := by norm_num [Nat.fib_add_two]
  have hpos : 0 < Nat.fib (n + 2) := Nat.fib_pos.mpr (by omega)
  apply wrapInt64_small <;> omega

/-- C35, the counterexample: at `n = 91` the sum `F(1) + ... + F(91)` is
`12200160415121876737`, which is not an int64, and `OptimizedCalculation` returns it wrapped to
64 bits, a negative number. -/
theorem fibonacci_sum_overflows :
    OptimizedCalculation 91 = some (-6246583658587674879) ∧
    (∑ k in Finset.Ico 1 92, (Nat.fib k : Int)) = 12200160415121876737 := by
  have h93 : (Nat.fib 93 : Int) = 12200160415121876738 := by norm_num [Nat.fib_add_two]
  constructor
  · have h := OptimizedCalculation_value 91 (by decide)
    rw [sum_range_fib, h93] at h
    rw [show ((91 : Nat) : Int) = 91 from rfl] at h
    rw [h]
    decide
  · rw [sum_Ico_fib 91, sum_range_fib, h93]
    rfl

/-- C35 as amended (sum of Fibonacci numbers as an int64).  For `0 <= n <= 90`
`OptimizedCalculation(n)` returns `F(1) + ... + F(n)`, and so does `ExpensiveCalculation(n)`;
for every `0 <= n < 2^63 - 1` both return that sum wrapped to 64 bits.  The results at 0 and 1
are 0 and 1, and for `n < 0` `OptimizedCalculation` panics. -/
theorem fibonacci_sum (n : Int) (h1 : n < 9223372036854775807) :
    (0 ≤ n → n ≤ 90 →
      OptimizedCalculation n = some (∑ k in Finset.Ico 1 (n.toNat + 1), (Nat.fib k : Int)) ∧
      ExpensiveCalculation n
        = some (∑ k in Finset.Ico 1 (n.toNat + 1), (Nat.fib k : Int))) ∧
    (0 ≤ n →
      OptimizedCalculation n
        = some (wrapInt64 (∑ k in Finset.Ico 1 (n.toNat + 1), (Nat.fib k : Int))) ∧
      ExpensiveCalculation n
        = some (wrapInt64 (∑ k in Finset.Ico 1 (n.toNat + 1), (Nat.fib k : Int)))) ∧
    (n < 0 → OptimizedCalculation n = none) ∧
    OptimizedCalculation 0 = some 0 ∧ OptimizedCalculation 1 = some 1 := by
  have hwrap : 0 ≤ n →
      OptimizedCalculation n
        = some (wrapInt64 (∑ k in Finset.Ico 1 (n.toNat + 1), (Nat.fib k : Int))) ∧
      ExpensiveCalculation n
        = some (wrapInt64 (∑ k in Finset.Ico 1 (n.toNat + 1), (Nat.fib k : Int))) := by
    intro h0
    obtain ⟨N, rfl⟩ := Int.eq_ofNat_of_zero_le h0
    rw [Int.toNat_ofNat, sum_Ico_fib]
    exact ⟨OptimizedCalculation_value N h1, ExpensiveCalculation_value N h1⟩
  refine ⟨fun h0 h90 => ?_, hwrap, fun hneg => ?_, by decide, by decide⟩
  · have hw := hwrap h0
    obtain ⟨N, rfl⟩ := Int.eq_ofNat_of_zero_le h0
    rw [Int.toNat_ofNat] at hw ⊢
    have hs := sum_fib_small N (by omega)
    rw [sum_Ico_fib] at hw ⊢
    rw [hs] at hw
    exact hw
  · unfold OptimizedCalculation
    rw [if_pos hneg]

/-- Witness of C35 at `n = 10`. -/
theorem fibonacci_sum_witness :
    (10 : Int) < 9223372036854775807 ∧
    OptimizedCalculation 10
      = some (∑ k in Finset.Ico 1 ((10 : Int).toNat + 1), (Nat.fib k : Int)) :=
  ⟨by decide, ((fibonacci_sum 10 (by decide)).1 (by decide) (by decide)).1⟩

end Perf

namespace GoMap

theorem lookup_insert_self {V : Type} (m : List (Int × V)) (k : Int) (v : V) :
    lookup (insert m k v) k = some v := by
  induction m with
  | nil => simp [insert, lookup]
  | cons e rest ih =>
    obtain ⟨k1, v1⟩ := e
    unfold insert
    split_ifs with h1 h2
    · simp [lookup]
    · simp [lookup]
    · simp only [lookup, if_neg h2]
      exact ih

theorem lookup_insert_of_ne {V : Type} (m : List (Int × V)) (k j : Int) (v : V) (h : j ≠ k) :
    lookup (insert m k v) j = lookup m j := by
  induction m with
  | nil => simp [insert, lookup, h]
  | cons e rest ih =>
    obtain ⟨k1, v1⟩ := e
    unfold insert
    split_ifs with h1 h2
    · simp [lookup, h]
    · subst h2
      simp [lookup, h]
    · simp only [lookup]
      rw [ih]

theorem keys_insert {V : Type} (m : List (Int × V)) (k j : Int) (v : V) :
    j ∈ (insert m k v).map Prod.fst ↔ j = k ∨ j ∈ m.map Prod.fst := by
  induction m with
  | nil => simp [insert]
  | cons e rest ih =>
    obtain ⟨k1, v1⟩ := e
    unfold insert
    split_ifs with h1 h2
    · simp
    · subst h2
      simp
    · simp only [List.map_cons, List.mem_cons, ih]
      tauto

theorem keys_ascending_insert {V : Type} (m : List (Int × V)) (k : Int) (v : V)
    (h : (m.map Prod.fst).Pairwise (fun a b => a < b)) :
    ((insert m k v).map Prod.fst).Pairwise (fun a b => a < b) := by
  induction m with
  | nil => simp [insert]
  | cons e rest ih =>
    obtain ⟨k1, v1⟩ := e
    simp only [List.map_cons, List.pairwise_cons] at h
    obtain ⟨h1, h2⟩ := h
    unfold insert
    split_ifs with h3 h4
    · simp only [List.map_cons, List.pairwise_cons, List.mem_cons]
      refine ⟨?_, h1, h2⟩
      rintro a (rfl | ha)
      · exact h3
      · exact lt_trans h3 (h1 a ha)
    · subst h4
      simp only [List.map_cons, List.pairwise_cons]
      exact ⟨h1, h2⟩
    · simp only [List.map_cons, List.pairwise_cons]
      refine ⟨?_, ih h2⟩
      intro a ha
      rcases (keys_insert rest k a v).mp ha with rfl | ha
      · omega
      · exact h1 a ha

theorem lookup_isSome_iff {V : Type} (m : List (Int × V)) (k : Int) :
    (lookup m k).isSome = true ↔ k ∈ m.map Prod.fst := by
  induction m with
  | nil => simp [lookup]
  | cons e rest ih =>
    obtain ⟨k1, v1⟩ := e
    unfold lookup
    split_ifs with h
    · simp [h]
    · simp only [List.map_cons, List.mem_cons, ih]
      constructor
      · exact Or.inr
      · rintro (h1 | h1)
        · exact absurd h1 h
        · exact h1

end GoMap

namespace Account

theorem validateAmount_none (id : String) (amount : Rat) (h0 : 0 ≤ amount)
    (h1 : amount ≤ MaxTransactionAmount) : validateAmount id amount = none := by
  unfold validateAmount
  rw [if_neg (not_lt.mpr h0), if_neg (not_lt.mpr h1)]

/-- C32, the counterexample: an account with balance 0 and minimum balance 100 transfers the
amount 0.  `from.Balance - amount < from.MinBalance` holds, yet `Transfer` returns nil (and
changes nothing), because `transact` tests the minimum only for a negative argument and `-0` is
not negative. -/
theorem transfer_zero_below_minimum :
    belowMinimum.Balance - 0 < belowMinimum.MinBalance ∧
    belowMinimum.Transfer 0 receiver = ((belowMinimum, receiver), none) := by
  constructor
  · norm_num [belowMinimum]
  · norm_num [BankAccount.Transfer, validateAmount, BankAccount.transact, MaxTransactionAmount,
      belowMinimum, receiver]

/-- C32 as amended (`Transfer` is all-or-nothing).  For every pair of accounts and every amount,
`Transfer` returns `NegativeAmountError` when `amount < 0`, else `ExceedsLimitError` when
`amount > 10000`, else `InsufficientFundsError` when `amount > 0` and
`from.Balance - amount < from.MinBalance`, each time leaving both accounts as they were; in
every other case it returns nil, lowers `from.Balance` and raises `dst.Balance` by exactly
`amount` and changes nothing else, so the sum of the two balances is the same.  When
`from.Balance` is at least `from.MinBalance`, the third error is returned exactly when
`from.Balance - amount < from.MinBalance`. -/
theorem transfer_all_or_nothing (src dst : BankAccount) (amount : Rat) :
    (amount < 0 →
      src.Transfer amount dst = ((src, dst), some (GoError.NegativeAmountError src.ID))) ∧
    (0 ≤ amount → amount > 10000 →
      src.Transfer amount dst = ((src, dst), some (GoError.ExceedsLimitError src.ID amount))) ∧
    (0 < amount → amount ≤ 10000 → src.Balance - amount < src.MinBalance →
      src.Transfer amount dst
        = ((src, dst), some (GoError.InsufficientFundsError src.ID (-amount) src.MinBalance))) ∧
    (0 ≤ amount → amount ≤ 10000 → (amount = 0 ∨ src.MinBalance ≤ src.Balance - amount) →
      src.Transfer amount dst
        = (({ src with Balance := src.Balance - amount },
            { dst with Balance := dst.Balance + amount }), none) ∧
      (src.Transfer amount dst).1.1.Balance + (src.Transfer amount dst).1.2.Balance
        = src.Balance + dst.Balance) ∧
    (src.MinBalance ≤ src.Balance → 0 ≤ amount → amount ≤ 10000 →
      ((src.Transfer amount dst).2 ≠ none ↔ src.Balance - amount < src.MinBalance)) ∧
    ((src.Transfer amount dst).2 ≠ none → (src.Transfer amount dst).1 = (src, dst)) := by
  have hneg : amount < 0 →
      src.Transfer amount dst = ((src, dst), some (GoError.NegativeAmountError src.ID)) := by
    intro h
    simp [BankAccount.Transfer, validateAmount, h]
  have hbig : 0 ≤ amount → amount > 10000 →
      src.Transfer amount dst
        = ((src, dst), some (GoError.ExceedsLimitError src.ID amount)) := by
    intro h0 h1
    have h1' : amount > MaxTransactionAmount := h1
    simp [BankAccount.Transfer, validateAmount, not_lt.mpr h0, h1']
  have hlow : 0 < amount → amount ≤ 10000 → src.Balance - amount < src.MinBalance →
      src.Transfer amount dst
        = ((src, dst),
            some (GoError.InsufficientFundsError src.ID (-amount) src.MinBalance)) := by
    intro h0 h1 h2
    have hv := validateAmount_none src.ID amount (le_of_lt h0) h1
    have hc : -amount < 0 ∧ src.Balance + -amount < src.MinBalance :=
      ⟨by linarith, by linarith⟩
    simp only [BankAccount.Transfer, hv, BankAccount.transact, hc, and_self, if_true]
  have hok : 0 ≤ amount → amount ≤ 10000 →
      (amount = 0 ∨ src.MinBalance ≤ src.Balance - amount) →
      src.Transfer amount dst
        = (({ src with Balance := src.Balance - amount },
            { dst with Balance := dst.Balance + amount }), none) := by
    intro h0 h1 h2
    have hv := validateAmount_none src.ID amount h0 h1
    have hc : ¬ (-amount < 0 ∧ src.Balance + -amount < src.MinBalance) := by
      rintro ⟨ha, hb⟩
      rcases h2 with h2 | h2
      · rw [h2] at ha; exact absurd ha (by decide)
      · linarith
    have hd : ¬ (amount < 0 ∧ dst.Balance + amount < dst.MinBalance) := fun h =>
      absurd h.1 (not_lt.mpr h0)
    simp only [BankAccount.Transfer, hv, BankAccount.transact, hc, hd, if_false]
    rw [sub_eq_add_neg]
  refine ⟨hneg, hbig, hlow, fun h0 h1 h2 => ⟨hok h0 h1 h2, ?_⟩, ?_, ?_⟩
  · rw [hok h0 h1 h2]
    show src.Balance - amount + (dst.Balance + amount) = src.Balance + dst.Balance
    ring
  · intro hmin h0 h1
    by_cases hlt : src.Balance - amount < src.MinBalance
    · have hpos : 0 < amount := by
        rcases lt_or_eq_of_le h0 with h | h
        · exact h
        · rw [← h] at hlt; linarith
      rw [hlow hpos h1 hlt]
      simp [hlt]
    · rw [hok h0 h1 (Or.inr (not_lt.mp hlt))]
      simp [hlt]
  · intro herr
    rcases lt_or_le amount 0 with h | h0
    · rw [hneg h]
    · rcases lt_or_le 10000 amount with h | h1
      · rw [hbig h0 h]
      · by_cases hlt : 0 < amount ∧ src.Balance - amount < src.MinBalance
        · rw [hlow hlt.1 h1 hlt.2]
        · have h2 : amount = 0 ∨ src.MinBalance ≤ src.Balance - amount := by
            by_contra hc
            push_neg at hc
            exact hlt ⟨lt_of_le_of_ne h0 (Ne.symm hc.1), hc.2⟩
          rw [hok h0 h1 h2] at herr
          exact absurd rfl herr

end Account

namespace Account

theorem transact_minimum (a : BankAccount) (amount : Rat) (h : a.MinBalance ≤ a.Balance) :
    (a.transact amount).1.MinBalance ≤ (a.transact amount).1.Balance := by
  unfold BankAccount.transact
  split_ifs with hc
  · exact h
  · show a.MinBalance ≤ a.Balance + amount
    by_cases hneg : amount < 0
    · have : ¬ a.Balance + amount < a.MinBalance := fun h2 => hc ⟨hneg, h2⟩
      exact not_lt.mp this
    · have := not_lt.mp hneg
      linarith

/-- Accounts made by `NewBankAccount` hold at least their minimum balance, and `Deposit`,
`Withdraw` and `Transfer` keep it so. -/
theorem minimum_kept :
    (∀ (id owner : String) (b m : Rat) (a : BankAccount),
      (NewBankAccount id owner b m).1 = some a → a.MinBalance ≤ a.Balance) ∧
    (∀ (a : BankAccount) (amount : Rat), a.MinBalance ≤ a.Balance →
      (a.Deposit amount).1.MinBalance ≤ (a.Deposit amount).1.Balance ∧
      (a.Withdraw amount).1.MinBalance ≤ (a.Withdraw amount).1.Balance) ∧
    (∀ (src dst : BankAccount) (amount : Rat), src.MinBalance ≤ src.Balance →
      dst.MinBalance ≤ dst.Balance →
      (src.Transfer amount dst).1.1.MinBalance ≤ (src.Transfer amount dst).1.1.Balance ∧
      (src.Transfer amount dst).1.2.MinBalance ≤ (src.Transfer amount dst).1.2.Balance) := by
  refine ⟨?_, ?_, ?_⟩
  · intro id owner b m a h
    unfold NewBankAccount at h
    split_ifs at h with h1 h2 h3 h4
    · cases Option.some.inj h
      exact not_lt.mp h4
  · intro a amount h
    constructor
    · unfold BankAccount.Deposit
      cases validateAmount a.ID amount with
      | some e => exact h
      | none => exact transact_minimum a amount h
    · unfold BankAccount.Withdraw
      cases validateAmount a.ID amount with
      | some e => exact h
      | none => exact transact_minimum a (-amount) h
  · intro src dst amount hs hd
    unfold BankAccount.Transfer
    cases validateAmount src.ID amount with
    | some e => exact ⟨hs, hd⟩
    | none =>
      simp only []
      have h1 := transact_minimum src (-amount) hs
      have h2 := transact_minimum dst amount hd
      cases hts : src.transact (-amount) with
      | mk src1 e1 =>
        rw [hts] at h1
        cases e1 with
        | some e => exact ⟨h1, hd⟩
        | none =>
          simp only []
          cases htd : dst.transact amount with
          | mk dst1 e2 =>
            rw [htd] at h2
            exact ⟨h1, h2⟩

end Account

namespace OrderService

theorem createOrder_orders {F : Type} [Mul F] [IntCast F] (srv : orderServer F)
    (req : CreateOrderRequest) (id : Int) :
    (∃ e, srv.CreateOrder req id = (Except.error e, srv)) ∨
    (∃ order, srv.CreateOrder req id
        = (Except.ok order, { srv with orders := GoMap.insert srv.orders id order })
      ∧ order.ID = id) := by
  unfold orderServer.CreateOrder
  cases srv.userService.GetUser { UserID := req.UserID } with
  | error e => exact Or.inl ⟨e, rfl⟩
  | ok u =>
    simp only []
    cases srv.productService.GetProduct { ProductID := req.ProductID } with
    | error e => exact Or.inl ⟨e, rfl⟩
    | ok p =>
      simp only []
      split_ifs
      · exact Or.inl ⟨_, rfl⟩
      · exact Or.inr ⟨_, rfl, rfl⟩

theorem createAll_orders {F : Type} [Mul F] [IntCast F]
    (reqs : List (CreateOrderRequest × Int)) :
    ∀ (srv : orderServer F) (oid : Int),
      (GoMap.lookup (srv.createAll reqs).1.orders oid).isSome = true ↔
        (GoMap.lookup srv.orders oid).isSome = true ∨ oid ∈ (srv.createAll reqs).2 := by
  induction reqs with
  | nil => intro srv oid; simp [orderServer.createAll]
  | cons e rest ih =>
    intro srv oid
    obtain ⟨req, id⟩ := e
    unfold orderServer.createAll
    rcases createOrder_orders srv req id with ⟨e, he⟩ | ⟨order, ho, hid⟩
    · rw [he]
      simp only []
      exact ih srv oid
    · rw [ho]
      simp only []
      rw [ih, hid]
      by_cases hk : oid = id
      · subst hk
        simp [GoMap.lookup_insert_self]
      · rw [GoMap.lookup_insert_of_ne _ _ _ _ hk]
        simp [hk]

/-- C33 (`CreateOrder` validation).  `CreateOrder` fails with NotFound when the user does not
exist, with PermissionDenied when the user is inactive, with NotFound when the product does not
exist, and with an error when the quantity exceeds the inventory, each time leaving the server
as it was.  Otherwise it returns an order with the drawn ID, the UserID, ProductID and Quantity
of the request and `Total = Quantity * Price`, and `GetOrder` with that ID then returns the same
order.  After any sequence of `CreateOrder` calls on a new order service, `GetOrder` succeeds
exactly on the IDs of the orders created and fails with NotFound on every other ID. -/
theorem CreateOrder_validation {F : Type} [Mul F] [IntCast F] :
    (∀ (srv : orderServer F) (req : CreateOrderRequest) (id : Int),
      (GoMap.lookup srv.userService.users req.UserID = none →
        srv.CreateOrder req id
          = (Except.error (GoError.status Code.NotFound
              ("user " ++ toString req.UserID ++ " not found")), srv)) ∧
      (∀ u, GoMap.lookup srv.userService.users req.UserID = some u → u.Active = false →
        srv.CreateOrder req id
          = (Except.error (GoError.status Code.PermissionDenied
              ("user " ++ toString req.UserID ++ " is not active")), srv)) ∧
      (∀ u, GoMap.lookup srv.userService.users req.UserID = some u → u.Active = true →
        GoMap.lookup srv.productService.products req.ProductID = none →
        srv.CreateOrder req id
          = (Except.error (GoError.status Code.NotFound
              ("product " ++ toString req.ProductID ++ " not found")), srv)) ∧
      (∀ u p, GoMap.lookup srv.userService.users req.UserID = some u → u.Active = true →
        GoMap.lookup srv.productService.products req.ProductID = some p →
        p.Inventory < req.Quantity →
        srv.CreateOrder req id = (Except.error (GoError.plain "insufficient inventory"), srv)) ∧
      (∀ u p, GoMap.lookup srv.userService.users req.UserID = some u → u.Active = true →
        GoMap.lookup srv.productService.products req.ProductID = some p →
        req.Quantity ≤ p.Inventory →
        (srv.CreateOrder req id).1
          = Except.ok { ID := id, UserID := req.UserID, ProductID := req.ProductID,
                        Quantity := req.Quantity, Total := (req.Quantity : F) * p.Price } ∧
        (srv.CreateOrder req id).2.GetOrder { OrderID := id }
          = Except.ok { ID := id, UserID := req.UserID, ProductID := req.ProductID,
                        Quantity := req.Quantity, Total := (req.Quantity : F) * p.Price })) ∧
    (∀ (us : userServer) (ps : productServer F) (reqs : List (CreateOrderRequest × Int))
      (oid : Int),
      (oid ∈ ((newOrderService us ps).createAll reqs).2 →
        ∃ order, ((newOrderService us ps).createAll reqs).1.GetOrder { OrderID := oid }
          = Except.ok order) ∧
      (oid ∉ ((newOrderService us ps).createAll reqs).2 →
        ((newOrderService us ps).createAll reqs).1.GetOrder { OrderID := oid }
          = Except.error (GoError.status Code.NotFound
              ("order " ++ toString oid ++ " not found")))) := by
  constructor
  · intro srv req id
    refine ⟨fun hu => ?_, fun u hu ha => ?_, fun u hu ha hp => ?_, fun u p hu ha hp hq => ?_,
      fun u p hu ha hp hq => ?_⟩
    · simp [orderServer.CreateOrder, userServer.GetUser, hu]
    · simp [orderServer.CreateOrder, userServer.GetUser, hu, ha]
    · simp [orderServer.CreateOrder, userServer.GetUser, productServer.GetProduct, hu, ha, hp]
    · simp [orderServer.CreateOrder, userServer.GetUser, productServer.GetProduct, hu, ha, hp,
        hq]
    · have hnq : ¬ p.Inventory < req.Quantity := not_lt.mpr hq
      simp [orderServer.CreateOrder, userServer.GetUser, productServer.GetProduct, hu, ha, hp,
        hnq, orderServer.GetOrder, GoMap.lookup_insert_self]
  · intro us ps reqs oid
    have h := createAll_orders reqs (newOrderService us ps) oid
    have h0 : (GoMap.lookup (newOrderService us ps).orders oid).isSome = false := rfl
    rw [h0] at h
    constructor
    · intro hin
      have hs : (GoMap.lookup ((newOrderService us ps).createAll reqs).1.orders oid).isSome
          = true := h.mpr (Or.inr hin)
      obtain ⟨order, ho⟩ := Option.isSome_iff_exists.mp hs
      exact ⟨order, by simp [orderServer.GetOrder, ho]⟩
    · intro hout
      have hs : GoMap.lookup ((newOrderService us ps).createAll reqs).1.orders oid = none := by
        cases hl : GoMap.lookup ((newOrderService us ps).createAll reqs).1.orders oid with
        | none => rfl
        | some o =>
          have := h.mp (by rw [hl]; rfl)
          rcases this with h1 | h1
          · exact absurd h1 (by simp)
          · exact absurd h1 hout
      simp [orderServer.GetOrder, hs]

end OrderService

namespace BFS

theorem walk_zero (graph : List (Int × List Int)) (u x : Int) (h : Walk graph u x 0) :
    x = u := by
  cases h
  rfl

theorem walk_succ (graph : List (Int × List Int)) (u x : Int) (n : Nat)
    (h : Walk graph u x (n + 1)) : ∃ p, Walk graph u p n ∧ Edge graph p x := by
  cases h with
  | snoc v _ _ hw he => exact ⟨v, hw, he⟩

theorem isDist_unique (graph : List (Int × List Int)) (u v : Int) (d e : Nat)
    (h1 : IsDist graph u v d) (h2 : IsDist graph u v e) : d = e :=
  le_antisymm (h1.2 e h2.1) (h2.2 d h1.1)

theorem adjacent_known (graph : List (Int × List Int)) (u w : Int) (h : w ∈ adjacent graph u) :
    w ∈ allNeighbors graph := by
  unfold adjacent at h
  induction graph with
  | nil => simp [GoMap.lookup] at h
  | cons e rest ih =>
    obtain ⟨k, l⟩ := e
    unfold GoMap.lookup at h
    unfold allNeighbors
    rw [List.flatMap_cons, List.mem_append]
    split_ifs at h with hk
    · exact Or.inl h
    · exact Or.inr (ih h)

theorem visitNeighbors_spec (neighbors : List Int) :
    ∀ s : BfsState, s.visited.Nodup →
      ∃ fresh : List Int,
        visitNeighbors s neighbors
          = { visited := s.visited ++ fresh, queue := s.queue ++ fresh, result := s.result } ∧
        (∀ x, x ∈ fresh ↔ x ∈ neighbors ∧ x ∉ s.visited) ∧
        (s.visited ++ fresh).Nodup := by
  induction neighbors with
  | nil =>
    intro s hnd
    exact ⟨[], by simp [visitNeighbors], by simp, by simpa using hnd⟩
  | cons y rest ih =>
    intro s hnd
    unfold visitNeighbors
    rw [List.foldl_cons]
    by_cases hy : y ∈ s.visited
    · rw [if_pos hy]
      obtain ⟨fresh, h1, h2, h3⟩ := ih s hnd
      refine ⟨fresh, h1, ?_, h3⟩
      intro x
      rw [h2, List.mem_cons]
      constructor
      · rintro ⟨a, b⟩; exact ⟨Or.inr a, b⟩
      · rintro ⟨a | a, b⟩
        · subst a; exact absurd hy b
        · exact ⟨a, b⟩
    · rw [if_neg hy]
      have hnd1 : (s.visited ++ [y]).Nodup :=
        List.Nodup.append hnd (List.nodup_singleton y) (by simpa using hy)
      obtain ⟨fresh, h1, h2, h3⟩ :=
        ih { s with visited := s.visited ++ [y], queue := s.queue ++ [y] } hnd1
      refine ⟨y :: fresh, ?_, ?_, ?_⟩
      · have : visitNeighbors
            { s with visited := s.visited ++ [y], queue := s.queue ++ [y] } rest
            = { visited := s.visited ++ (y :: fresh), queue := s.queue ++ (y :: fresh),
                result := s.result } := by
          rw [h1]
          simp
        exact this
      · intro x
        simp only [List.mem_cons, h2, List.mem_append, List.not_mem_nil, or_false]
        constructor
        · rintro (rfl | ⟨a, b⟩)
          · exact ⟨Or.inl rfl, hy⟩
          · exact ⟨Or.inr a, fun hx => b (Or.inl hx)⟩
        · rintro ⟨a | a, b⟩
          · exact Or.inl a
          · by_cases hxy : x = y
            · exact Or.inl hxy
            · exact Or.inr ⟨a, fun hx => hx.elim b hxy⟩
      · simpa using h3

end BFS

namespace BFS

theorem inv_step (graph : List (Int × List Int)) (start : Int) (lv : Int → Nat) (s : BfsState)
    (u : Int) (q : List Int) (h : Inv graph start lv s) (hq : s.queue = u :: q) :
    ∃ (lv1 : Int → Nat) (s1 : BfsState),
      visitNeighbors { visited := s.visited, queue := q, result := s.result ++ [u] }
        (adjacent graph u) = s1 ∧
      s1.result = s.result ++ [u] ∧ Inv graph start lv1 s1 := by
  obtain ⟨fresh, hvn, hfresh, hnd⟩ := visitNeighbors_spec (adjacent graph u)
    { visited := s.visited, queue := q, result := s.result ++ [u] } h.nodup
  simp only [] at hvn hfresh hnd
  have hsplit : s.visited = s.result ++ u :: q := by rw [h.split, hq]
  have hu : u ∈ s.visited := by rw [hsplit]; simp
  have hstart : start ∈ s.visited := List.mem_of_mem_head? h.first
  have hsorted := h.sorted
  rw [hsplit, List.pairwise_append] at hsorted
  obtain ⟨-, hsQ, hcross⟩ := hsorted
  have hR_le : ∀ a ∈ s.result, lv a ≤ lv u := fun a ha => hcross a ha u (List.mem_cons_self _ _)
  have hq_ge : ∀ a ∈ q, lv u ≤ lv a := (List.pairwise_cons.mp hsQ).1
  have hq_sorted : q.Pairwise (fun a b => lv a ≤ lv b) := (List.pairwise_cons.mp hsQ).2
  have hq_le : ∀ a ∈ q, lv a ≤ lv u + 1 := h.span u q hq
  have hdu : IsDist graph start u (lv u) := h.dist u hu
  have hV_le : ∀ a ∈ s.visited, lv a ≤ lv u + 1 := by
    intro a ha
    rw [hsplit, List.mem_append, List.mem_cons] at ha
    rcases ha with ha | rfl | ha
    · have := hR_le a ha; omega
    · omega
    · exact hq_le a ha
  obtain ⟨lv1, hlvV, hlvF⟩ : ∃ lv1 : Int → Nat,
      (∀ x ∈ s.visited, lv1 x = lv x) ∧ (∀ x ∈ fresh, lv1 x = lv u + 1) :=
    ⟨fun x => if x ∈ s.visited then lv x else lv u + 1, fun x hx => if_pos hx,
      fun x hx => if_neg ((hfresh x).mp hx).2⟩
  have hfreshDist : ∀ w ∈ fresh, IsDist graph start w (lv u + 1) := by
    intro w hw
    obtain ⟨hadj, hnv⟩ := (hfresh w).mp hw
    refine ⟨Walk.snoc u w (lv u) hdu.1 hadj, ?_⟩
    intro n hwalk
    by_contra hlt
    cases n with
    | zero =>
      have := walk_zero graph start w hwalk
      rw [this] at hnv
      exact hnv hstart
    | succ m =>
      obtain ⟨p, hwp, hpe⟩ := walk_succ graph start w m hwalk
      have hp : p ∈ s.result := h.near u q hq p m hwp (by omega)
      exact hnv (h.closed p hp w hpe)
  have hqf : ∀ z ∈ q ++ fresh, lv u ≤ lv1 z ∧ lv1 z ≤ lv u + 1 := by
    intro z hz
    rcases List.mem_append.mp hz with hz | hz
    · have hzv : z ∈ s.visited := by rw [hsplit]; simp [hz]
      rw [hlvV z hzv]
      exact ⟨hq_ge z hz, hq_le z hz⟩
    · rw [hlvF z hz]
      omega
  refine ⟨lv1, _, hvn, rfl, ?_⟩
  refine ⟨?_, hnd, ?_, ?_, ?_, ?_, ?_, ?_, ?_⟩
  · show s.visited ++ fresh = s.result ++ [u] ++ (q ++ fresh)
    rw [hsplit]
    simp
  · show (s.visited ++ fresh).head? = some start
    cases hv : s.visited with
    | nil => rw [hv] at hstart; simp at hstart
    | cons a rest =>
      have := h.first
      rw [hv] at this
      simpa using this
  · intro v hv
    rcases List.mem_append.mp hv with hv | hv
    · rw [hlvV v hv]; exact h.dist v hv
    · rw [hlvF v hv]; exact hfreshDist v hv
  · show (s.visited ++ fresh).Pairwise (fun a b => lv1 a ≤ lv1 b)
    rw [List.pairwise_append]
    refine ⟨?_, ?_, ?_⟩
    · refine List.Pairwise.imp_of_mem ?_ h.sorted
      intro a b ha hb hab
      rw [hlvV a ha, hlvV b hb]
      exact hab
    · refine List.Pairwise.imp_of_mem ?_
        (List.pairwise_of_forall (fun _ _ => trivial) : fresh.Pairwise (fun _ _ => True))
      intro a b ha hb _
      rw [hlvF a ha, hlvF b hb]
    · intro a ha b hb
      rw [hlvV a ha, hlvF b hb]
      exact hV_le a ha
  · intro u1 rest1 hq1 a ha
    have hq1' : q ++ fresh = u1 :: rest1 := hq1
    have h1 := hqf u1 (by rw [hq1']; simp)
    have h2 := hqf a (by rw [hq1']; simp [ha])
    omega
  · intro u0 hu0 w hw
    show w ∈ s.visited ++ fresh
    rcases List.mem_append.mp hu0 with hu0 | hu0
    · exact List.mem_append_left _ (h.closed u0 hu0 w hw)
    · have : u0 = u := by simpa using hu0
      subst this
      by_cases hwv : w ∈ s.visited
      · exact List.mem_append_left _ hwv
      · exact List.mem_append_right _ ((hfresh w).mpr ⟨hw, hwv⟩)
  · intro u1 rest1 hq1 x n hwalk hn
    show x ∈ s.result ++ [u]
    have hq1' : q ++ fresh = u1 :: rest1 := hq1
    have hu1 := hqf u1 (by rw [hq1']; simp)
    by_cases hnd' : n < lv u
    · exact List.mem_append_left _ (h.near u q hq x n hwalk hnd')
    · have hn_eq : n = lv u := by omega
      have hlv1 : lv1 u1 = lv u + 1 := by omega
      have hxv : x ∈ s.visited := by
        cases n with
        | zero =>
          rw [walk_zero graph start x hwalk]
          exact hstart
        | succ m =>
          obtain ⟨p, hwp, hpe⟩ := walk_succ graph start x m hwalk
          exact h.closed p (h.near u q hq p m hwp (by omega)) x hpe
      have hxle : lv x ≤ lv u := by
        have := (h.dist x hxv).2 n hwalk
        omega
      rw [hsplit, List.mem_append, List.mem_cons] at hxv
      rcases hxv with hx | hx | hx
      · exact List.mem_append_left _ hx
      · rw [hx]; simp
      · exfalso
        cases q with
        | nil => simp at hx
        | cons a q1 =>
          have ha : a = u1 := by
            have := hq1'
            simp only [List.cons_append, List.cons.injEq] at this
            exact this.1
          subst ha
          have hav : a ∈ s.visited := by rw [hsplit]; simp
          have hla : lv a = lv u + 1 := by rw [← hlvV a hav]; exact hlv1
          rcases List.mem_cons.mp hx with rfl | hx1
          · omega
          · have := (List.pairwise_cons.mp hq_sorted).1 x hx1
            omega
  · intro v hv
    rcases List.mem_append.mp hv with hv | hv
    · exact h.known v hv
    · exact List.mem_cons_of_mem _ (adjacent_known graph u v ((hfresh v).mp hv).1)

end BFS

namespace BFS

theorem inv_init (graph : List (Int × List Int)) (start : Int) :
    Inv graph start (fun _ => 0) { visited := [start], queue := [start], result := [] } := by
  refine ⟨rfl, List.nodup_singleton start, rfl, ?_, List.pairwise_singleton _ _, ?_, ?_, ?_, ?_⟩
  · intro v hv
    have : v = start := by simpa using hv
    subst this
    exact ⟨Walk.nil, fun n _ => Nat.zero_le n⟩
  · intro u rest hq a ha
    have : rest = [] := by
      have h2 : [start] = u :: rest := hq
      simp only [List.cons.injEq] at h2
      exact h2.2.symm
    rw [this] at ha
    simp at ha
  · intro u hu
    simp at hu
  · intro u rest _ x n _ hn
    simp at hn
  · intro v hv
    have : v = start := by simpa using hv
    rw [this]
    exact List.mem_cons_self _ _

theorem inv_done (graph : List (Int × List Int)) (start : Int) (lv : Int → Nat) (s : BfsState)
    (h : Inv graph start lv s) (hq : s.queue = []) :
    Inv graph start lv { visited := s.result, queue := [], result := s.result } := by
  have hv : s.visited = s.result := by rw [h.split, hq, List.append_nil]
  have hs : s = { visited := s.result, queue := [], result := s.result } := by
    cases s with
    | mk v q r =>
      simp only [] at hq hv
      rw [hq, hv]
  rw [← hs]
  exact h

theorem inv_length (graph : List (Int × List Int)) (start : Int) (lv : Int → Nat) (s : BfsState)
    (h : Inv graph start lv s) :
    s.result.length + s.queue.length ≤ (allNeighbors graph).length + 1 := by
  have h1 := (h.nodup.subperm (fun v hv => h.known v hv)).length_le
  rw [h.split, List.length_append, List.length_cons] at h1
  exact h1

theorem bfsLoop_returns (graph : List (Int × List Int)) (start : Int) (fuel : Nat) :
    ∀ (s : BfsState) (lv : Int → Nat), Inv graph start lv s →
      (allNeighbors graph).length + 1 ≤ fuel + s.result.length →
      ∃ (r : List Int) (lv1 : Int → Nat),
        bfsLoop graph fuel s = some r ∧
        Inv graph start lv1 { visited := r, queue := [], result := r } := by
  induction fuel with
  | zero =>
    intro s lv h hf
    have hl := inv_length graph start lv s h
    have hq : s.queue = [] := List.eq_nil_of_length_eq_zero (by omega)
    refine ⟨s.result, lv, ?_, inv_done graph start lv s h hq⟩
    unfold bfsLoop
    rw [hq]
  | succ f ih =>
    intro s lv h hf
    cases hq : s.queue with
    | nil =>
      refine ⟨s.result, lv, ?_, inv_done graph start lv s h hq⟩
      unfold bfsLoop
      rw [hq]
    | cons u q =>
      obtain ⟨lv1, s1, hvn, hres, hinv⟩ := inv_step graph start lv s u q h hq
      obtain ⟨r, lv2, hr, hfin⟩ := ih s1 lv1 hinv (by
        rw [hres, List.length_append, List.length_singleton]; omega)
      refine ⟨r, lv2, ?_, hfin⟩
      unfold bfsLoop
      rw [hq]
      simp only []
      rw [hvn]
      exact hr

theorem reachable_of_closed (graph : List (Int × List Int)) (start : Int) (r : List Int)
    (hs : start ∈ r) (hc : ∀ u ∈ r, ∀ w, Edge graph u w → w ∈ r) :
    ∀ (n : Nat) (v : Int), Walk graph start v n → v ∈ r := by
  intro n
  induction n with
  | zero =>
    intro v hw
    rw [walk_zero graph start v hw]
    exact hs
  | succ m ih =>
    intro v hw
    obtain ⟨p, hwp, hpe⟩ := walk_succ graph start v m hw
    exact hc p (ih p hwp) v hpe

/-- The search order `bfs` computes. -/
theorem bfs_order (graph : List (Int × List Int)) (start : Int) :
    ∃ (r : List Int) (lv : Int → Nat), bfs graph start = some r ∧
      r.head? = some start ∧
      r.Nodup ∧
      (∀ v, v ∈ r ↔ Reachable graph start v) ∧
      (∀ v ∈ r, IsDist graph start v (lv v)) ∧
      r.Pairwise (fun a b => lv a ≤ lv b) := by
  obtain ⟨r, lv, hr, hinv⟩ := bfsLoop_returns graph start ((allNeighbors graph).length + 1)
    { visited := [start], queue := [start], result := [] } (fun _ => 0)
    (inv_init graph start) (by simp)
  refine ⟨r, lv, hr, hinv.first, hinv.nodup, ?_, hinv.dist, hinv.sorted⟩
  intro v
  constructor
  · intro hv
    exact ⟨lv v, (hinv.dist v hv).1⟩
  · rintro ⟨n, hw⟩
    exact reachable_of_closed graph start r (List.mem_of_mem_head? hinv.first)
      (fun u hu w hw => hinv.closed u hu w hw) n v hw

end BFS

namespace BFS

theorem mem_of_getElem? {α : Type} (l : List α) (w : Nat) (a : α) (h : l[w]? = some a) :
    a ∈ l := by
  obtain ⟨hw, rfl⟩ := List.getElem?_eq_some_iff.mp h
  exact List.getElem_mem hw

theorem mem_set_self {α : Type} (l : List α) (w : Nat) (a c : α) (h : l[w]? = some a) :
    c ∈ l.set w c := by
  obtain ⟨hw, -⟩ := List.getElem?_eq_some_iff.mp h
  apply mem_of_getElem? (l.set w c) w c
  rw [List.getElem?_set_self]
  exact hw

theorem mem_set_of_ne {α : Type} (l : List α) (w : Nat) (a b c : α) (hb : l[w]? = some b)
    (ha : a ∈ l) (hne : a ≠ b) : a ∈ l.set w c := by
  obtain ⟨i, hi, rfl⟩ := List.getElem_of_mem ha
  have hiw : w ≠ i := by
    rintro rfl
    rw [List.getElem?_eq_getElem hi] at hb
    exact hne (Option.some.inj hb)
  apply mem_of_getElem? (l.set w c) i
  rw [List.getElem?_set_ne hiw]
  exact List.getElem?_eq_getElem hi

theorem weight_set (l : List Worker) :
    ∀ (w : Nat) (a c : Worker), l[w]? = some a →
      ((l.set w c).map Worker.weight).sum + a.weight = (l.map Worker.weight).sum + c.weight := by
  induction l with
  | nil => intro w a c h; simp at h
  | cons x rest ih =>
    intro w a c h
    cases w with
    | zero =>
      simp only [List.getElem?_cons_zero, Option.some.injEq] at h
      subst h
      simp only [List.set_cons_zero, List.map_cons, List.sum_cons]
      omega
    | succ k =>
      simp only [List.getElem?_cons_succ] at h
      have := ih k a c h
      simp only [List.set_cons_succ, List.map_cons, List.sum_cons]
      omega

theorem sound_launch (graph : List (Int × List Int)) (queries : List Int) (numWorkers : Int) :
    Sound graph queries numWorkers.toNat (launch queries numWorkers) := by
  refine ⟨by simp [launch], ?_, ?_, fun q hq => hq, ?_, ?_, fun q hq => Or.inl hq, ?_⟩
  · intro h; simp [launch] at h
  · intro h
    have := List.eq_of_mem_replicate h
    exact absurd this (by decide)
  · intro q order h
    have := List.eq_of_mem_replicate h
    exact absurd this (by simp)
  · intro q order h
    simp [launch, GoMap.lookup] at h
  · simp [launch]

theorem sound_step (graph : List (Int × List Int)) (queries : List Int) (n : Nat) (p p1 : Pool)
    (m : Move) (h : Sound graph queries n p) (hs : step graph p m = some p1) :
    Sound graph queries n p1 ∧ movesLeft p1 + 1 = movesLeft p := by
  cases m with
  | send w =>
    simp only [step] at hs
    cases hp : p.pending with
    | nil => simp [hp] at hs
    | cons q rest =>
      cases hw : p.workers[w]? with
      | none => simp [hp, hw] at hs
      | some x =>
        cases x with
        | holding a b => simp [hp, hw] at hs
        | returned => simp [hp, hw] at hs
        | waiting =>
          cases hb : bfs graph q with
          | none => simp [hp, hw, hb] at hs
          | some order =>
            simp only [hp, hw, hb] at hs
            cases Option.some.inj hs
            have hopen : p.startsClosed = false := by
              cases hc : p.startsClosed with
              | false => rfl
              | true => have := h.closed hc; rw [hp] at this; cases this
            constructor
            · refine ⟨by simp [h.workers], ?_, ?_, ?_, ?_, h.stored, ?_, h.keys⟩
              · intro hc
                rw [hopen] at hc
                cases hc
              · intro hm
                rcases List.mem_or_eq_of_mem_set hm with hm | hm
                · exact h.left hm
                · cases hm
              · intro q1 hq1
                exact h.pending q1 (by rw [hp]; exact List.mem_cons_of_mem _ hq1)
              · intro q1 o1 hm
                rcases List.mem_or_eq_of_mem_set hm with hm | hm
                · exact h.held q1 o1 hm
                · cases hm
                  exact ⟨hb, h.pending q (by rw [hp]; exact List.mem_cons_self _ _)⟩
              · intro q1 hq1
                rcases h.covered q1 hq1 with hc | ⟨o1, hc⟩ | hc
                · rw [hp] at hc
                  rcases List.mem_cons.mp hc with rfl | hc
                  · exact Or.inr (Or.inl ⟨order, mem_set_self _ _ _ _ hw⟩)
                  · exact Or.inl hc
                · exact Or.inr (Or.inl ⟨o1, mem_set_of_ne _ _ _ _ _ hw hc (by simp)⟩)
                · exact Or.inr (Or.inr hc)
            · have := weight_set p.workers w Worker.waiting (Worker.holding q order) hw
              simp only [movesLeft, hp, List.length_cons, Worker.weight] at this ⊢
              omega
  | close =>
    simp only [step] at hs
    split_ifs at hs with hc
    cases Option.some.inj hs
    constructor
    · exact ⟨h.workers, fun _ => hc.1, fun _ => rfl, h.pending, h.held, h.stored, h.covered,
        h.keys⟩
    · simp only [movesLeft, hc.2]
      simp
      omega
  | leave w =>
    simp only [step] at hs
    cases hw : p.workers[w]? with
    | none => simp [hw] at hs
    | some x =>
      cases x with
      | holding a b => simp [hw] at hs
      | returned => simp [hw] at hs
      | waiting =>
        simp only [hw] at hs
        split_ifs at hs with hc
        cases Option.some.inj hs
        constructor
        · refine ⟨by simp [h.workers], h.closed, fun _ => hc, h.pending, ?_, h.stored, ?_,
            h.keys⟩
          · intro q1 o1 hm
            rcases List.mem_or_eq_of_mem_set hm with hm | hm
            · exact h.held q1 o1 hm
            · cases hm
          · intro q1 hq1
            rcases h.covered q1 hq1 with hc1 | ⟨o1, hc1⟩ | hc1
            · exact Or.inl hc1
            · exact Or.inr (Or.inl ⟨o1, mem_set_of_ne _ _ _ _ _ hw hc1 (by simp)⟩)
            · exact Or.inr (Or.inr hc1)
        · have := weight_set p.workers w Worker.waiting Worker.returned hw
          simp only [movesLeft, Worker.weight] at this ⊢
          omega
  | collect w =>
    simp only [step] at hs
    cases hw : p.workers[w]? with
    | none => simp [hw] at hs
    | some x =>
      cases x with
      | waiting => simp [hw] at hs
      | returned => simp [hw] at hs
      | holding q order =>
        simp only [hw] at hs
        cases Option.some.inj hs
        have hheld := h.held q order (mem_of_getElem? _ _ _ hw)
        constructor
        · refine ⟨by simp [h.workers], h.closed, ?_, h.pending, ?_, ?_, ?_,
            GoMap.keys_ascending_insert _ _ _ h.keys⟩
          · intro hm
            rcases List.mem_or_eq_of_mem_set hm with hm | hm
            · exact h.left hm
            · cases hm
          · intro q1 o1 hm
            rcases List.mem_or_eq_of_mem_set hm with hm | hm
            · exact h.held q1 o1 hm
            · cases hm
          · intro q1 o1 hl
            by_cases hq : q1 = q
            · subst hq
              rw [GoMap.lookup_insert_self] at hl
              cases Option.some.inj hl
              exact hheld
            · rw [GoMap.lookup_insert_of_ne _ _ _ _ hq] at hl
              exact h.stored q1 o1 hl
          · intro q1 hq1
            by_cases hq : q1 = q
            · subst hq
              right; right
              show (GoMap.lookup (GoMap.insert p.res q1 order) q1).isSome = true
              rw [GoMap.lookup_insert_self]
              rfl
            · rcases h.covered q1 hq1 with hc1 | ⟨o1, hc1⟩ | hc1
              · exact Or.inl hc1
              · refine Or.inr (Or.inl ⟨o1, mem_set_of_ne _ _ _ _ _ hw hc1 ?_⟩)
                intro he
                cases he
                exact hq rfl
              · right; right
                show (GoMap.lookup (GoMap.insert p.res q order) q1).isSome = true
                rw [GoMap.lookup_insert_of_ne _ _ _ _ hq]
                exact hc1
        · have := weight_set p.workers w (Worker.holding q order) Worker.waiting hw
          simp only [movesLeft, Worker.weight] at this ⊢
          omega

theorem sound_run (graph : List (Int × List Int)) (queries : List Int) (n : Nat)
    (schedule : List Move) :
    ∀ p p1 : Pool, Sound graph queries n p → run graph p schedule = some p1 →
      Sound graph queries n p1 ∧ movesLeft p1 + schedule.length = movesLeft p := by
  induction schedule with
  | nil =>
    intro p p1 h hr
    cases Option.some.inj hr
    exact ⟨h, rfl⟩
  | cons m rest ih =>
    intro p p1 h hr
    unfold run at hr
    cases hs : step graph p m with
    | none => simp [hs] at hr
    | some p2 =>
      simp only [hs] at hr
      obtain ⟨h2, hm2⟩ := sound_step graph queries n p p2 m h hs
      obtain ⟨h3, hm3⟩ := ih p2 p1 h2 hr
      refine ⟨h3, ?_⟩
      rw [List.length_cons]
      omega

end BFS

namespace BFS

theorem finished_iff (p : Pool) :
    finished p = true ↔ ∀ w ∈ p.workers, w = Worker.returned := by
  simp [finished]

theorem run_append (graph : List (Int × List Int)) (a b : List Move) :
    ∀ p p1 : Pool, run graph p a = some p1 → run graph p (a ++ b) = run graph p1 b := by
  induction a with
  | nil =>
    intro p p1 h
    cases Option.some.inj h
    rfl
  | cons m rest ih =>
    intro p p1 h
    rw [List.cons_append]
    simp only [run] at h ⊢
    cases hs : step graph p m with
    | none => simp [hs] at h
    | some p2 =>
      simp only [hs] at h ⊢
      exact ih p2 p1 h

theorem progress (graph : List (Int × List Int)) (queries : List Int) (n : Nat) (p : Pool)
    (h : Sound graph queries n p) (hn : 1 ≤ n) (hf : finished p = false) :
    ∃ m p1, step graph p m = some p1 := by
  by_cases hh : ∃ (w : Nat) (q : Int) (order : List Int),
      p.workers[w]? = some (Worker.holding q order)
  · obtain ⟨w, q, order, hw⟩ := hh
    refine ⟨Move.collect w, ?_⟩
    simp only [step, hw]
    exact ⟨_, rfl⟩
  · have hnot : ∀ (w : Nat) (x : Worker), p.workers[w]? = some x →
        x = Worker.waiting ∨ x = Worker.returned := by
      intro w x hw
      cases x with
      | waiting => exact Or.inl rfl
      | returned => exact Or.inr rfl
      | holding q order => exact absurd ⟨w, q, order, hw⟩ hh
    cases hp : p.pending with
    | cons q rest =>
      have hopen : p.startsClosed = false := by
        cases hc : p.startsClosed with
        | false => rfl
        | true => have := h.closed hc; rw [hp] at this; cases this
      have h0 : 0 < p.workers.length := by rw [h.workers]; omega
      have hw0 : p.workers[0]? = some Worker.waiting := by
        have hget := List.getElem?_eq_getElem h0
        rcases hnot 0 _ hget with hx | hx
        · rw [hget, hx]
        · have hmem : Worker.returned ∈ p.workers := by
            rw [← hx]; exact List.getElem_mem h0
          have := h.left hmem
          rw [hopen] at this
          cases this
      obtain ⟨r, -, hb, -⟩ := bfs_order graph q
      refine ⟨Move.send 0, ?_⟩
      simp only [step, hp, hw0, hb]
      exact ⟨_, rfl⟩
    | nil =>
      cases hc : p.startsClosed with
      | false =>
        refine ⟨Move.close, ?_⟩
        simp only [step, hp, hc, and_self, if_true]
        exact ⟨_, rfl⟩
      | true =>
        have hex : ∃ x ∈ p.workers, x ≠ Worker.returned := by
          by_contra hall
          push_neg at hall
          have := (finished_iff p).mpr hall
          rw [hf] at this
          cases this
        obtain ⟨x, hx, hxr⟩ := hex
        obtain ⟨i, hi, rfl⟩ := List.getElem_of_mem hx
        have hget := List.getElem?_eq_getElem hi
        rcases hnot i _ hget with hw | hw
        · rw [hw] at hget
          refine ⟨Move.leave i, ?_⟩
          simp only [step, hget, hc, if_true]
          exact ⟨_, rfl⟩
        · exact absurd hw hxr

theorem completes (graph : List (Int × List Int)) (queries : List Int) (n : Nat) (hn : 1 ≤ n)
    (k : Nat) :
    ∀ p : Pool, Sound graph queries n p → movesLeft p = k →
      ∃ more p1, run graph p more = some p1 ∧ finished p1 = true := by
  induction k with
  | zero =>
    intro p h hk
    cases hf : finished p with
    | true => exact ⟨[], p, rfl, hf⟩
    | false =>
      obtain ⟨m, p1, hs⟩ := progress graph queries n p h hn hf
      have := (sound_step graph queries n p p1 m h hs).2
      omega
  | succ k ih =>
    intro p h hk
    cases hf : finished p with
    | true => exact ⟨[], p, rfl, hf⟩
    | false =>
      obtain ⟨m, p1, hs⟩ := progress graph queries n p h hn hf
      obtain ⟨h1, hm⟩ := sound_step graph queries n p p1 m h hs
      obtain ⟨more, p2, hr, hfin⟩ := ih p1 h1 (by omega)
      refine ⟨m :: more, p2, ?_, hfin⟩
      unfold run
      simp only [hs]
      exact hr

theorem finished_map (graph : List (Int × List Int)) (queries : List Int) (n : Nat) (p : Pool)
    (h : Sound graph queries n p) (hn : 1 ≤ n) (hf : finished p = true) :
    (p.res.map Prod.fst).Pairwise (fun a b => a < b) ∧
    (∀ q, q ∈ p.res.map Prod.fst ↔ q ∈ queries) ∧
    (∀ q ∈ queries, GoMap.lookup p.res q = bfs graph q) := by
  have hall := (finished_iff p).mp hf
  have h0 : 0 < p.workers.length := by rw [h.workers]; omega
  have hret : Worker.returned ∈ p.workers := by
    have := hall _ (List.getElem_mem h0)
    rw [← this]
    exact List.getElem_mem h0
  have hpend : p.pending = [] := h.closed (h.left hret)
  have hsome : ∀ q ∈ queries, (GoMap.lookup p.res q).isSome = true := by
    intro q hq
    rcases h.covered q hq with hc | ⟨o, hc⟩ | hc
    · rw [hpend] at hc; simp at hc
    · have := hall _ hc
      cases this
    · exact hc
  refine ⟨h.keys, ?_, ?_⟩
  · intro q
    rw [← GoMap.lookup_isSome_iff]
    constructor
    · intro hs
      obtain ⟨o, ho⟩ := Option.isSome_iff_exists.mp hs
      exact (h.stored q o ho).2
    · exact hsome q
  · intro q hq
    obtain ⟨o, ho⟩ := Option.isSome_iff_exists.mp (hsome q hq)
    rw [ho, (h.stored q o ho).1]

/-- C31 (BFS queries).  With at least one worker: every complete execution of the goroutines of
`ConcurrentBFSQueries` returns a map whose keys are exactly the query nodes, each once, and whose
value for `q` is what `bfs(graph, q)` returns; every execution that has begun can be completed,
and none makes more than `2 * len(queries) + numWorkers + 1` moves.  The helper `bfs` returns on
every graph, cycles or not, and the order it returns starts with the start node, holds no node
twice, holds exactly the nodes reachable from the start node, and never lists a node before one
that is closer to the start node. -/
theorem ConcurrentBFSQueries_spec (graph : List (Int × List Int)) (queries : List Int)
    (numWorkers : Int) (hw : 1 ≤ numWorkers) :
    (∀ schedule res, ConcurrentBFSQueries graph queries numWorkers schedule = some res →
      (res.map Prod.fst).Pairwise (fun a b => a < b) ∧
      (∀ q, q ∈ res.map Prod.fst ↔ q ∈ queries) ∧
      (∀ q ∈ queries, GoMap.lookup res q = bfs graph q)) ∧
    (∀ schedule p, run graph (launch queries numWorkers) schedule = some p →
      schedule.length ≤ 2 * queries.length + numWorkers.toNat + 1 ∧
      ∃ more res,
        ConcurrentBFSQueries graph queries numWorkers (schedule ++ more) = some res) ∧
    (∀ start, ∃ (r : List Int) (lv : Int → Nat), bfs graph start = some r ∧
      r.head? = some start ∧
      r.Nodup ∧
      (∀ v, v ∈ r ↔ Reachable graph start v) ∧
      (∀ v ∈ r, IsDist graph start v (lv v)) ∧
      r.Pairwise (fun a b => lv a ≤ lv b)) := by
  have hn : 1 ≤ numWorkers.toNat := by omega
  have h0 := sound_launch graph queries numWorkers
  have hm0 : movesLeft (launch queries numWorkers)
      = 2 * queries.length + numWorkers.toNat + 1 := by
    simp [movesLeft, launch, Worker.weight]
    omega
  refine ⟨?_, ?_, bfs_order graph⟩
  · intro schedule res hres
    unfold ConcurrentBFSQueries at hres
    cases hr : run graph (launch queries numWorkers) schedule with
    | none => simp [hr] at hres
    | some p =>
      simp only [hr] at hres
      split_ifs at hres with hf
      cases Option.some.inj hres
      exact finished_map graph queries _ p (sound_run graph queries _ schedule _ p h0 hr).1 hn hf
  · intro schedule p hr
    obtain ⟨hs, hlen⟩ := sound_run graph queries _ schedule _ p h0 hr
    refine ⟨by omega, ?_⟩
    obtain ⟨more, p1, hr1, hf⟩ := completes graph queries _ hn _ p hs rfl
    refine ⟨more, p1.res, ?_⟩
    unfold ConcurrentBFSQueries
    rw [run_append graph schedule more _ p hr, hr1]
    simp only [hf, if_true]

/-- Witness of C31: two workers answer the queries 0, 3 and 0 again on a graph with cycles. -/
theorem ConcurrentBFSQueries_spec_witness :
    (1 : Int) ≤ 2 ∧
    ConcurrentBFSQueries [(0, [1, 2]), (1, [2, 3]), (2, [3, 0]), (3, [4]), (4, [0, 4])]
        [0, 3, 0] 2
        [Move.send 0, Move.send 1, Move.collect 1, Move.send 1, Move.collect 0, Move.close,
         Move.leave 0, Move.collect 1, Move.leave 1]
      = some [(0, [0, 1, 2, 3, 4]), (3, [3, 4, 0, 1, 2])] ∧
    GoMap.lookup [(0, [0, 1, 2, 3, 4]), (3, [3, 4, 0, 1, 2])] 3
      = bfs [(0, [1, 2]), (1, [2, 3]), (2, [3, 0]), (3, [4]), (4, [0, 4])] 3 :=
  ⟨by decide, by decide,
    ((ConcurrentBFSQueries_spec [(0, [1, 2]), (1, [2, 3]), (2, [3, 0]), (3, [4]), (4, [0, 4])]
      [0, 3, 0] 2 (by decide)).1
      [Move.send 0, Move.send 1, Move.collect 1, Move.send 1, Move.collect 0, Move.close,
       Move.leave 0, Move.collect 1, Move.leave 1]
      [(0, [0, 1, 2, 3, 4]), (3, [3, 4, 0, 1, 2])] (by decide)).2.2 3 (by decide)⟩

end BFS

namespace CircuitBreaker

/-- A goroutine alone on the breaker makes the `Call` of the sequential model: whenever
`Call cb env` returns, the moves of a single goroutine end with the breaker `Call` leaves and
the pair `Call` returns. -/
theorem shared_solo (cb : circuitBreakerImpl) (env : CallEnv) (r : CallResult)
    (h : Call cb env = some r) :
    ∃ schedule : List Nat,
      (Shared.launch cb [env]).run schedule
        = some { cb := r.cb, callers := [Caller.returned r.result r.err] } := by
  unfold Call at h
  cases hctx : env.ctxErr with
  | some e =>
    simp only [hctx, Option.some.injEq] at h
    subst h
    exact ⟨[0], by simp [Shared.run, Shared.step, Shared.launch, advance, hctx]⟩
  | none =>
    simp only [hctx] at h
    have hrec : ∀ (cb1 : circuitBreakerImpl),
        (match (env.operation (GetState cb1) (GetMetrics cb1)).2 with
          | none => some
              { result := (env.operation (GetState cb1) (GetMetrics cb1)).1,
                err := (env.operation (GetState cb1) (GetMetrics cb1)).2,
                cb := recordSuccess { cb1 with trace := cb1.trace ++ [Event.operation cb1.state] }
                  env.nowRecord }
          | some _ =>
            match recordFailure { cb1 with trace := cb1.trace ++ [Event.operation cb1.state] }
                env.nowFailure env.nowRecord with
            | none => none
            | some cb3 => some
              { result := (env.operation (GetState cb1) (GetMetrics cb1)).1,
                err := (env.operation (GetState cb1) (GetMetrics cb1)).2, cb := cb3 })
          = some r →
        Shared.run { cb := cb1, callers := [Caller.admitted env] } [0, 0]
          = some { cb := r.cb, callers := [Caller.returned r.result r.err] } := by
      intro cb1 h1
      cases ho : (env.operation (GetState cb1) (GetMetrics cb1)).2 with
      | none =>
        rw [ho] at h1
        simp only [Option.some.injEq] at h1
        subst h1
        simp [Shared.run, Shared.step, advance, ho]
      | some e =>
        rw [ho] at h1
        simp only [] at h1
        cases hf : recordFailure { cb1 with trace := cb1.trace ++ [Event.operation cb1.state] }
            env.nowFailure env.nowRecord with
        | none => simp [hf] at h1
        | some cb3 =>
          simp only [hf, Option.some.injEq] at h1
          subst h1
          simp [Shared.run, Shared.step, advance, ho, hf]
    unfold canExecute at h
    by_cases hopen : GetState cb = State.StateOpen
    · have hopen' : cb.state = State.StateOpen := hopen
      simp only [hopen, if_true, hopen', ne_eq, not_true_eq_false, if_false] at h
      by_cases hready : isReady cb env.nowCheck = true
      · simp only [hready, Bool.not_true, Bool.false_eq_true, if_false] at h
        have := hrec _ h
        refine ⟨[0, 0, 0, 0], ?_⟩
        simp only [Shared.run] at this ⊢
        simp only [Shared.step, Shared.launch, advance, hctx, hopen, hopen', hready,
          List.map_cons, List.map_nil, List.getElem?_cons_zero, if_true, ne_eq,
          not_true_eq_false, if_false, Bool.not_true, Bool.false_eq_true, List.set_cons_zero]
        simpa [Shared.step] using this
      · have hr : isReady cb env.nowCheck = false := by
          cases h2 : isReady cb env.nowCheck with
          | false => rfl
          | true => exact absurd h2 hready
        simp only [hr, Bool.not_false, if_true, Option.some.injEq] at h
        subst h
        refine ⟨[0, 0], ?_⟩
        simp [Shared.run, Shared.step, Shared.launch, advance, hctx, hopen, hopen', hr]
    · simp only [hopen, if_false] at h
      have := hrec _ h
      refine ⟨[0, 0, 0], ?_⟩
      simp only [Shared.run] at this ⊢
      simp only [Shared.step, Shared.launch, advance, hctx, hopen, List.map_cons, List.map_nil,
        List.getElem?_cons_zero, if_false, List.set_cons_zero]
      simpa [Shared.step] using this

end CircuitBreaker
